import Mathlib

/-!
Verification of the fAST regular-expression inference engine
(`src/fast/regexp_ast.py`, `regexp_mutators.py`, `cbfs.py`, `fast.py`,
`objective_func.py`, `density.py`).

The Python `RegexpAst` stores a rooted ordered tree in three dictionaries
(`map_node_label`, `map_node_parent`, `map_node_children`) keyed by integer
node ids.  We embed those dictionaries as association lists (insertion
ordered, update-in-place, like Python dicts) and the methods as pure
functions on the resulting `RegexpAst` structure.  Worklist loops of the
source (epsilon closure, the recognizer DFS, the search driver) are embedded
with an explicit fuel argument; the fuel chosen for the epsilon closure is
proved sufficient.  Machine floats of the objective functions are modelled
with rationals.
-/

namespace FastV

/-- Lookup in an association list modelling a Python dict. -/
def mget {β : Type} (m : List (Nat × β)) (k : Nat) : Option β :=
  (m.find? (fun p => p.1 = k)).map (fun p => p.2)

/-- Assignment `m[k] = v` on a Python dict: update in place if the key is
present, otherwise append (Python dicts preserve insertion order). -/
def mset {β : Type} : List (Nat × β) → Nat → β → List (Nat × β)
  | [], k, v => [(k, v)]
  | (k', v') :: rest, k, v =>
    if k' = k then (k, v) :: rest else (k', v') :: mset rest k v

/-- Deletion `del m[k]` on a Python dict. -/
def mdel {β : Type} (m : List (Nat × β)) (k : Nat) : List (Nat × β) :=
  m.filter (fun p => ¬ p.1 = k)

/-- The `RegexpAst` arena: three dicts plus the two counters and the root id,
exactly the attributes set up by `RegexpAst.__init__`. -/
structure RegexpAst where
  num_nodes : Nat
  nodes_id : Nat
  map_node_label : List (Nat × String)
  map_node_parent : List (Nat × Option Nat)
  map_node_children : List (Nat × List Nat)
  root : Nat
  deriving DecidableEq, Repr

namespace RegexpAst

/-- Key set of the label dict: the vertex descriptors currently allocated. -/
def Nodes (a : RegexpAst) : Finset Nat :=
  (a.map_node_label.map Prod.fst).toFinset

/-- `label(u)`: lookup in `map_node_label` (Python raises on a missing key;
we totalize with the empty string, only ever used on allocated nodes). -/
def label (a : RegexpAst) (u : Nat) : String :=
  (mget a.map_node_label u).getD ("")

/-- `parent(u)`: lookup in `map_node_parent`. -/
def parent (a : RegexpAst) (u : Nat) : Option Nat :=
  (mget a.map_node_parent u).getD none

/-- `children(u)`: lookup in `map_node_children`.  The Python constructor
stores `[None]` for the fresh root; we encode that state as `[]`, so
`first_child` below returns `none` exactly when Python returns `None`. -/
def children (a : RegexpAst) (u : Nat) : List Nat :=
  (mget a.map_node_children u).getD []

/-- `add_node(label)`: allocate id `nodes_id`, register it in the three
dicts, bump both counters.  Returns the updated arena and the new id. -/
def add_node (a : RegexpAst) (lab : String) : RegexpAst × Nat :=
  let n := a.nodes_id
  ({ num_nodes := a.num_nodes + 1
     nodes_id := n + 1
     map_node_label := mset a.map_node_label n lab
     map_node_parent := mset a.map_node_parent n none
     map_node_children := mset a.map_node_children n []
     root := a.root }, n)

/-- `remove_node(u)`: delete `u` from the three dicts, decrement the
node count (`Nat` subtraction models the only use, where `num_nodes > 0`). -/
def remove_node (a : RegexpAst) (u : Nat) : RegexpAst :=
  { a with
    num_nodes := a.num_nodes - 1
    map_node_label := mdel a.map_node_label u
    map_node_parent := mdel a.map_node_parent u
    map_node_children := mdel a.map_node_children u }

/-- `is_downwards_arc(u, v)`: `v` is a child of `u`. -/
def is_downwards_arc (a : RegexpAst) (u v : Nat) : Prop :=
  a.parent v = some u

instance (a : RegexpAst) (u v : Nat) : Decidable (a.is_downwards_arc u v) :=
  by unfold is_downwards_arc; infer_instance

/-- `is_upwards_arc(u, v)`: `u` is a child of `v`. -/
def is_upwards_arc (a : RegexpAst) (u v : Nat) : Prop :=
  a.is_downwards_arc v u

instance (a : RegexpAst) (u v : Nat) : Decidable (a.is_upwards_arc u v) :=
  by unfold is_upwards_arc; infer_instance

/-- `is_unary(u)`: label in `{"+", "*", "?", ROOT}` (the source includes the
root sentinel here). -/
def is_unary (a : RegexpAst) (u : Nat) : Prop :=
  a.label u ∈ (["+", "*", "?", "root"] : List String)

instance (a : RegexpAst) (u : Nat) : Decidable (a.is_unary u) :=
  by unfold is_unary; infer_instance

/-- `is_n_ary(u)`: label in `{".", "|"}`. -/
def is_n_ary (a : RegexpAst) (u : Nat) : Prop :=
  a.label u ∈ ([".", "|"] : List String)

instance (a : RegexpAst) (u : Nat) : Decidable (a.is_n_ary u) :=
  by unfold is_n_ary; infer_instance

/-- `is_leaf(u)`: neither n-ary nor unary. -/
def is_leaf (a : RegexpAst) (u : Nat) : Prop :=
  ¬ a.is_n_ary u ∧ ¬ a.is_unary u

instance (a : RegexpAst) (u : Nat) : Decidable (a.is_leaf u) :=
  by unfold is_leaf; infer_instance

/-- `first_child(u)`: head of the child list (`none` both for the fresh
root's `[None]` entry and where Python would raise `IndexError`). -/
def first_child (a : RegexpAst) (u : Nat) : Option Nat :=
  (a.children u).head?

/-- `ith_child(u, i)` (callers guarantee `i` in range; the default value is
never reached there). -/
def ith_child (a : RegexpAst) (u : Nat) (i : Nat) : Nat :=
  (a.children u).getD i 0

/-- `is_last_child(u, v)`: `u` is the last child of `v`. -/
def is_last_child (a : RegexpAst) (u v : Nat) : Prop :=
  (a.children v).getLast? = some u

instance (a : RegexpAst) (u v : Nat) : Decidable (a.is_last_child u v) :=
  by unfold is_last_child; infer_instance

/-- `get_arc_index(u, v)`: position of `v` among the children of `u` for a
downward arc, symmetrically for an upward arc (the source recurses once on
the swapped pair; `List.indexOf` returns the length where Python raises). -/
def get_arc_index (a : RegexpAst) (u v : Nat) : Nat :=
  if a.is_upwards_arc u v then (a.children v).indexOf u
  else (a.children u).indexOf v

/-- Fallible variant of `get_arc_index` making the `ValueError` of
`list.index` observable; used by the mutators. -/
def get_arc_index? (a : RegexpAst) (u v : Nat) : Option Nat :=
  if a.is_upwards_arc u v then
    if u ∈ a.children v then some ((a.children v).indexOf u) else none
  else
    if v ∈ a.children u then some ((a.children u).indexOf v) else none

/-- `num_children(u)`. -/
def num_children (a : RegexpAst) (u : Nat) : Nat :=
  (a.children u).length

/-- `set_child(u, v)` with `set_parent=True`. -/
def set_child (a : RegexpAst) (u v : Nat) : RegexpAst :=
  { a with
    map_node_children := mset a.map_node_children u [v]
    map_node_parent := mset a.map_node_parent v (some u) }

/-- `set_children(u, vs)` with `set_parents=True`. -/
def set_children (a : RegexpAst) (u : Nat) (vs : List Nat) : RegexpAst :=
  { a with
    map_node_children := mset a.map_node_children u vs
    map_node_parent :=
      vs.foldl (fun m v => mset m v (some u)) a.map_node_parent }

/-- `set_ith_child(u, v, i)` with `set_parent=True` (`List.set` ignores an
out-of-range index where Python raises; callers stay in range). -/
def set_ith_child (a : RegexpAst) (u v i : Nat) : RegexpAst :=
  { a with
    map_node_children := mset a.map_node_children u ((a.children u).set i v)
    map_node_parent := mset a.map_node_parent v (some u) }

/-- `append_child(u, v)` with `set_parent=True`. -/
def append_child (a : RegexpAst) (u v : Nat) : RegexpAst :=
  { a with
    map_node_children := mset a.map_node_children u (a.children u ++ [v])
    map_node_parent := mset a.map_node_parent v (some u) }

/-- `copy()`: `deepcopy` of a pure value. -/
def copy (a : RegexpAst) : RegexpAst := a

end RegexpAst

/-- `RegexpAst()` constructor: empty dicts, then `add_node("root")`
followed by `set_child(root, None)` (our `[]` encoding of `[None]`). -/
def RegexpAst.new : RegexpAst :=
  let a0 : RegexpAst :=
    { num_nodes := 0, nodes_id := 0, map_node_label := []
      map_node_parent := [], map_node_children := [], root := 0 }
  let (a1, r) := a0.add_node ("root")
  { a1 with root := r }

/-- An arc of the AST: a source node and an optional target (`None` stands
for the parent of the root). -/
abbrev Arc := Nat × Option Nat

namespace RegexpAst

/-- `epsilon_successors(u, v)`: the arcs one epsilon step away from `(u, v)`,
including `(u, v)` itself, exactly as in the source (the `v is None` branch
corresponds to the asserted root case).  Python builds a set; we model it as
a deduplicated list and only ever use membership. -/
def epsilon_successors (a : RegexpAst) : Arc → List Arc
  | (u, none) => [(u, a.first_child u)]
  | (u, some v) =>
    let base : List Arc := [(u, some v)]
    (if a.is_downwards_arc u v then
      if a.label v = "+" then base ++ [(v, a.first_child v)]
      else if a.label v = "*" ∨ a.label v = "?" then
        base ++ [(v, some u), (v, a.first_child v)]
      else if a.label v = "." then base ++ [(v, a.first_child v)]
      else if a.label v = "|" then
        base ++ (a.children v).map (fun c => ((v, some c) : Arc))
      else base
    else
      if a.label v = "+" ∨ a.label v = "*" then
        base ++ [(v, some u), (v, a.parent v)]
      else if a.label v = "?" then base ++ [(v, a.parent v)]
      else if a.label v = "." then
        if a.is_last_child u v then base ++ [(v, a.parent v)]
        else base ++ [(v, some (a.ith_child v (a.get_arc_index v u + 1)))]
      else if a.label v = "|" then base ++ [(v, a.parent v)]
      else base).dedup

/-- Single-step table of the specification (§4.1 of the spec): the next
arcs contributed by an arc `(u, v)`, the initial arc excluded.  A second,
spec-side definition kept separate from `epsilon_successors` so that the
worklist can be compared against the spec's table. -/
def specStep (a : RegexpAst) : Arc → List Arc
  | (_, none) => []
  | (u, some v) =>
    if a.is_downwards_arc u v then
      if a.label v = "+" ∨ a.label v = "." then [(v, a.first_child v)]
      else if a.label v = "*" ∨ a.label v = "?" then
        [(v, some u), (v, a.first_child v)]
      else if a.label v = "|" then
        (a.children v).map (fun c => ((v, some c) : Arc))
      else []
    else if a.is_upwards_arc u v then
      if a.label v = "+" ∨ a.label v = "*" then
        [(v, some u), (v, a.parent v)]
      else if a.label v = "?" ∨ a.label v = "|" then [(v, a.parent v)]
      else if a.label v = "." then
        if a.is_last_child u v then [(v, a.parent v)]
        else [(v, some (a.ith_child v (a.get_arc_index v u + 1)))]
      else []
    else []

/-- Worklist of `epsilon_reachables`, with explicit fuel: pop an arc, add
its unseen epsilon successors to the result set and the stack. -/
def epsReachAux (a : RegexpAst) : Nat → List Arc → List Arc → List Arc
  | 0, _, res => res
  | _ + 1, [], res => res
  | fuel + 1, x :: stack, res =>
    let nw := ((a.epsilon_successors x).filter (fun y => ¬ y ∈ res)).dedup
    epsReachAux a fuel (nw ++ stack) (res ++ nw)

/-- All arcs over the allocated nodes; bounds the worklist. -/
def Univ (a : RegexpAst) : Finset Arc :=
  a.Nodes ×ˢ insert none (a.Nodes.image some)

/-- `epsilon_reachables(u, v)`: transitive closure of `epsilon_successors`
from the arc `(u, v)`, which is itself included.  The fuel `|Univ| + 1` is
proved sufficient below. -/
def epsilon_reachables (a : RegexpAst) (u : Nat) (v : Option Nat) :
    List Arc :=
  epsReachAux a ((a.Univ).card + 1) [(u, v)] [(u, v)]

/-- Structural well-formedness of an arena, implicit throughout the source:
consistent parent/children dicts describing a tree rooted at `root`, with
ids below the allocator counter and operator nodes non-childless. -/
def WellFormed (a : RegexpAst) : Prop :=
  a.root ∈ a.Nodes ∧
  a.label a.root = "root" ∧
  a.parent a.root = none ∧
  (∀ u ∈ a.Nodes, ∀ c ∈ a.children u, c ∈ a.Nodes) ∧
  (∀ u ∈ a.Nodes, ∀ c ∈ a.Nodes, (c ∈ a.children u ↔ a.parent c = some u)) ∧
  (∀ u ∈ a.Nodes, (a.children u).Nodup) ∧
  (∀ u ∈ a.Nodes, ∀ p, a.parent u = some p → p ∈ a.Nodes) ∧
  (∀ u ∈ a.Nodes, ¬ u = a.root → ¬ a.parent u = none) ∧
  (∀ u ∈ a.Nodes,
    a.label u ∈ (["+", "*", "?", ".", "|"] : List String) →
    ¬ a.children u = []) ∧
  (∀ u ∈ a.Nodes, u < a.nodes_id)

instance (a : RegexpAst) : Decidable a.WellFormed :=
  by unfold WellFormed; infer_instance

/-- `set_label(u, label)`. -/
def set_label (a : RegexpAst) (u : Nat) (lab : String) : RegexpAst :=
  { a with map_node_label := mset a.map_node_label u lab }

/-- Recursion of `to_prefix_regexp_str`, with fuel bounding the recursion
depth (`num_nodes + 1` suffices on trees; Python overflows the Python stack
where the fuel runs out). -/
def toPrefixRegexpStrAux (a : RegexpAst) : Nat → Nat → String
  | 0, _ => ""
  | fuel + 1, u =>
    let lab := a.label u
    if a.is_n_ary u then
      lab ++ "(" ++
        String.intercalate (",")
          ((a.children u).map (toPrefixRegexpStrAux a fuel)) ++ ")"
    else if a.is_unary u then
      lab ++ (match a.first_child u with
        | none => ""
        | some v => toPrefixRegexpStrAux a fuel v)
    else lab

/-- `to_prefix_regexp_str()`: returns `""` on the empty AST. -/
def toPrefixRegexpStr (a : RegexpAst) : String :=
  match a.first_child a.root with
  | none => ""
  | some u => toPrefixRegexpStrAux a (a.num_nodes + 1) u

/-- Recursion of `to_prefix_regexp_list` (the comma is skipped exactly when
the child equals the first child, as in the source). -/
def toPrefixRegexpListAux (a : RegexpAst) : Nat → Nat → List String
  | 0, _ => []
  | fuel + 1, u =>
    let lab := a.label u
    if a.is_n_ary u then
      ((a.children u).foldl
        (fun acc v =>
          acc ++ (if some v = a.first_child u then [] else [","]) ++
            toPrefixRegexpListAux a fuel v)
        [lab, "("]) ++ [")"]
    else if a.is_unary u then
      lab :: (match a.first_child u with
        | none => []
        | some v => toPrefixRegexpListAux a fuel v)
    else [lab]

/-- `to_prefix_regexp_list()`: returns `[]` on the empty AST. -/
def toPrefixRegexpList (a : RegexpAst) : List String :=
  match a.first_child a.root with
  | none => []
  | some u => toPrefixRegexpListAux a (a.num_nodes + 1) u

/-- Recursion of `to_infix_regexp_str`; `none` models a raised exception.
Every call re-checks `u == first_child(root)` and then strips one outer
parenthesis pair, as in the source (`result[0]` on the empty string raises,
hence the `[]` branch returns `none`). -/
def toInfixRegexpStrAux (a : RegexpAst) : Nat → Nat → Option String
  | 0, _ => none
  | fuel + 1, u => do
    let lab := a.label u
    let result ←
      if a.is_n_ary u then do
        let parts ← ((a.children u).enum).mapM (fun p => do
          let s ← toInfixRegexpStrAux a fuel p.2
          pure (s ++ (if p.1 > 0 then ")" else "")))
        pure (String.join (List.replicate ((a.children u).length - 1) ("(")) ++
          String.intercalate lab parts)
      else if a.is_unary u then
        match a.first_child u with
        | none => none
        | some c => do
          let s ← toInfixRegexpStrAux a fuel c
          let cl := a.is_leaf c
          pure ((if cl then "" else "(") ++ s ++
            (if cl then "" else ")") ++ lab)
      else pure lab
    if some u = a.first_child a.root then
      match result.toList with
      | [] => none
      | ch :: _ =>
        if ch = '(' ∧ result.toList.getLast? = some ')' then
          pure (String.mk ((result.toList.drop 1).dropLast))
        else pure result
    else pure result

/-- `to_infix_regexp_str()`: on the empty AST the source assigns
`result = ""` but falls through (missing `return`) into
`self.label(None)`, which raises `KeyError`; hence `none` there. -/
def toInfixRegexpStr (a : RegexpAst) : Option String :=
  match a.first_child a.root with
  | none => none
  | some u => toInfixRegexpStrAux a (a.num_nodes + 1) u

/-- `walk_one_char(u, a)`: the leaves labeled `a` whose incoming arc is
epsilon-reachable from `(u, parent(u))`. -/
def walk_one_char (a : RegexpAst) (u : Nat) (sym : String) : List Nat :=
  ((a.epsilon_reachables u (a.parent u)).filterMap (fun arc =>
    match arc.2 with
    | some vv => if a.label vv = sym then some vv else none
    | none => none)).dedup

/-- `walk_word(w)` from the root: iterate `walk_one_char` over the symbols
of `w`, starting from the root sentinel. -/
def walk_word (a : RegexpAst) (w : List String) : List Nat :=
  w.foldl
    (fun locs sym => (locs.flatMap (fun leaf => a.walk_one_char leaf sym)).dedup)
    [a.root]

/-- `recognizes_prefix(prefix, leaf_to_end_on)`. -/
def recognizesPref (a : RegexpAst) (pword : List String)
    (leaf_to_end_on : Nat) : Bool :=
  decide (leaf_to_end_on ∈ a.walk_word pword)

/-- `recognizes_word(w)`: some leaf reached by `w` has the root among its
epsilon-reachable targets. -/
def recognizes_word (a : RegexpAst) (w : List String) : Bool :=
  (a.walk_word w).any (fun leaf =>
    (a.epsilon_reachables leaf (a.parent leaf)).any
      (fun arc => arc.2 == some a.root))

end RegexpAst

/-- The `PatternAutomaton` interface consumed by the engine: the underlying
word, the final states and the labeled out-edges `(target, label)`.  The
construction of pattern automata (multi_grep, pybgl) is an external
collaborator and is not modelled. -/
structure PatAut where
  w : List String
  finalStates : List Nat
  outEdges : Nat → List (Nat × String)

/-- `pa.is_final(q)`. -/
def PatAut.is_final (pa : PatAut) (q : Nat) : Bool :=
  pa.finalStates.contains q

/-- An input example of the engine: a plain string (a list of one-character
symbols) or a `PatternAutomaton`. -/
inductive PExample where
  | str : List String → PExample
  | pa : PatAut → PExample

namespace RegexpAst

/-- Budget for the depth-first searches of `recognizes_pa` and
`recognizes_pa_prefix`, which the source runs without a visited set (and
without any termination guarantee on cyclic automata). -/
def paSearchFuel : Nat := 2 ^ 20

/-- DFS of `recognizes_pa`: on a final `q`, test epsilon-reachability of the
root and otherwise discard the pair; on a non-final `q`, push `(leaf, r)`
for each out-edge and compatible leaf. -/
def recognizesPaAux (a : RegexpAst) (pa : PatAut) :
    Nat → List (Nat × Nat) → Bool
  | 0, _ => false
  | _ + 1, [] => false
  | fuel + 1, (u, q) :: stack =>
    if pa.is_final q then
      if (a.epsilon_reachables u (a.parent u)).any
          (fun arc => arc.2 == some a.root) then true
      else recognizesPaAux a pa fuel stack
    else
      recognizesPaAux a pa fuel
        (((pa.outEdges q).flatMap (fun er =>
          (a.walk_one_char u er.2).map (fun leaf => (leaf, er.1)))) ++ stack)

/-- `recognizes_pa(pa)`. -/
def recognizes_pa (a : RegexpAst) (pa : PatAut) : Bool :=
  recognizesPaAux a pa paSearchFuel [(a.root, 0)]

/-- DFS of `recognizes_pa_prefix`: accept on reaching exactly
`(target_ast_leaf, target_pa_node)`, prune pairs past the target. -/
def recognizesPaPrefAux (a : RegexpAst) (pa : PatAut)
    (target_pa_node target_ast_leaf : Nat) :
    Nat → List (Nat × Nat) → Bool
  | 0, _ => false
  | _ + 1, [] => false
  | fuel + 1, (u, q) :: stack =>
    if u = target_ast_leaf ∧ q = target_pa_node then true
    else if q > target_pa_node then
      recognizesPaPrefAux a pa target_pa_node target_ast_leaf fuel stack
    else
      recognizesPaPrefAux a pa target_pa_node target_ast_leaf fuel
        (((pa.outEdges q).flatMap (fun er =>
          (a.walk_one_char u er.2).map (fun leaf => (leaf, er.1)))) ++ stack)

/-- `recognizes_pa_prefix(pa, target_pa_node, target_ast_leaf)`. -/
def recognizesPaPref (a : RegexpAst) (pa : PatAut)
    (target_pa_node target_ast_leaf : Nat) : Bool :=
  recognizesPaPrefAux a pa target_pa_node target_ast_leaf paSearchFuel
    [(a.root, 0)]

/-- `recognizes(x)`: dispatch on the example kind. -/
def recognizes (a : RegexpAst) : PExample → Bool
  | .str w => a.recognizes_word w
  | .pa p => a.recognizes_pa p

/-- Recursion of `simplify_unary_nodes`: collapse a unary node whose first
child is unary (relabeling to `*` when the two operators differ), retrying
at the same node, and otherwise descend. -/
def simplifyUnaryNodesAux (a : RegexpAst) : Nat → Nat → RegexpAst
  | 0, _ => a
  | fuel + 1, u =>
    if a.is_n_ary u then
      (a.children u).foldl (fun acc v => simplifyUnaryNodesAux acc fuel v) a
    else if a.is_unary u then
      match a.first_child u with
      | none => a
      | some v =>
        if a.is_unary v then
          let a1 := if ¬ a.label u = a.label v then a.set_label u ("*") else a
          match a1.first_child v with
          | none => a1
          | some v_child =>
            simplifyUnaryNodesAux ((a1.set_child u v_child).remove_node v)
              fuel u
        else simplifyUnaryNodesAux a fuel v
    else a

/-- `simplify_unary_nodes()`. -/
def simplify_unary_nodes (a : RegexpAst) : RegexpAst :=
  match a.first_child a.root with
  | none => a
  | some u => simplifyUnaryNodesAux a (2 * a.num_nodes + 2) u

/-- `merge_n_ary_nodes(u, v)`: splice the children of `v` into `u` at `v`'s
position, reparent them and remove `v`. -/
def merge_n_ary_nodes (a : RegexpAst) (u v : Nat) : RegexpAst :=
  let i := a.get_arc_index u v
  let a1 : RegexpAst :=
    { a with
      map_node_children := mset a.map_node_children u
        ((a.children u).take i ++ a.children v ++ (a.children u).drop (i + 1)) }
  let a2 := (a.children v).foldl
    (fun m c =>
      { m with map_node_parent := mset m.map_node_parent c (some u) }) a1
  a2.remove_node v

/-- Recursion of `simplify_n_ary_nodes`: merge the first child carrying the
same operator label and retry at the same node, otherwise descend. -/
def simplifyNAryNodesAux (a : RegexpAst) : Nat → Nat → RegexpAst
  | 0, _ => a
  | fuel + 1, u =>
    if a.is_unary u then
      match a.first_child u with
      | none => a
      | some v => simplifyNAryNodesAux a fuel v
    else if a.is_n_ary u then
      match (a.children u).find? (fun v => a.label v = a.label u) with
      | some v => simplifyNAryNodesAux (a.merge_n_ary_nodes u v) fuel u
      | none =>
        (a.children u).foldl (fun acc v => simplifyNAryNodesAux acc fuel v) a
    else a

/-- `simplify_n_ary_nodes()`. -/
def simplify_n_ary_nodes (a : RegexpAst) : RegexpAst :=
  match a.first_child a.root with
  | none => a
  | some u => simplifyNAryNodesAux a (2 * a.num_nodes + 2) u

/-- Recursion of `reorder_or_nodes`: reorder below, then stably sort the
children of `|` nodes by the canonical prefix string of their subtrees. -/
def reorderOrNodesAux (a : RegexpAst) : Nat → Nat → RegexpAst
  | 0, _ => a
  | fuel + 1, u =>
    if a.is_unary u then
      match a.first_child u with
      | none => a
      | some v => reorderOrNodesAux a fuel v
    else if a.is_n_ary u then
      let a1 := (a.children u).foldl (fun acc v => reorderOrNodesAux acc fuel v) a
      if a1.label u = "|" then
        { a1 with
          map_node_children := mset a1.map_node_children u
            (List.insertionSort (fun x y =>
              toPrefixRegexpStrAux a1 (a1.num_nodes + 1) x ≤
                toPrefixRegexpStrAux a1 (a1.num_nodes + 1) y)
              (a1.children u)) }
      else a1
    else a

/-- `reorder_or_nodes()`. -/
def reorder_or_nodes (a : RegexpAst) : RegexpAst :=
  match a.first_child a.root with
  | none => a
  | some u => reorderOrNodesAux a (2 * a.num_nodes + 2) u

/-- Recursion of `remove_unary_n_aries`: replace a singleton n-ary node by
its only child inside its parent and continue at that child. -/
def removeUnaryNAriesAux (a : RegexpAst) : Nat → Nat → RegexpAst
  | 0, _ => a
  | fuel + 1, u =>
    if a.is_unary u then
      match a.first_child u with
      | none => a
      | some v => removeUnaryNAriesAux a fuel v
    else if a.is_n_ary u then
      if (a.children u).length = 1 then
        match a.parent u, a.first_child u with
        | some u_parent, some u_child =>
          let i := a.get_arc_index u_parent u
          removeUnaryNAriesAux ((a.set_ith_child u_parent u_child i).remove_node u)
            fuel u_child
        | _, _ => a
      else
        (a.children u).foldl (fun acc v => removeUnaryNAriesAux acc fuel v) a
    else a

/-- `remove_unary_n_aries()`. -/
def remove_unary_n_aries (a : RegexpAst) : RegexpAst :=
  match a.first_child a.root with
  | none => a
  | some u => removeUnaryNAriesAux a (2 * a.num_nodes + 2) u

/-- `simplify()`: the four passes in source order. -/
def simplify (a : RegexpAst) : RegexpAst :=
  a.simplify_unary_nodes.simplify_n_ary_nodes.reorder_or_nodes.remove_unary_n_aries

end RegexpAst

/-- `set.add` on a list modelling a Python set of arcs. -/
def addArc (s : List Arc) (x : Arc) : List Arc :=
  if x ∈ s then s else s ++ [x]

/-- `set |= {…}`. -/
def addArcs (s : List Arc) (xs : List Arc) : List Arc :=
  xs.foldl addArc s

/-- `set.remove(x)`: `none` models the `KeyError` raised on a missing
element. -/
def removeArc? (s : List Arc) (x : Arc) : Option (List Arc) :=
  if x ∈ s then some (s.filter (fun y => ¬ y = x)) else none

/-- `set.remove(x)` behind an `in` guard (never fails at its call sites). -/
def removeArc (s : List Arc) (x : Arc) : List Arc :=
  s.filter (fun y => ¬ y = x)

/-- Set difference on arc lists. -/
def sdiffArc (s t : List Arc) : List Arc :=
  s.filter (fun y => ¬ y ∈ t)

/-- Set union on arc lists. -/
def sunionArc (s t : List Arc) : List Arc :=
  addArcs s t

/-- The common signature of `Mutator.mutate`: the AST, the symbol σ, the
arc `(u, v)`, the prefix word, the previously processed examples, the
epsilon-reachable arcs and the current example; `none` models a raised
exception, `some pairs` the returned list of `(new_ast, new_leaf)`. -/
def MutFn : Type :=
  RegexpAst → String → Nat → Option Nat → List String → List PExample →
    List Arc → PExample → Option (List (RegexpAst × Nat))

/-- `DisjunctionMutator.mutate`: insert `|` in place of `v` under `u`, with
the original `v` and a new σ-leaf as its children. -/
def disjunction_mutate : MutFn :=
  fun ast c u v _pword _prev _eps _cpa =>
  match v with
  | none => some []
  | some v' =>
    if ast.is_upwards_arc u v' then some []
    else do
      let new_ast := ast.copy
      let (a1, new_or_node) := new_ast.add_node ("|")
      let (a2, new_leaf) := a1.add_node c
      let i ← a2.get_arc_index? u v'
      let a3 := a2.set_ith_child u new_or_node i
      let a4 := a3.append_child new_or_node v'
      let a5 := a4.append_child new_or_node new_leaf
      some [(a5, new_leaf)]

/-- `BotMutator.mutate`: on the empty AST, attach one σ-leaf to the root. -/
def bot_mutate : MutFn :=
  fun ast c u v _pword _prev _eps _cpa =>
  if ¬ u = ast.root ∨ ¬ v = none ∨ ast.num_nodes > 1 then some []
  else
    let new_ast := ast.copy
    let (a1, new_leaf) := new_ast.add_node c
    some [(a1.set_child u new_leaf, new_leaf)]

/-- `ActivateMutator.mutate`: return the input AST itself with `v` as the
new active leaf (note: no `copy()` in the source). -/
def activate_mutate : MutFn :=
  fun ast c _u v _pword _prev _eps _cpa =>
  match v with
  | none => some []
  | some v' =>
    if ¬ ast.is_leaf v' ∨ ¬ ast.label v' = c then some []
    else some [(ast, v')]

/-- `DownDotMutator.mutate`: insert `.` in place of `v` under `u`, with
`? → new σ-leaf` as left child and the original `v` as right child (the
conditional bare-leaf variant is commented out in the source). -/
def down_dot_mutate : MutFn :=
  fun ast c u v _pword _prev _eps _cpa =>
  match v with
  | none => some []
  | some v' =>
    if ast.is_upwards_arc u v' then some []
    else do
      let new_ast := ast.copy
      let (a1, new_dot_node) := new_ast.add_node (".")
      let (a2, new_leaf) := a1.add_node c
      let (a3, new_question_node) := a2.add_node ("?")
      let i ← a3.get_arc_index? u v'
      let a4 := a3.set_ith_child u new_dot_node i
      let a5 := a4.append_child new_dot_node new_question_node
      let a6 := a5.append_child new_dot_node v'
      let a7 := a6.set_child new_question_node new_leaf
      some [(a7, new_leaf)]

/-- Lines 224–232 of `UpDotMutator.mutate`: copy, allocate the `.` node and
the σ-leaf, and insert the `.` in the middle of the upward arc `(u, v')`
with the original `u`-subtree as first child and the leaf as second.
Returns the extended arena with the two fresh ids. -/
def up_dot_insert (ast : RegexpAst) (c : String) (u v' : Nat) :
    Option (RegexpAst × Nat × Nat) :=
  let new_ast := ast.copy
  let (a1, new_dot_node) := new_ast.add_node (".")
  let (a2, new_leaf) := a1.add_node c
  (a2.get_arc_index? v' u).map (fun i =>
    let a3 := a2.set_ith_child v' new_dot_node i
    let a4 := a3.append_child new_dot_node u
    (a4.append_child new_dot_node new_leaf, new_dot_node, new_leaf))

/-- The recognition test of `UpDotMutator.mutate` deciding whether the new
leaf is emitted bare: the extended AST recognizes the current prefix ending
at the new leaf and every previously processed example. -/
def up_dot_hit (a5 : RegexpAst) (new_leaf : Nat) (pword : List String)
    (prev : List PExample) (cpa : PExample) : Bool :=
  (match cpa with
    | .str _ => a5.recognizesPref pword new_leaf
    | .pa p => a5.recognizesPaPref p (pword.length - 1) new_leaf) &&
    prev.all (fun w => a5.recognizes w)

/-- The `?`-wrapping tail of `UpDotMutator.mutate`. -/
def up_dot_wrap (a5 : RegexpAst) (new_dot_node new_leaf : Nat) :
    Option RegexpAst :=
  let (a6, new_question_node) := a5.add_node ("?")
  (a6.get_arc_index? new_dot_node new_leaf).map (fun j =>
    let a7 := a6.set_ith_child new_dot_node new_question_node j
    a7.set_child new_question_node new_leaf)

/-- `UpDotMutator.mutate`: insert `.` in the middle of the upward arc
`(u, v)` with the original `u`-subtree first and a new σ-leaf second; keep
the leaf bare iff the result recognizes the current prefix ending at the
new leaf and every previously processed example, else wrap it under `?`. -/
def up_dot_mutate : MutFn :=
  fun ast c u v pword prev _eps cpa =>
  match v with
  | none => some []
  | some v' =>
    if ast.is_downwards_arc u v' then some []
    else do
      let (a5, new_dot_node, new_leaf) ← up_dot_insert ast c u v'
      if up_dot_hit a5 new_leaf pword prev cpa then
        some [(a5, new_leaf)]
      else do
        let a8 ← up_dot_wrap a5 new_dot_node new_leaf
        some [(a8, new_leaf)]

/-- A candidate produced by the first phase of a bouncing mutator: the new
AST together with all epsilon-reachable arcs and the newly reachable ones. -/
abbrev BounceCand := RegexpAst × List Arc × List Arc

/-- Second phase of both bouncers: every bounced mutator is applied to every
newly epsilon-reachable arc of every candidate. -/
def bounceApply (bounceOn : List MutFn) (c : String) (pword : List String)
    (prev : List PExample) (cpa : PExample) (cands : List BounceCand) :
    Option (List (RegexpAst × Nat)) :=
  cands.foldlM (fun acc cand =>
    cand.2.2.foldlM (fun acc2 arc =>
      bounceOn.foldlM (fun acc3 m => do
        let r ← m cand.1 c arc.1 arc.2 pword prev cand.2.1 cpa
        pure (acc3 ++ r)) acc2) acc) []

/-- `BouncePlusMutator.mutate`: insert a `+` above `u` (plus the `.` range
and `|` subset variants when `v` is n-ary), recompute the epsilon-reachable
arcs locally, and apply the bounced mutators to every newly reachable arc. -/
def bounce_plus_mutate (bounceOn : List MutFn) : MutFn :=
  fun ast c u v pword prev eps cpa =>
  match v with
  | none => some []
  | some v' =>
    if ast.is_downwards_arc u v' then some []
    else if (v', some u) ∈ eps then some []
    else do
      -- the simple candidate: a `+` directly between u and v
      let new_ast := ast.copy
      let (a1, new_plus_node) := new_ast.add_node ("+")
      let i0 ← a1.get_arc_index? v' u
      let a2 := a1.set_ith_child v' new_plus_node i0
      let a3 := a2.set_child new_plus_node u
      let base0 := addArcs eps [(new_plus_node, some v'), (u, some new_plus_node)]
      let local0 ← removeArc? base0 (u, some v')
      let newEps0 := a3.epsilon_reachables new_plus_node (some u)
      let cand0 : BounceCand :=
        (a3, sunionArc newEps0 local0, sdiffArc newEps0 local0)
      -- the `.` range candidates
      let dotCands ←
        if ast.is_n_ary v' ∧ ast.label v' = "." then do
          let i ← ast.get_arc_index? v' u
          (List.range i).foldlM (fun acc j =>
            if i = ast.num_children v' ∧ j = 0 then pure acc
            else do
              let nb := ast.copy
              let (b1, plusN) := nb.add_node ("+")
              let (b2, dotN) := b1.add_node (".")
              let v_children := b2.children v'
              let b3 := b2.set_children v'
                (v_children.take j ++ [plusN] ++ v_children.drop (i + 1))
              let b4 := b3.set_child plusN dotN
              let seg := (v_children.take (i + 1)).drop j
              let b5 := b4.set_children dotN seg
              let lc0 ← removeArc? eps (u, some v')
              let lc1 := addArcs lc0
                [(u, some dotN), (dotN, some plusN), (plusN, some v')]
              let lc2 := seg.foldl (fun l ch =>
                let l1 :=
                  if ((ch, some v') : Arc) ∈ l then
                    addArc (removeArc l (ch, some v')) (ch, some dotN)
                  else l
                if ((v', some ch) : Arc) ∈ l1 then
                  addArc (removeArc l1 (v', some ch)) (dotN, some ch)
                else l1) lc1
              let ne := b5.epsilon_reachables plusN (some dotN)
              pure (acc ++ [(b5, sunionArc ne lc2, sdiffArc ne lc2)])) []
        else pure []
      -- the `|` subset candidates
      let orCands ←
        if ast.is_n_ary v' ∧ ast.label v' = "|" then do
          let i ← ast.get_arc_index? v' u
          let others := (ast.children v').take i ++ (ast.children v').drop (i + 1)
          let combos := ((List.range others.length).drop 1).flatMap
            (fun k => List.sublistsLen k others)
          combos.foldlM (fun acc combi => do
            let nb := ast.copy
            let (c1, plusN) := nb.add_node ("+")
            let (c2, orN) := c1.add_node ("|")
            let children_leaving := combi ++ [u]
            let children_staying :=
              (c2.children v').filter (fun ch => ¬ ch ∈ children_leaving)
            if children_staying = [] then pure acc
            else do
              let c3 := c2.set_children v' (children_staying ++ [plusN])
              let c4 := c3.set_child plusN orN
              let c5 := c4.set_children orN children_leaving
              let lc0 ← removeArc? eps (u, some v')
              let lc1 := addArcs lc0
                [(u, some orN), (orN, some plusN), (plusN, some v')]
              let lc2 := children_leaving.foldl (fun l ch =>
                let l1 :=
                  if ((ch, some v') : Arc) ∈ l then
                    addArc (removeArc l (ch, some v')) (ch, some orN)
                  else l
                if ((v', some ch) : Arc) ∈ l1 then
                  addArc (removeArc l1 (v', some ch)) (orN, some ch)
                else l1) lc1
              let ne := c5.epsilon_reachables plusN (some orN)
              pure (acc ++ [(c5, sunionArc ne lc2, sdiffArc ne lc2)])) []
        else pure []
      bounceApply bounceOn c pword prev cpa ([cand0] ++ dotCands ++ orCands)

/-- `BounceQuestionMutator.mutate`: symmetric to `BouncePlusMutator` with a
`?` inserted on a downward arc, `.` ranges to the right of `v` and `|`
subsets containing `v`. -/
def bounce_question_mutate (bounceOn : List MutFn) : MutFn :=
  fun ast c u v pword prev eps cpa =>
  match v with
  | none => some []
  | some v' =>
    if ast.is_upwards_arc u v' then some []
    else if (v', some u) ∈ eps then some []
    else do
      -- the simple candidate: a `?` directly between u and v
      let new_ast := ast.copy
      let (a1, new_question_node) := new_ast.add_node ("?")
      let i0 ← a1.get_arc_index? u v'
      let a2 := a1.set_ith_child u new_question_node i0
      let a3 := a2.set_child new_question_node v'
      let base0 := addArcs eps [(u, some new_question_node), (new_question_node, some v')]
      let local0 ← removeArc? base0 (u, some v')
      let newEps0 := a3.epsilon_reachables new_question_node (some u)
      let cand0 : BounceCand :=
        (a3, sunionArc newEps0 local0, sdiffArc newEps0 local0)
      -- the `.` range candidates
      let dotCands ←
        if ast.is_n_ary u ∧ ast.label u = "." then do
          let i ← ast.get_arc_index? u v'
          ((List.range (ast.num_children u)).drop (i + 1)).foldlM (fun acc j =>
            if i = 0 ∧ j = ast.num_children u - 1 then pure acc
            else do
              let nb := ast.copy
              let (b1, questionN) := nb.add_node ("?")
              let (b2, dotN) := b1.add_node (".")
              let u_children := b2.children u
              let b3 := b2.set_children u
                (u_children.take i ++ [questionN] ++ u_children.drop (j + 1))
              let b4 := b3.set_child questionN dotN
              let seg := (u_children.take (j + 1)).drop i
              let b5 := b4.set_children dotN seg
              let lc0 ← removeArc? eps (u, some v')
              let lc1 := addArcs lc0
                [(u, some questionN), (questionN, some dotN), (dotN, some v')]
              let lc2 := seg.foldl (fun l ch =>
                let l1 :=
                  if ((u, some ch) : Arc) ∈ l then
                    addArc (removeArc l (u, some ch)) (dotN, some ch)
                  else l
                if ((ch, some u) : Arc) ∈ l1 then
                  addArc (removeArc l1 (ch, some u)) (ch, some dotN)
                else l1) lc1
              let ne := b5.epsilon_reachables questionN (some u)
              pure (acc ++ [(b5, sunionArc ne lc2, sdiffArc ne lc2)])) []
        else pure []
      -- the `|` subset candidates
      let orCands ←
        if ast.is_n_ary u ∧ ast.label u = "|" then do
          let i ← ast.get_arc_index? u v'
          let others := (ast.children u).take i ++ (ast.children u).drop (i + 1)
          let combos := ((List.range others.length).drop 1).flatMap
            (fun k => List.sublistsLen k others)
          combos.foldlM (fun acc combi => do
            let nb := ast.copy
            let (c1, questionN) := nb.add_node ("?")
            let (c2, orN) := c1.add_node ("|")
            let children_leaving := combi ++ [v']
            let children_staying :=
              (c2.children u).filter (fun ch => ¬ ch ∈ children_leaving)
            if children_staying = [] then pure acc
            else do
              let c3 := c2.set_children u (children_staying ++ [questionN])
              let c4 := c3.set_child questionN orN
              let c5 := c4.set_children orN children_leaving
              let lc0 ← removeArc? eps (u, some v')
              let lc1 := addArcs lc0
                [(u, some questionN), (questionN, some orN), (orN, some v')]
              let lc2 := children_leaving.foldl (fun l ch =>
                let l1 :=
                  if ((u, some ch) : Arc) ∈ l then
                    addArc (removeArc l (u, some ch)) (orN, some ch)
                  else l
                if ((ch, some u) : Arc) ∈ l1 then
                  addArc (removeArc l1 (ch, some u)) (ch, some orN)
                else l1) lc1
              let ne := c5.epsilon_reachables questionN (some u)
              pure (acc ++ [(c5, sunionArc ne lc2, sdiffArc ne lc2)])) []
        else pure []
      bounceApply bounceOn c pword prev cpa ([cand0] ++ dotCands ++ orCands)

/-- The mutator family the driver instantiates: each mutator receives the
whole list to bounce on (`mutator(MUTATORS)` in `fast_from_strings`); the
mutual recursion of the bouncers through that list is tied with a depth
budget, below which a bouncer bounces on nothing. -/
def mutatorsRec : Nat → List MutFn
  | 0 => []
  | d + 1 =>
    [disjunction_mutate, bot_mutate, activate_mutate, up_dot_mutate,
     down_dot_mutate, bounce_plus_mutate (mutatorsRec d),
     bounce_question_mutate (mutatorsRec d)]

/-- `MUTATORS`, instantiated with a generous bounce depth. -/
def MUTATORS : List MutFn := mutatorsRec 8

/-- The CBFS scheduler state (`cbfs.py`): one queue per progression, the
active index, the per-cycle pop counter, the quota and the item count.
Each heap is modelled as a list from which `pop` extracts a minimum. -/
structure CBFS (α : Type) where
  queues : List (List α)
  num_queues : Nat
  pop_idx : Nat
  num_popped : Nat
  num_to_pop : Nat
  num_items : Nat
  deriving DecidableEq, Repr

/-- `CBFS(num_queues)` constructor (with the default `pop_idx = 0`). -/
def CBFS.init (α : Type) (num_queues : Nat) : CBFS α :=
  { queues := List.replicate num_queues []
    num_queues := num_queues
    pop_idx := 0
    num_popped := 0
    num_to_pop := 1
    num_items := 0 }

/-- `heapq.heappop`: extract a minimum of the list under the total
comparison `le` (the leftmost one among ties). -/
def popMinList {α : Type} (le : α → α → Bool) : List α → Option (α × List α)
  | [] => none
  | [x] => some (x, [])
  | x :: y :: ys =>
    match popMinList le (y :: ys) with
    | none => some (x, [])
    | some (m, rest) =>
      if le x m then some (x, y :: ys) else some (m, x :: rest)

/-- The `while len(queues[pop_idx]) == 0` scan of `CBFS.pop`, bounded by the
number of queues (beyond which the Python loop would spin forever). -/
def scanNonempty {α : Type} (qs : List (List α)) (D : Nat) :
    Nat → Nat → Option Nat
  | _, 0 => none
  | p, fuel + 1 =>
    if (qs.getD p []).isEmpty then scanNonempty qs D ((p + 1) % D) fuel
    else some p

/-- `CBFS.pop()`: error on an empty scheduler; otherwise advance past the
quota, skip empty queues (resetting the cycle counter), pop a minimum of
the active queue, bump the counter, decrement the item count. -/
def CBFS.pop {α : Type} (s : CBFS α) (le : α → α → Bool) :
    Except String (α × CBFS α) :=
  if s.num_items = 0 then
    .error "Error (CBFS) cannot pop from an empty queue!"
  else
    let p0 :=
      if s.num_popped = s.num_to_pop then (s.pop_idx + 1) % s.num_queues
      else s.pop_idx
    let c0 := if s.num_popped = s.num_to_pop then 0 else s.num_popped
    match scanNonempty s.queues s.num_queues p0 s.num_queues with
    | none => .error "all queues empty: the while loop of pop() diverges"
    | some p1 =>
      let c1 := if p1 = p0 then c0 else 0
      match popMinList le (s.queues.getD p1 []) with
      | none => .error "unreachable: the scanned queue is nonempty"
      | some (x, rest) =>
        .ok (x, { s with
          queues := s.queues.set p1 rest
          pop_idx := p1
          num_popped := c1 + 1
          num_items := s.num_items - 1 })

/-- `CBFS.push(item, push_idx)` (heap insertion modelled as append). -/
def CBFS.push {α : Type} (s : CBFS α) (item : α) (push_idx : Nat) : CBFS α :=
  { s with
    queues := s.queues.set push_idx ((s.queues.getD push_idx []) ++ [item])
    num_items := s.num_items + 1 }

/-- `CBFS.is_empty()`. -/
def CBFS.is_empty {α : Type} (s : CBFS α) : Bool :=
  decide (s.num_items ≤ 0)

/-- A search item: objective value, monotonic counter, AST, active leaf,
example index `i`, character index `k`.  The objective value, a machine
float in the source, is modelled by an arbitrary linearly ordered type. -/
abbrev SItem (V : Type) := V × Nat × RegexpAst × Nat × Nat × Nat

/-- Comparison of search items: by objective value, ties broken by the
counter (the counters are pairwise distinct, so the Python tuple comparison
never reaches the AST). -/
def itemLe {V : Type} [LinearOrder V] (x y : SItem V) : Bool :=
  decide (x.1 < y.1 ∨ (x.1 = y.1 ∧ x.2.1 ≤ y.2.1))

/-- `len(example.w)` for a pattern automaton, `len(example)` for a string. -/
def exLen : PExample → Nat
  | .str w => w.length
  | .pa p => p.w.length

/-- `examples[i].w if isinstance(…, PatternAutomaton) else examples[i]`. -/
def exWordList : PExample → List String
  | .str w => w
  | .pa p => p.w

/-- `indices_to_depth(i, k)`: characters consumed before example `i` plus
`k`. -/
def indices_to_depth (examples : List PExample) (i k : Nat) : Nat :=
  ((examples.take i).map exLen).sum + k

/-- The total progression `Σ|eᵢ| + 1`. -/
def total_depth (examples : List PExample) : Nat :=
  (examples.map exLen).sum + 1

/-- `next_symbols(example, j)`: the out-edge labels and targets for a
pattern automaton, the single next character for a string.  The string
branch of the source reads `w[j]` from the enclosing scope, not from
`example`; the `w` parameter reproduces that closure capture. -/
def next_symbols (w : List String) (ex : PExample) (j : Nat) :
    List (String × Nat) :=
  match ex with
  | .pa p => (p.outEdges j).map (fun er => (er.2, er.1))
  | .str _ => [(w.getD j (""), j + 1)]

/-- Mutable state of `fast_from_strings`: the scheduler, the result list,
the push counter, the fingerprints already pushed (flattened from the
per-depth dict of sets into `(depth, key, leaf)` triples) and the
objective-value memo table. -/
structure FState (V : Type) where
  cbfs : CBFS (SItem V)
  final_results : List (V × RegexpAst)
  ast_counter : Nat
  pushed : List (Nat × String × Nat)
  memo : List (String × V)
  deriving DecidableEq

/-- `was_already_pushed(ast, active_leaf, push_idx)`: membership test plus
insertion of the `('$'.join(prefix_list), active_leaf)` key. -/
def was_already_pushed {V : Type} (st : FState V) (ast : RegexpAst)
    (active_leaf : Nat) (push_idx : Nat) : Bool × FState V :=
  let key := String.intercalate ("$") ast.toPrefixRegexpList
  if (push_idx, key, active_leaf) ∈ st.pushed then (true, st)
  else (false, { st with pushed := st.pushed ++ [(push_idx, key, active_leaf)] })

/-- `compute_objective_value(ast, examples)` with its memo table. -/
def compute_objective_value {V : Type} (st : FState V)
    (objective : RegexpAst → List PExample → V) (ast : RegexpAst)
    (examples : List PExample) : V × FState V :=
  let key := String.intercalate ("$") ast.toPrefixRegexpList
  match st.memo.find? (fun p => p.1 = key) with
  | some p => (p.2, st)
  | none =>
    let v := objective ast examples
    (v, { st with memo := st.memo ++ [(key, v)] })

/-- The expansion block of the main loop (lines 284–331 of `fast.py`):
enumerate the epsilon-reachable arcs from the active leaf, feed every
(arc, mutator, next-symbol) triple to `mutate`, then simplify, deduplicate,
score and push each child. -/
def pushChildren {V : Type} (objective : RegexpAst → List PExample → V)
    (examples : List PExample) (mutators : List MutFn) (ex : PExample)
    (w : List String) (i j : Nat) (ast : RegexpAst) (active_leaf : Nat)
    (st : FState V) : Option (FState V) :=
  let arcs := ast.epsilon_reachables active_leaf (ast.parent active_leaf)
  arcs.foldlM (fun st1 arc =>
    mutators.foldlM (fun st2 m =>
      (next_symbols w ex j).foldlM (fun st3 sk => do
        let (sigma, k) := sk
        let new_depth := indices_to_depth examples i k
        let pword :=
          match ex with
          | .pa p => p.w.take (k + 1)
          | .str _ => w.take k
        let mutated ← m ast sigma arc.1 arc.2 pword (examples.take i) arcs ex
        mutated.foldlM (fun st4 pair => do
          let new_ast := pair.1.simplify
          let new_active_leaf := pair.2
          let (seen, st5) := was_already_pushed st4 new_ast new_active_leaf
            new_depth
          if seen then pure st5
          else
            let (v, st6) := compute_objective_value st5 objective new_ast
              examples
            let item : SItem V :=
              (v, st6.ast_counter, new_ast, new_active_leaf, i, k)
            pure { st6 with
              cbfs := st6.cbfs.push item new_depth
              ast_counter := st6.ast_counter + 1 }) st3) st2) st1) st

/-- Main loop of `fast_from_strings`, with fuel for the unbounded `while`
(`stop_condition` is abstracted to a predicate on the result list, the
wall clock being outside the model; the visitor, a pure observer, is
dropped).  `none` models an uncaught exception. -/
def fastLoop {V : Type} [LinearOrder V] (examples : List PExample)
    (objective : RegexpAst → List PExample → V)
    (stop : List (V × RegexpAst) → Bool) (mutators : List MutFn) :
    Nat → FState V → Option (List (V × RegexpAst))
  | 0, st => some st.final_results
  | fuel + 1, st =>
    if st.cbfs.is_empty then some st.final_results
    else if stop st.final_results then some st.final_results
    else
      match st.cbfs.pop itemLe with
      | .error _ => none
      | .ok (item, q') =>
        let (h, _cnt, ast, al0, i0, j0) := item
        match examples.get? i0 with
        | none => none
        | some ex0 =>
          let w := exWordList ex0
          let st1 := { st with cbfs := q' }
          let adv :=
            if j0 = w.length then
              (i0 + 1, 0, ast.root,
                (examples.take (i0 + 1)).any (fun e => ! ast.recognizes e))
            else (i0, j0, al0, false)
          let (i, j, al, bad) := adv
          if bad then fastLoop examples objective stop mutators fuel st1
          else if i = examples.length ∨
              examples.all (fun e => ast.recognizes e) then
            fastLoop examples objective stop mutators fuel
              { st1 with final_results := st1.final_results ++ [(h, ast)] }
          else
            match examples.get? i with
            | none => none
            | some ex => do
              let st2 ← pushChildren objective examples mutators ex w i j ast
                al st1
              fastLoop examples objective stop mutators fuel st2

/-- `fast_from_strings(examples, objective_function, stop_condition,
mutators)`: push the initial item (empty AST, root active, `(i,k) = (0,0)`,
value 0, counter 0) and run the main loop. -/
def fast_from_strings {V : Type} [LinearOrder V] (examples : List PExample)
    (objective : RegexpAst → List PExample → V)
    (stop : List (V × RegexpAst) → Bool) (mutators : List MutFn)
    (init_value : V) (fuel : Nat) : Option (List (V × RegexpAst)) :=
  let initial_ast := RegexpAst.new
  let initial_item : SItem V :=
    (init_value, 0, initial_ast, initial_ast.root, 0, 0)
  let st0 : FState V :=
    { cbfs := (CBFS.init (SItem V) (total_depth examples)).push initial_item
        (indices_to_depth examples 0 0)
      final_results := []
      ast_counter := 1
      pushed := []
      memo := [] }
  fastLoop examples objective stop mutators fuel st0

/-- The DFA interface consumed by `dfa_density` (`pybgl.Automaton` is an
external collaborator; only the members read by the source are modelled). -/
structure Dfa where
  vertices : List Nat
  initialStates : List Nat
  finals : List Nat
  adjacencies : List (Nat × List (String × Nat))

/-- Mass lookup in the probability map of `dfa_density`. -/
def qget (m : List (Nat × ℚ)) (q : Nat) : ℚ :=
  ((m.find? (fun p => p.1 = q)).map (fun p => p.2)).getD 0

/-- `new_map_q_proba[r] += d`. -/
def qbump (m : List (Nat × ℚ)) (q : Nat) (d : ℚ) : List (Nat × ℚ) :=
  m.map (fun p => if p.1 = q then (p.1, p.2 + d) else p)

/-- `dfa_density(dfa, length, char_proba)`: unit mass on the initial
vertices, `length` forward-propagation rounds along the adjacency map with
factor `char_proba`, summed over the final vertices. -/
def dfa_density (dfa : Dfa) (len : Nat) (char_proba : ℚ) : ℚ :=
  let init : List (Nat × ℚ) :=
    dfa.vertices.map (fun q => (q, if q ∈ dfa.initialStates then 1 else 0))
  let final_map := (List.range len).foldl (fun m _ =>
    let base : List (Nat × ℚ) := dfa.vertices.map (fun q => (q, (0 : ℚ)))
    dfa.adjacencies.foldl (fun m2 qadj =>
      qadj.2.foldl (fun m3 ar => qbump m3 ar.2 (char_proba * qget m qadj.1))
        m2) base) init
  (dfa.vertices.map (fun q => if q ∈ dfa.finals then qget final_map q else 0)).sum

/-- Left-to-right non-overlapping substring replacement on character lists
(`str.replace`; the empty pattern never occurs at the call sites). -/
def replaceList (pat rep : List Char) : List Char → List Char
  | [] => []
  | c :: rest =>
    if ¬ pat = [] ∧ (c :: rest).take pat.length = pat then
      rep ++ replaceList pat rep ((c :: rest).drop pat.length)
    else c :: replaceList pat rep rest
termination_by l => l.length
decreasing_by
  · rename_i hcond
    have hp : 0 < pat.length := List.length_pos.mpr hcond.1
    simp [List.length_drop]
    omega
  · simp

/-- `str.replace` on strings (kernel-computable, unlike `String.replace`). -/
def strReplace (s pat rep : String) : String :=
  String.mk (replaceList pat.toList rep.toList s.toList)

/-- `ast_density(ast, map_len_proba, char_proba, map_pa_infix_re)`: compile
the infix regexp (dots removed, pattern metacharacters substituted) through
the external `compile_dfa`, then sum the per-length densities weighted by
`map_len_proba`.  `compile_dfa` is an external collaborator, passed as a
parameter. -/
def ast_density (compile_dfa : String → Dfa) (ast : RegexpAst)
    (map_len_proba : List (Nat × ℚ)) (char_proba : ℚ)
    (map_pa_infix_re : List (String × String)) : ℚ :=
  let s0 := strReplace ((ast.toInfixRegexpStr).getD ("")) (".") ("")
  let s1 := map_pa_infix_re.foldl
    (fun s pr => strReplace s pr.1 ("(" ++ pr.2 ++ ")")) s0
  let dfa := compile_dfa s1
  (map_len_proba.map (fun lp => dfa_density dfa lp.1 char_proba * lp.2)).sum

/-- `shortness_factor(examples) = 1 / (2 · max |eᵢ|)`. -/
def shortness_factor (examples : List PExample) : ℚ :=
  let n := (examples.map exLen).foldl max 0
  1 / (2 * n)

/-- `make_additive_objective_func_for_str`: uniform length distribution
over `1..max_len`, uniform character probability, objective
`size_factor · num_nodes + density_factor · density`. -/
def make_additive_objective_func_for_str (compile_dfa : String → Dfa)
    (examples : List PExample) (alphabet : Finset String)
    (map_pa_infix_re : List (String × String)) (size_factor density_factor : ℚ) :
    RegexpAst → List PExample → ℚ :=
  let max_len := (examples.map exLen).foldl max 0
  let map_len_proba : List (Nat × ℚ) :=
    (List.range max_len).map (fun t => (t + 1, (1 : ℚ) / max_len))
  let char_proba := (1 : ℚ) / alphabet.card
  fun ast _examples =>
    size_factor * ast.num_nodes +
      density_factor *
        ast_density compile_dfa ast map_len_proba char_proba map_pa_infix_re

/-- The alphabet `set(a for w in examples for a in w)` of `fast`. -/
def examplesAlphabet (examples : List PExample) : Finset String :=
  (examples.flatMap exWordList).toFinset

/-- The objective function built by `fast(examples, obj_id=OBJ_ADD)`:
`size_factor` is set to the shortness factor (the `"size_factor" not in
kwargs` branch), while `density_factor` keeps its default `0.5`. -/
def fast_objective_additive (compile_dfa : String → Dfa)
    (examples : List PExample) : RegexpAst → List PExample → ℚ :=
  make_additive_objective_func_for_str compile_dfa examples
    (examplesAlphabet examples) [] (shortness_factor examples) (1 / 2)

/-- Modelled from the spec: the additive objective as the specification
states it, `α · size + (1 − α) · density` with `α` the shortness factor.
Kept separate from the code-side construction for comparison. -/
def spec_objective_additive (compile_dfa : String → Dfa)
    (examples : List PExample) : RegexpAst → List PExample → ℚ :=
  make_additive_objective_func_for_str compile_dfa examples
    (examplesAlphabet examples) [] (shortness_factor examples)
    (1 - shortness_factor examples)

/-!
Object-store semantics for the mutators.

The frame property of §5 of the spec ("modifying a mutant never mutates its
parent in any heap") is about Python object identity, which the pure value
semantics above cannot express.  We model the object store as a list of
arenas indexed by references; a mutator that begins with `ast.copy()`
allocates every AST it returns at a fresh reference, while
`ActivateMutator.mutate`, which returns `[(ast, v)]` without a copy, returns
the input reference itself.
-/

/-- A store of `RegexpAst` objects; references are list indices. -/
structure AstStore where
  arenas : List RegexpAst
  deriving DecidableEq

/-- Dereference (total; out-of-range reads give the empty arena). -/
def AstStore.read (s : AstStore) (r : Nat) : RegexpAst :=
  s.arenas.getD r RegexpAst.new

/-- In-place mutation of the object at reference `r`. -/
def AstStore.write (s : AstStore) (r : Nat) (a : RegexpAst) : AstStore :=
  ⟨s.arenas.set r a⟩

/-- Store semantics of the six copying mutators: run the pure mutator on
the dereferenced input; every returned AST was created during the call
(from `ast.copy()` on), so each result pair is allocated at a fresh
reference. -/
def storeMutateFresh (m : MutFn) (s : AstStore) (r : Nat) (c : String)
    (u : Nat) (v : Option Nat) (pword : List String) (prev : List PExample)
    (eps : List Arc) (cpa : PExample) :
    Option (AstStore × List (Nat × Nat)) :=
  match m (s.read r) c u v pword prev eps cpa with
  | none => none
  | some pairs =>
    some (⟨s.arenas ++ pairs.map (fun p => p.1)⟩,
      (pairs.enum).map (fun ip => (s.arenas.length + ip.1, ip.2.2)))

/-- Store semantics of `ActivateMutator.mutate`: no copy is taken, the
returned pair aliases the input reference. -/
def storeActivateMutate (s : AstStore) (r : Nat) (c : String) (u : Nat)
    (v : Option Nat) (pword : List String) (prev : List PExample)
    (eps : List Arc) (cpa : PExample) :
    Option (AstStore × List (Nat × Nat)) :=
  match activate_mutate (s.read r) c u v pword prev eps cpa with
  | none => none
  | some [] => some (s, [])
  | some _ =>
    match v with
    | none => none
    | some v' => some (s, [(r, v')])

/-!
Tree-level functional model of the simplification passes.

The four recursive passes of `RegexpAst.simplify` only walk the tree below
the root sentinel through `first_child`/`children` and rebuild it in place;
on the rooted ordered tree they denote, they are the structural recursions
below.  The arena-level fueled versions above are used by the search driver;
this tree model is used to settle the structural-invariant claims, whose
statements are about the tree shape and not about node identifiers. -/

/-- A node of the tree below the root sentinel: a label and the ordered
children. -/
inductive RTree where
  | node : String → List RTree → RTree

mutual
/-- Decidable equality of trees (the nested inductive prevents deriving). -/
def rtreeDecEq : (a b : RTree) → Decidable (a = b)
  | .node l cs, .node m ds =>
    if h1 : l = m then
      match rtreeDecEqL cs ds with
      | isTrue h2 => isTrue (by rw [h1, h2])
      | isFalse h2 => isFalse (fun h => h2 (by injection h))
    else isFalse (fun h => h1 (by injection h))

/-- Decidable equality of forests. -/
def rtreeDecEqL : (as bs : List RTree) → Decidable (as = bs)
  | [], [] => isTrue rfl
  | [], _ :: _ => isFalse (by simp)
  | _ :: _, [] => isFalse (by simp)
  | a :: as, b :: bs =>
    match rtreeDecEq a b, rtreeDecEqL as bs with
    | isTrue h1, isTrue h2 => isTrue (by rw [h1, h2])
    | isFalse h1, _ => isFalse (fun h => h1 (by injection h))
    | _, isFalse h2 => isFalse (fun h => h2 (by injection h))
end

instance : DecidableEq RTree := rtreeDecEq

/-- Label of a tree node. -/
def RTree.lab : RTree → String
  | .node l _ => l

/-- Children of a tree node. -/
def RTree.kids : RTree → List RTree
  | .node _ cs => cs

/-- `is_unary` on labels (the source includes the root label). -/
def isUnaryLab (s : String) : Bool :=
  s == "+" || s == "*" || s == "?" || s == "root"

/-- `is_n_ary` on labels. -/
def isNaryLab (s : String) : Bool :=
  s == "." || s == "|"

mutual
/-- Number of nodes of a tree; the termination measure of the passes. -/
def tsize : RTree → Nat
  | .node _ cs => 1 + tsizeL cs

/-- Number of nodes of a forest. -/
def tsizeL : List RTree → Nat
  | [] => 0
  | t :: ts => tsize t + tsizeL ts
end

/-- Size fact used for termination: a tree is its root plus its children. -/
def tsize_eq_kids (v : RTree) : tsize v = 1 + tsizeL v.kids := by
  cases v
  rfl

/-- Size fact used for termination: a member of a forest is no larger than
the forest. -/
def tsize_le_of_mem : ∀ {cs : List RTree} {c : RTree},
    c ∈ cs → tsize c ≤ tsizeL cs := by
  intro cs
  induction cs with
  | nil => intro c hc; cases hc
  | cons a as ih =>
    intro c hc
    rcases List.mem_cons.mp hc with h | h
    · subst h; simp only [tsizeL]; omega
    · have := ih h; simp only [tsizeL]; omega

/-- Size fact used for termination: forest size is additive. -/
def tsizeL_append (xs ys : List RTree) :
    tsizeL (xs ++ ys) = tsizeL xs + tsizeL ys := by
  induction xs with
  | nil => simp [tsizeL]
  | cons a as ih => simp [tsizeL, ih]; omega

/-- `simplify_unary_nodes` on trees: collapse a unary node whose first
child is unary (`*` when the operators differ), retrying at the same node,
and otherwise descend (only into the first child of a unary node, as in
the source). -/
def suTree : RTree → RTree
  | .node l cs =>
    if isNaryLab l then .node l (cs.attach.map (fun cc => suTree cc.1))
    else if isUnaryLab l then
      match cs with
      | [] => .node l []
      | .node vl vkids :: rest =>
        if isUnaryLab vl then
          let l' := if ¬ l = vl then "*" else l
          match vkids with
          | [] => .node l' (.node vl vkids :: rest)
          | vc :: _ => suTree (.node l' [vc])
        else .node l (suTree (.node vl vkids) :: rest)
    else .node l cs
termination_by t => tsize t
decreasing_by
  all_goals first
    | (simp [tsize, tsizeL]; try omega
       done)
    | (have hm := tsize_le_of_mem cc.2; simp [tsize, tsizeL] at hm ⊢; omega)

/-- Find the first child whose label equals `l` and splice its children in
place (the `merge_n_ary_nodes` step of `simplify_n_ary_nodes`). -/
def spliceSame (l : String) : List RTree → Option (List RTree)
  | [] => none
  | v :: rest =>
    if v.lab == l then some (v.kids ++ rest)
    else (spliceSame l rest).map (fun cs => v :: cs)

/-- Size fact used for termination: splicing removes exactly one node. -/
def tsizeL_spliceSame : ∀ {l : String} {cs cs' : List RTree},
    spliceSame l cs = some cs' → tsizeL cs' + 1 = tsizeL cs := by
  intro l cs
  induction cs with
  | nil => intro cs' h; simp [spliceSame] at h
  | cons v rest ih =>
    intro cs' h
    by_cases hv : v.lab == l
    · simp [spliceSame, hv] at h
      subst h
      rw [tsizeL_append]
      have := tsize_eq_kids v
      simp [tsizeL]
      omega
    · simp [spliceSame, hv] at h
      rcases h with ⟨cs'', h1, h2⟩
      subst h2
      have := ih h1
      simp [tsizeL]
      omega

/-- `simplify_n_ary_nodes` on trees: merge the first same-labeled child and
retry at the same node, otherwise descend. -/
def snTree : RTree → RTree
  | .node l cs =>
    if isUnaryLab l then
      match cs with
      | [] => .node l []
      | v :: rest => .node l (snTree v :: rest)
    else if isNaryLab l then
      match h : spliceSame l cs with
      | some cs' => snTree (.node l cs')
      | none => .node l (cs.attach.map (fun cc => snTree cc.1))
    else .node l cs
termination_by t => tsize t
decreasing_by
  all_goals first
    | (simp [tsize, tsizeL]; try omega
       done)
    | (have hs := tsizeL_spliceSame h; simp [tsize, tsizeL] at hs ⊢; omega)
    | (have hm := tsize_le_of_mem cc.2; simp [tsize, tsizeL] at hm ⊢; omega)

/-- `to_prefix_regexp_str` on trees (the sorting key of the `|` reorder). -/
def treePrefixStr : RTree → String
  | .node l cs =>
    if isNaryLab l then
      l ++ "(" ++
        String.intercalate (",") (cs.attach.map (fun cc => treePrefixStr cc.1))
        ++ ")"
    else if isUnaryLab l then
      l ++ (match cs with
        | [] => ""
        | c :: _ => treePrefixStr c)
    else l
termination_by t => tsize t
decreasing_by
  all_goals first
    | (simp [tsize, tsizeL]; try omega
       done)
    | (have hm := tsize_le_of_mem cc.2; simp [tsize, tsizeL] at hm ⊢; omega)

/-- `reorder_or_nodes` on trees: reorder below, then stably sort the
children of `|` nodes by the prefix string of their subtrees
(`List.insertionSort` models Python's stable `sorted`). -/
def roTree : RTree → RTree
  | .node l cs =>
    if isUnaryLab l then
      match cs with
      | [] => .node l []
      | v :: rest => .node l (roTree v :: rest)
    else if isNaryLab l then
      let cs' := cs.attach.map (fun cc => roTree cc.1)
      if l = "|" then
        .node l (List.insertionSort
          (fun x y => treePrefixStr x ≤ treePrefixStr y) cs')
      else .node l cs'
    else .node l cs
termination_by t => tsize t
decreasing_by
  all_goals first
    | (simp [tsize, tsizeL]; try omega
       done)
    | (have hm := tsize_le_of_mem cc.2; simp [tsize, tsizeL] at hm ⊢; omega)

/-- `remove_unary_n_aries` on trees: replace a singleton n-ary node by its
only child and continue at that child. -/
def ruTree : RTree → RTree
  | .node l [] => .node l []
  | .node l [c0] =>
    if isUnaryLab l then .node l [ruTree c0]
    else if isNaryLab l then ruTree c0
    else .node l [c0]
  | .node l (c1 :: c2 :: rest) =>
    if isUnaryLab l then .node l (ruTree c1 :: c2 :: rest)
    else if isNaryLab l then
      .node l ((c1 :: c2 :: rest).attach.map (fun cc => ruTree cc.1))
    else .node l (c1 :: c2 :: rest)
termination_by t => tsize t
decreasing_by
  all_goals first
    | (simp [tsize, tsizeL]; try omega
       done)
    | (have hm := tsize_le_of_mem cc.2; simp [tsize, tsizeL] at hm ⊢; omega)

/-- `simplify()` on trees: the four passes in source order. -/
def treeSimplify (t : RTree) : RTree :=
  ruTree (roTree (snTree (suTree t)))

/-- `simplify()` on a whole AST, the root's child slot being optional (all
four passes return immediately when `first_child(root)` is `None`). -/
def simplifyT : Option RTree → Option RTree :=
  Option.map treeSimplify

mutual
/-- Invariant 1: no unary node has a unary child. -/
def noUnaryChainB : RTree → Bool
  | .node l cs => noUnaryChainL l cs

/-- Invariant 1 on a forest under a parent label. -/
def noUnaryChainL : String → List RTree → Bool
  | _, [] => true
  | l, c :: rest =>
    (!(isUnaryLab l && isUnaryLab c.lab)) && noUnaryChainB c &&
      noUnaryChainL l rest
end

mutual
/-- Invariant 2: no n-ary node has a child with the same operator label. -/
def noDupNaryB : RTree → Bool
  | .node l cs =>
    (!(isNaryLab l && cs.any (fun c => c.lab == l))) && noDupNaryL cs

/-- Invariant 2 on a forest. -/
def noDupNaryL : List RTree → Bool
  | [] => true
  | c :: rest => noDupNaryB c && noDupNaryL rest
end

mutual
/-- Invariant 3: every n-ary node has at least two children. -/
def naryGe2B : RTree → Bool
  | .node l cs => (!isNaryLab l || decide (2 ≤ cs.length)) && naryGe2L cs

/-- Invariant 3 on a forest. -/
def naryGe2L : List RTree → Bool
  | [] => true
  | c :: rest => naryGe2B c && naryGe2L rest
end

/-- Weak sortedness of a list of strings (adjacent pairs). -/
def sortedStrB : List String → Bool
  | [] => true
  | [_] => true
  | x :: y :: rest => decide (x ≤ y) && sortedStrB (y :: rest)

mutual
/-- Invariant 4: the children of every `|` node are sorted by the canonical
prefix string of their subtrees. -/
def orSortedB : RTree → Bool
  | .node l cs =>
    (if l == "|" then sortedStrB (cs.map treePrefixStr) else true) &&
      orSortedL cs

/-- Invariant 4 on a forest. -/
def orSortedL : List RTree → Bool
  | [] => true
  | c :: rest => orSortedB c && orSortedL rest
end

mutual
/-- Conformance to the data model of §3 of the spec: unary nodes have
exactly one child, n-ary nodes at least two, leaves none. -/
def wfTreeB : RTree → Bool
  | .node l cs =>
    (if isUnaryLab l then cs.length == 1
     else if isNaryLab l then decide (2 ≤ cs.length)
     else cs.length == 0) && wfTreeL cs

/-- Conformance on a forest. -/
def wfTreeL : List RTree → Bool
  | [] => true
  | c :: rest => wfTreeB c && wfTreeL rest
end

/-- The least set of arcs containing the initial arc and closed under the
single-step table of the specification. -/
inductive SpecClosure (a : RegexpAst) (init : Arc) : Arc → Prop
  | base : SpecClosure a init init
  | step {x y : Arc} : SpecClosure a init x → y ∈ a.specStep x →
      SpecClosure a init y

/-- The least set of arcs containing the initial arc and closed under the
code's `epsilon_successors`. -/
inductive EpsClosure (a : RegexpAst) (init : Arc) : Arc → Prop
  | base : EpsClosure a init init
  | step {x y : Arc} : EpsClosure a init x → y ∈ a.epsilon_successors x →
      EpsClosure a init y

/-- An arc with both endpoints allocated that is downward or upward — the
arcs the engine traverses. -/
def ArcOK (a : RegexpAst) : Arc → Prop
  | (_, none) => False
  | (s, some t) =>
    s ∈ a.Nodes ∧ t ∈ a.Nodes ∧
      (a.is_downwards_arc s t ∨ a.is_upwards_arc s t)

/-!
Concrete instances used by the counterexamples and witnesses.
-/

/-- The AST recognizing exactly `"a"`: `root → a`. -/
def astLeafA : RegexpAst :=
  ((RegexpAst.new).add_node ("a")).1.set_child 0 1

/-- The one-state DFA accepting every word over `{a, b}`. -/
def dfaFull : Dfa :=
  ⟨[0], [0], [0], [(0, [("a", 0), ("b", 0)])]⟩

/-- The example list `["ab"]`. -/
def exAB : List PExample := [PExample.str ["a", "b"]]

/-- A non-simplified arena `root → ? → ? → a`, on which `simplify()` is not
the identity. -/
def astChain : RegexpAst :=
  let a1 := ((RegexpAst.new).add_node ("?")).1
  let a2 := (a1.add_node ("?")).1
  let a3 := (a2.add_node ("a")).1
  ((a3.set_child 0 1).set_child 1 2).set_child 2 3

/-- The tree `?(|(*a))`: a singleton `|` node below a `?` node. -/
def treeQOrStarA : RTree :=
  .node "?" [.node "|" [.node "*" [.node "a" []]]]

/-- The arena `root → ? → | → * → a`, i.e. `?(|(*a))`: a well-formed arena
whose `|` node has a single child. -/
def astQOrStar : RegexpAst :=
  let a1 := ((RegexpAst.new).add_node ("?")).1
  let a2 := (a1.add_node ("|")).1
  let a3 := (a2.add_node ("*")).1
  let a4 := (a3.add_node ("a")).1
  (((a4.set_child 0 1).set_child 1 2).set_child 2 3).set_child 3 4

/-- A two-queue CBFS over `Nat` holding four items. -/
def cbfsDemo : CBFS Nat :=
  { queues := [[3, 1, 2], [5]], num_queues := 2, pop_idx := 0,
    num_popped := 0, num_to_pop := 1, num_items := 4 }

/-- Comparison on `Nat` items used by the CBFS witness. -/
def natLeB (a b : Nat) : Bool := decide (a ≤ b)

/-- The well-formed tree `.(a, +(b))`. -/
def treeDotAPlusB : RTree :=
  .node "." [.node "a" [], .node "+" [.node "b" []]]

end FastV

namespace FastV

/-!
Shared lemmas about the dict embedding and the structure operations.
-/

theorem mget_cons {β : Type} (p : Nat × β) (rest : List (Nat × β))
    (k' : Nat) :
    mget (p :: rest) k' = if p.1 = k' then some p.2 else mget rest k' := by
  by_cases h : p.1 = k' <;> simp [mget, List.find?, h]

theorem mget_mset {β : Type} (m : List (Nat × β)) (k k' : Nat) (v : β) :
    mget (mset m k v) k' = if k' = k then some v else mget m k' := by
  induction m with
  | nil =>
    show mget [(k, v)] k' = _
    rw [mget_cons]
    by_cases h : k' = k
    · simp [h]
    · have : ¬ k = k' := fun hh => h hh.symm
      simp [h, this, mget]
  | cons p rest ih =>
    by_cases hp : p.1 = k
    · show mget (if p.1 = k then (k, v) :: rest else _) k' = _
      rw [if_pos hp, mget_cons, mget_cons]
      by_cases h : k' = k
      · simp [h]
      · have h1 : ¬ (k : Nat) = k' := fun hh => h hh.symm
        have h2 : ¬ p.1 = k' := by rw [hp]; exact h1
        simp [h, h1, h2]
    · show mget (if p.1 = k then _ else p :: mset rest k v) k' = _
      rw [if_neg hp, mget_cons, ih, mget_cons]
      by_cases hq : p.1 = k'
      · have h : ¬ k' = k := by rw [← hq]; exact fun hh => hp hh
        simp [hq, h]
      · simp [hq]

theorem mget_mdel {β : Type} (m : List (Nat × β)) (k k' : Nat) :
    mget (mdel m k) k' = if k' = k then none else mget m k' := by
  induction m with
  | nil => simp [mdel, mget]
  | cons p rest ih =>
    show mget (List.filter _ (p :: rest)) k' = _
    rw [List.filter_cons]
    by_cases hp : p.1 = k
    · have : (decide ¬ p.1 = k) = false := by simp [hp]
      rw [this]
      show mget (mdel rest k) k' = _
      rw [ih, mget_cons]
      by_cases h : k' = k
      · simp [h]
      · have h2 : ¬ p.1 = k' := by rw [hp]; exact fun hh => h hh.symm
        simp [h, h2]
    · have : (decide ¬ p.1 = k) = true := by simp [hp]
      rw [this]
      show mget (p :: mdel rest k) k' = _
      rw [mget_cons, ih, mget_cons]
      by_cases hq : p.1 = k'
      · have h : ¬ k' = k := by rw [← hq]; exact fun hh => hp hh
        simp [hq, h]
      · simp [hq]


namespace RegexpAst

theorem label_add_node (a : RegexpAst) (lab : String) (w : Nat) :
    ((a.add_node lab).1).label w =
      if w = a.nodes_id then lab else a.label w := by
  simp [add_node, label, mget_mset]
  split_ifs <;> rfl

theorem parent_add_node (a : RegexpAst) (lab : String) (w : Nat) :
    ((a.add_node lab).1).parent w =
      if w = a.nodes_id then none else a.parent w := by
  simp [add_node, parent, mget_mset]
  split_ifs <;> rfl

theorem children_add_node (a : RegexpAst) (lab : String) (w : Nat) :
    ((a.add_node lab).1).children w =
      if w = a.nodes_id then [] else a.children w := by
  simp [add_node, children, mget_mset]
  split_ifs <;> rfl

theorem nodes_id_add_node (a : RegexpAst) (lab : String) :
    ((a.add_node lab).1).nodes_id = a.nodes_id + 1 := rfl

theorem snd_add_node (a : RegexpAst) (lab : String) :
    (a.add_node lab).2 = a.nodes_id := rfl

theorem label_set_child (a : RegexpAst) (u v w : Nat) :
    (a.set_child u v).label w = a.label w := rfl

theorem children_set_child (a : RegexpAst) (u v w : Nat) :
    (a.set_child u v).children w =
      if w = u then [v] else a.children w := by
  simp [set_child, children, mget_mset]
  split_ifs <;> rfl

theorem parent_set_child (a : RegexpAst) (u v w : Nat) :
    (a.set_child u v).parent w =
      if w = v then some u else a.parent w := by
  simp [set_child, parent, mget_mset]
  split_ifs <;> rfl

theorem label_set_ith_child (a : RegexpAst) (u v i w : Nat) :
    (a.set_ith_child u v i).label w = a.label w := rfl

theorem children_set_ith_child (a : RegexpAst) (u v i w : Nat) :
    (a.set_ith_child u v i).children w =
      if w = u then (a.children u).set i v else a.children w := by
  simp [set_ith_child, children, mget_mset]
  split_ifs <;> rfl

theorem parent_set_ith_child (a : RegexpAst) (u v i w : Nat) :
    (a.set_ith_child u v i).parent w =
      if w = v then some u else a.parent w := by
  simp [set_ith_child, parent, mget_mset]
  split_ifs <;> rfl

theorem label_append_child (a : RegexpAst) (u v w : Nat) :
    (a.append_child u v).label w = a.label w := rfl

theorem children_append_child (a : RegexpAst) (u v w : Nat) :
    (a.append_child u v).children w =
      if w = u then a.children u ++ [v] else a.children w := by
  simp [append_child, children, mget_mset]
  split_ifs <;> rfl

theorem parent_append_child (a : RegexpAst) (u v w : Nat) :
    (a.append_child u v).parent w =
      if w = v then some u else a.parent w := by
  simp [append_child, parent, mget_mset]
  split_ifs <;> rfl

theorem nodes_id_set_child (a : RegexpAst) (u v : Nat) :
    (a.set_child u v).nodes_id = a.nodes_id := rfl

theorem nodes_id_set_ith_child (a : RegexpAst) (u v i : Nat) :
    (a.set_ith_child u v i).nodes_id = a.nodes_id := rfl

theorem nodes_id_append_child (a : RegexpAst) (u v : Nat) :
    (a.append_child u v).nodes_id = a.nodes_id := rfl

end RegexpAst


/-!
Claim C10 — printing the empty AST.
-/

/-- C10: on an AST containing only the root sentinel, `to_prefix_regexp_str`
returns the empty string, but `to_infix_regexp_str` raises: its empty-tree
branch assigns `result = ""` without returning and then evaluates
`self.label(None)`, a `KeyError`, modelled as `none`. -/
theorem c10_empty_ast_print :
    RegexpAst.toPrefixRegexpStr RegexpAst.new = "" ∧
    RegexpAst.toInfixRegexpStr RegexpAst.new = none :=
  ⟨rfl, rfl⟩

/-!
Claim C9 — the default additive objective.
-/

/-- C9 counterexample: with the external DFA compiler returning the
one-state all-accepting DFA over `{a, b}` and the single example `"ab"`
(shortness factor `α = 1/4`), the objective built by `fast` for `OBJ_ADD`
values the AST `root → a` at `1/4·2 + 1/2·1 = 1`, while the claimed
formula `α·size + (1−α)·density` gives `1/4·2 + 3/4·1 = 5/4`: the density
coefficient stays at its default `0.5`, not `1 − α`. -/
theorem c9_counterexample :
    ¬ fast_objective_additive (fun _ => dfaFull) exAB astLeafA exAB =
        spec_objective_additive (fun _ => dfaFull) exAB astLeafA exAB := by
  have hn : astLeafA.num_nodes = 2 := rfl
  have hc : (examplesAlphabet [PExample.str ["a", "b"]]).card = 2 := rfl
  have hfast : fast_objective_additive (fun _ => dfaFull) exAB astLeafA exAB
      = 1 := by
    norm_num [fast_objective_additive, make_additive_objective_func_for_str,
      shortness_factor, exAB, exLen, ast_density, dfa_density, qbump, qget,
      List.range_succ, dfaFull, hn, hc]
  have hspec : spec_objective_additive (fun _ => dfaFull) exAB astLeafA exAB
      = 5 / 4 := by
    norm_num [spec_objective_additive, make_additive_objective_func_for_str,
      shortness_factor, exAB, exLen, ast_density, dfa_density, qbump, qget,
      List.range_succ, dfaFull, hn, hc]
  rw [hfast, hspec]
  norm_num

/-- C9 amended: the objective built by `fast(examples, obj_id=OBJ_ADD)`
evaluates every candidate AST to `α·size + (1/2)·density`, where `α` is the
shortness factor `1/(2·max|eᵢ|)`, `size` the AST's node count and `density`
the AST's language density under the uniform length distribution — the
density coefficient is the default `0.5` of
`make_additive_objective_func_for_str`, which `fast` does not override,
rather than `1 − α`. -/
theorem c9_amended (compile_dfa : String → Dfa) (examples : List PExample)
    (ast : RegexpAst) (ex2 : List PExample) :
    fast_objective_additive compile_dfa examples ast ex2 =
      shortness_factor examples * ast.num_nodes +
        (1 / 2) *
          ast_density compile_dfa ast
            ((List.range ((examples.map exLen).foldl max 0)).map
              (fun t => (t + 1, (1 : ℚ) / ((examples.map exLen).foldl max 0))))
            ((1 : ℚ) / (examplesAlphabet examples).card) [] := rfl


/-!
Claim C6 — mutators silently return the empty list when their precondition
fails.
-/

/-- C6: each mutator invoked outside its precondition returns `some []` —
the empty list, with no exception raised (`none` would model a raised
error): `DisjunctionMutator` and `DownDotMutator` on a non-downward
(upward) arc, `BotMutator` on an AST with more than the root node,
`ActivateMutator` when `v` is `None` or not a leaf labeled by the current
symbol, `UpDotMutator` on a non-upward (downward) arc, `BouncePlusMutator`
when the arc is downward or `(v, u)` is already epsilon-reachable, and
`BounceQuestionMutator` symmetrically. -/
theorem c6_precondition_returns_empty :
    (∀ ast c u v' pw prev eps cpa, ast.is_upwards_arc u v' →
      disjunction_mutate ast c u (some v') pw prev eps cpa = some []) ∧
    (∀ ast c u v' pw prev eps cpa, ast.is_upwards_arc u v' →
      down_dot_mutate ast c u (some v') pw prev eps cpa = some []) ∧
    (∀ ast c u v pw prev eps cpa, ast.num_nodes > 1 →
      bot_mutate ast c u v pw prev eps cpa = some []) ∧
    (∀ ast c u pw prev eps cpa,
      activate_mutate ast c u none pw prev eps cpa = some []) ∧
    (∀ ast c u v' pw prev eps cpa, ¬ (ast.is_leaf v' ∧ ast.label v' = c) →
      activate_mutate ast c u (some v') pw prev eps cpa = some []) ∧
    (∀ ast c u v' pw prev eps cpa, ast.is_downwards_arc u v' →
      up_dot_mutate ast c u (some v') pw prev eps cpa = some []) ∧
    (∀ bounceOn ast c u v' pw prev eps cpa,
      ast.is_downwards_arc u v' ∨ ((v', some u) : Arc) ∈ eps →
      bounce_plus_mutate bounceOn ast c u (some v') pw prev eps cpa =
        some []) ∧
    (∀ bounceOn ast c u v' pw prev eps cpa,
      ast.is_upwards_arc u v' ∨ ((v', some u) : Arc) ∈ eps →
      bounce_question_mutate bounceOn ast c u (some v') pw prev eps cpa =
        some []) := by
  refine ⟨?_, ?_, ?_, ?_, ?_, ?_, ?_, ?_⟩
  · intro ast c u v' pw prev eps cpa h
    simp [disjunction_mutate, h]
  · intro ast c u v' pw prev eps cpa h
    simp [down_dot_mutate, h]
  · intro ast c u v pw prev eps cpa h
    unfold bot_mutate
    rw [if_pos (Or.inr (Or.inr h))]
  · intro ast c u pw prev eps cpa
    rfl
  · intro ast c u v' pw prev eps cpa h
    have h2 : ¬ ast.is_leaf v' ∨ ¬ ast.label v' = c := by tauto
    rcases h2 with h1 | h1 <;> simp [activate_mutate, h1]
  · intro ast c u v' pw prev eps cpa h
    simp [up_dot_mutate, h]
  · intro bounceOn ast c u v' pw prev eps cpa h
    rcases h with hd | hm
    · simp [bounce_plus_mutate, hd]
    · by_cases hd : ast.is_downwards_arc u v'
      · simp [bounce_plus_mutate, hd]
      · simp [bounce_plus_mutate, hd, hm]
  · intro bounceOn ast c u v' pw prev eps cpa h
    rcases h with hd | hm
    · simp [bounce_question_mutate, hd]
    · by_cases hd : ast.is_upwards_arc u v'
      · simp [bounce_question_mutate, hd]
      · simp [bounce_question_mutate, hd, hm]

/-- C6 witness: every guard of `c6_precondition_returns_empty`
instantiated on the concrete two-node AST `root → a`. -/
theorem c6_precondition_returns_empty_witness :
    disjunction_mutate astLeafA ("b") 1 (some 0) [] [] []
      (PExample.str []) = some [] ∧
    down_dot_mutate astLeafA ("b") 1 (some 0) [] [] []
      (PExample.str []) = some [] ∧
    bot_mutate astLeafA ("b") 0 none [] [] [] (PExample.str []) = some [] ∧
    activate_mutate astLeafA ("b") 0 none [] [] []
      (PExample.str []) = some [] ∧
    activate_mutate astLeafA ("b") 0 (some 0) [] [] []
      (PExample.str []) = some [] ∧
    up_dot_mutate astLeafA ("b") 0 (some 1) [] [] []
      (PExample.str []) = some [] ∧
    bounce_plus_mutate [] astLeafA ("b") 0 (some 1) [] [] []
      (PExample.str []) = some [] ∧
    bounce_question_mutate [] astLeafA ("b") 1 (some 0) [] [] []
      (PExample.str []) = some [] :=
  ⟨c6_precondition_returns_empty.1 astLeafA ("b") 1 0 [] [] []
      (PExample.str []) (by decide),
   c6_precondition_returns_empty.2.1 astLeafA ("b") 1 0 [] [] []
      (PExample.str []) (by decide),
   c6_precondition_returns_empty.2.2.1 astLeafA ("b") 0 none [] [] []
      (PExample.str []) (by decide),
   c6_precondition_returns_empty.2.2.2.1 astLeafA ("b") 0 [] [] []
      (PExample.str []),
   c6_precondition_returns_empty.2.2.2.2.1 astLeafA ("b") 0 0 [] [] []
      (PExample.str []) (by decide),
   c6_precondition_returns_empty.2.2.2.2.2.1 astLeafA ("b") 0 1 [] [] []
      (PExample.str []) (by decide),
   c6_precondition_returns_empty.2.2.2.2.2.2.1 [] astLeafA ("b") 0 1 [] []
      [] (PExample.str []) (Or.inl (by decide)),
   c6_precondition_returns_empty.2.2.2.2.2.2.2 [] astLeafA ("b") 1 0 [] []
      [] (PExample.str []) (Or.inl (by decide))⟩


/-!
Claim C8 — mutators return independent copies (object-store semantics).
-/

theorem getD_set_ne {α : Type} (l : List α) (i j : Nat) (x d : α)
    (h : ¬ i = j) : (l.set i x).getD j d = l.getD j d := by
  simp [List.getD_eq_getElem?_getD]
  rw [List.getElem?_set_ne]
  exact h

/-- C8 counterexample: `ActivateMutator.mutate` takes no `copy()` — on the
store holding the single arena `root → ? → ? → a`, it returns the input
reference `0` itself, and the driver-side `simplify()` of the returned AST
then mutates the very arena the mutator was invoked on. -/
theorem c8_counterexample :
    storeActivateMutate ⟨[astChain]⟩ 0 ("a") 2 (some 3) [] [] []
      (PExample.str ["a"]) = some (⟨[astChain]⟩, [(0, 3)]) ∧
    ¬ (((⟨[astChain]⟩ : AstStore).write 0
          (((⟨[astChain]⟩ : AstStore).read 0).simplify)).read 0 =
        (⟨[astChain]⟩ : AstStore).read 0) := by
  constructor
  · rfl
  · decide

/-- C8 amended: every mutator that begins with `ast.copy()` (all of them
except `ActivateMutator`) allocates the ASTs it returns at fresh
references: the input arena is unchanged by the call, and an arbitrary
modification written through any returned reference never mutates the AST
the mutator was invoked on.  `ActivateMutator` instead returns the input
reference itself (the aliasing exhibited by the counterexample). -/
theorem c8_amended (m : MutFn) (s : AstStore) (r : Nat) (c : String)
    (u : Nat) (v : Option Nat) (pw : List String) (prev : List PExample)
    (eps : List Arc) (cpa : PExample) (s' : AstStore)
    (prs : List (Nat × Nat)) (hr : r < s.arenas.length)
    (hm : storeMutateFresh m s r c u v pw prev eps cpa = some (s', prs)) :
    s'.read r = s.read r ∧
    ∀ p ∈ prs, ∀ f : RegexpAst → RegexpAst,
      ((s'.write p.1 (f (s'.read p.1))).read r) = s.read r := by
  unfold storeMutateFresh at hm
  match hpairs : m (s.read r) c u v pw prev eps cpa with
  | none => rw [hpairs] at hm; cases hm
  | some pairs =>
    rw [hpairs] at hm
    injection hm with hm1
    injection hm1 with hs hp
    have hread : s'.read r = s.read r := by
      rw [← hs]
      show (s.arenas ++ pairs.map (fun p => p.1)).getD r RegexpAst.new =
        s.arenas.getD r RegexpAst.new
      simp [List.getD_eq_getElem?_getD, List.getElem?_append_left hr]
    refine ⟨hread, ?_⟩
    intro p hp2 f
    rw [← hp] at hp2
    rcases List.mem_map.mp hp2 with ⟨ip, hip, hpe⟩
    have hpr : ¬ p.1 = r := by
      rw [← hpe]
      simp
      omega
    show ((s'.write p.1 _).arenas).getD r RegexpAst.new = _
    rw [← hread]
    show ((s'.arenas.set p.1 _)).getD r RegexpAst.new =
      s'.arenas.getD r RegexpAst.new
    exact getD_set_ne _ _ _ _ _ hpr

/-- C8 amended witness: `DisjunctionMutator` on the store holding
`root → a`, at the downward arc `(root, a)`: the input arena at reference 0
is unchanged by the call. -/
theorem c8_amended_witness :
    0 < (⟨[astLeafA]⟩ : AstStore).arenas.length ∧
    ((storeMutateFresh disjunction_mutate ⟨[astLeafA]⟩ 0 ("b") 0 (some 1)
        [] [] [] (PExample.str [])).getD (⟨[]⟩, [])).1.read 0 =
      (⟨[astLeafA]⟩ : AstStore).read 0 :=
  ⟨by decide,
   (c8_amended disjunction_mutate ⟨[astLeafA]⟩ 0 ("b") 0 (some 1) [] [] []
      (PExample.str [])
      ((storeMutateFresh disjunction_mutate ⟨[astLeafA]⟩ 0 ("b") 0 (some 1)
        [] [] [] (PExample.str [])).getD (⟨[]⟩, [])).1
      ((storeMutateFresh disjunction_mutate ⟨[astLeafA]⟩ 0 ("b") 0 (some 1)
        [] [] [] (PExample.str [])).getD (⟨[]⟩, [])).2
      (by decide) (by decide)).1⟩


/-!
Claim C7 — the CBFS pop discipline.
-/

theorem popMinList_ne_nil {α : Type} (le : α → α → Bool) :
    ∀ (xs : List α) (x : α),
      ∃ m rest, popMinList le (x :: xs) = some (m, rest) := by
  intro xs
  induction xs with
  | nil => intro x; exact ⟨x, [], rfl⟩
  | cons y ys ih =>
    intro x
    rcases ih y with ⟨m, rest, hm⟩
    by_cases h : le x m = true
    · refine ⟨x, y :: ys, ?_⟩
      show (match popMinList le (y :: ys) with
        | none => some (x, [])
        | some (m, rest) =>
          if le x m then some (x, y :: ys) else some (m, x :: rest)) = _
      rw [hm]
      show (if le x m then _ else _) = _
      rw [if_pos h]
    · refine ⟨m, x :: rest, ?_⟩
      show (match popMinList le (y :: ys) with
        | none => some (x, [])
        | some (m, rest) =>
          if le x m then some (x, y :: ys) else some (m, x :: rest)) = _
      rw [hm]
      show (if le x m then _ else _) = _
      rw [if_neg h]

theorem popMinList_perm {α : Type} (le : α → α → Bool) :
    ∀ (xs : List α) (x m : α) (rest : List α),
      popMinList le (x :: xs) = some (m, rest) →
        (m :: rest).Perm (x :: xs) := by
  intro xs
  induction xs with
  | nil =>
    intro x m rest h
    have h2 : some (x, ([] : List α)) = some (m, rest) := h
    injection h2 with h3
    injection h3 with h4 h5
    rw [← h4, ← h5]
  | cons y ys ih =>
    intro x m rest h
    rcases popMinList_ne_nil le ys y with ⟨m2, r2, hm2⟩
    have h2 : (if le x m2 then some (x, y :: ys)
        else some (m2, x :: r2)) = some (m, rest) := by
      rw [← h]
      show _ = (match popMinList le (y :: ys) with
        | none => some (x, [])
        | some (m, rest) =>
          if le x m then some (x, y :: ys) else some (m, x :: rest))
      rw [hm2]
    by_cases hc : le x m2 = true
    · rw [if_pos hc] at h2
      injection h2 with h3
      injection h3 with h4 h5
      rw [← h4, ← h5]
    · rw [if_neg hc] at h2
      injection h2 with h3
      injection h3 with h4 h5
      rw [← h4, ← h5]
      have hp := ih y m2 r2 hm2
      exact (List.Perm.swap x m2 r2).trans (List.Perm.cons x hp)

theorem popMinList_min {α : Type} (le : α → α → Bool)
    (htot : ∀ x y, le x y = true ∨ le y x = true)
    (htrans : ∀ x y z, le x y = true → le y z = true → le x z = true) :
    ∀ (xs : List α) (x m : α) (rest : List α),
      popMinList le (x :: xs) = some (m, rest) →
        ∀ y ∈ x :: xs, le m y = true := by
  have hrefl : ∀ z, le z z = true := fun z => by
    rcases htot z z with h1 | h1 <;> exact h1
  intro xs
  induction xs with
  | nil =>
    intro x m rest h y hy
    have h2 : some (x, ([] : List α)) = some (m, rest) := h
    injection h2 with h3
    injection h3 with h4 h5
    rcases List.mem_singleton.mp hy with hyx
    rw [hyx, ← h4]
    exact hrefl x
  | cons a as ih =>
    intro x m rest h y hy
    rcases popMinList_ne_nil le as a with ⟨m2, r2, hm2⟩
    have hmin2 := ih a m2 r2 hm2
    have h2 : (if le x m2 then some (x, a :: as)
        else some (m2, x :: r2)) = some (m, rest) := by
      rw [← h]
      show _ = (match popMinList le (a :: as) with
        | none => some (x, [])
        | some (m, rest) =>
          if le x m then some (x, a :: as) else some (m, x :: rest))
      rw [hm2]
    by_cases hc : le x m2 = true
    · rw [if_pos hc] at h2
      injection h2 with h3
      injection h3 with h4 h5
      rw [← h4]
      rcases List.mem_cons.mp hy with hyx | hyxs
      · rw [hyx]; exact hrefl x
      · exact htrans x m2 y hc (hmin2 y hyxs)
    · rw [if_neg hc] at h2
      injection h2 with h3
      injection h3 with h4 h5
      rw [← h4]
      rcases List.mem_cons.mp hy with hyx | hyxs
      · rw [hyx]
        rcases htot x m2 with h1 | h1
        · exact absurd h1 hc
        · exact h1
      · exact hmin2 y hyxs

theorem scanNonempty_some_char {α : Type} (qs : List (List α)) (D : Nat) :
    ∀ (fuel p p1 : Nat), scanNonempty qs D p fuel = some p1 →
      ∃ t, t < fuel ∧ p1 = ((fun q => (q + 1) % D)^[t] p) ∧
        ¬ (qs.getD p1 []) = [] ∧
        (∀ t' < t, qs.getD ((fun q => (q + 1) % D)^[t'] p) [] = []) := by
  intro fuel
  induction fuel with
  | zero => intro p p1 h; cases h
  | succ n ih =>
    intro p p1 h
    by_cases he : (qs.getD p []).isEmpty
    · rw [scanNonempty, if_pos he] at h
      rcases ih ((p + 1) % D) p1 h with ⟨t, ht, hp1, hne, hall⟩
      refine ⟨t + 1, by omega, ?_, hne, ?_⟩
      · rw [Function.iterate_succ_apply]
        exact hp1
      · intro t' ht'
        cases t' with
        | zero => simpa using List.isEmpty_iff.mp he
        | succ t'' =>
          rw [Function.iterate_succ_apply]
          exact hall t'' (by omega)
    · rw [scanNonempty, if_neg he] at h
      injection h with h1
      refine ⟨0, by omega, by rw [Function.iterate_zero_apply]; exact h1.symm,
        ?_, by omega⟩
      rw [← h1]
      exact fun hh => he (List.isEmpty_iff.mpr hh)

theorem scanNonempty_none_char {α : Type} (qs : List (List α)) (D : Nat) :
    ∀ (fuel p : Nat), scanNonempty qs D p fuel = none →
      ∀ t < fuel, qs.getD ((fun q => (q + 1) % D)^[t] p) [] = [] := by
  intro fuel
  induction fuel with
  | zero => intro p h t ht; omega
  | succ n ih =>
    intro p h t ht
    by_cases he : (qs.getD p []).isEmpty
    · rw [scanNonempty, if_pos he] at h
      cases t with
      | zero => simpa using List.isEmpty_iff.mp he
      | succ t'' =>
        rw [Function.iterate_succ_apply]
        exact ih ((p + 1) % D) h t'' (by omega)
    · rw [scanNonempty, if_neg he] at h
      cases h

theorem iterate_cyc_eq (D p t : Nat) (hp : p < D) :
    ((fun q => (q + 1) % D)^[t] p) = (p + t) % D := by
  induction t with
  | zero => simp [Nat.mod_eq_of_lt hp]
  | succ n ih =>
    rw [Function.iterate_succ_apply', ih]
    show ((p + n) % D + 1) % D = (p + (n + 1)) % D
    have h1 : (p + n) % D ≡ p + n [MOD D] := Nat.mod_modEq _ _
    have h2 := h1.add_right 1
    have h3 : ((p + n) % D + 1) % D = (p + n + 1) % D := h2
    rw [h3, Nat.add_assoc]


theorem getD_set_self {α : Type} (l : List α) (i : Nat) (x d : α)
    (h : i < l.length) : (l.set i x).getD i d = x := by
  simp [List.getD_eq_getElem?_getD, List.getElem?_set_self, h]

/-- C7: `CBFS.pop` fails exactly on the empty scheduler; otherwise it
advances the active index modulo the queue count when the cycle counter has
reached the quota, keeps advancing (resetting the counter) while the active
heap is empty, pops a minimum of the settled heap, increments the counter
and decrements the item count. -/
theorem c7_cbfs_pop {α : Type} (le : α → α → Bool) (s : CBFS α)
    (hlen : s.queues.length = s.num_queues)
    (hpos : 0 < s.num_queues)
    (hidx : s.pop_idx < s.num_queues)
    (hcount : s.num_items = (s.queues.map List.length).sum)
    (htot : ∀ x y, le x y = true ∨ le y x = true)
    (htrans : ∀ x y z, le x y = true → le y z = true → le x z = true) :
    (s.num_items = 0 →
      s.pop le =
        Except.error "Error (CBFS) cannot pop from an empty queue!") ∧
    (¬ s.num_items = 0 → ∃ x s',
      s.pop le = Except.ok (x, s') ∧
      x ∈ s.queues.getD s'.pop_idx [] ∧
      (∀ y ∈ s.queues.getD s'.pop_idx [], le x y = true) ∧
      (∃ t, t < s.num_queues ∧
        s'.pop_idx =
          ((fun q => (q + 1) % s.num_queues)^[t]
            (if s.num_popped = s.num_to_pop
             then (s.pop_idx + 1) % s.num_queues else s.pop_idx)) ∧
        ∀ t' < t,
          s.queues.getD
            ((fun q => (q + 1) % s.num_queues)^[t']
              (if s.num_popped = s.num_to_pop
               then (s.pop_idx + 1) % s.num_queues else s.pop_idx)) [] =
            []) ∧
      (x :: s'.queues.getD s'.pop_idx []).Perm
        (s.queues.getD s'.pop_idx []) ∧
      (∀ idx, ¬ idx = s'.pop_idx →
        s'.queues.getD idx [] = s.queues.getD idx []) ∧
      s'.num_popped =
        (if s'.pop_idx = s.pop_idx ∧ ¬ s.num_popped = s.num_to_pop
         then s.num_popped else 0) + 1 ∧
      s'.num_items = s.num_items - 1 ∧
      s'.num_queues = s.num_queues ∧ s'.num_to_pop = s.num_to_pop) := by
  constructor
  · intro h0
    simp [CBFS.pop, h0]
  · intro h0
    have hp0lt : (if s.num_popped = s.num_to_pop
        then (s.pop_idx + 1) % s.num_queues else s.pop_idx) < s.num_queues := by
      split_ifs
      · exact Nat.mod_lt _ hpos
      · exact hidx
    set p0 := if s.num_popped = s.num_to_pop
      then (s.pop_idx + 1) % s.num_queues else s.pop_idx with hp0
    match hscan : scanNonempty s.queues s.num_queues p0 s.num_queues with
    | none =>
      exfalso
      have hall := scanNonempty_none_char s.queues s.num_queues
        s.num_queues p0 hscan
      have hempty : ∀ j < s.num_queues, s.queues.getD j [] = [] := by
        intro j hj
        have htlt : (j + s.num_queues - p0) % s.num_queues < s.num_queues :=
          Nat.mod_lt _ hpos
        have := hall ((j + s.num_queues - p0) % s.num_queues) htlt
        rw [iterate_cyc_eq _ _ _ hp0lt] at this
        have hmod : (p0 + (j + s.num_queues - p0) % s.num_queues) %
            s.num_queues = j := by
          have h1 : (j + s.num_queues - p0) % s.num_queues ≡
              j + s.num_queues - p0 [MOD s.num_queues] := Nat.mod_modEq _ _
          have h2 := h1.add_left p0
          have h3 : (p0 + (j + s.num_queues - p0) % s.num_queues) %
              s.num_queues = (p0 + (j + s.num_queues - p0)) %
                s.num_queues := h2
          rw [h3]
          have h4 : p0 + (j + s.num_queues - p0) = j + s.num_queues := by
            omega
          rw [h4, Nat.add_mod_right, Nat.mod_eq_of_lt hj]
        rw [hmod] at this
        exact this
      have hzero : ∀ q ∈ s.queues, q.length = 0 := by
        intro q hq
        rcases List.mem_iff_getElem.mp hq with ⟨j, hj, hjq⟩
        have hjD : j < s.num_queues := by omega
        have := hempty j hjD
        rw [List.getD_eq_getElem _ _ (by omega)] at this
        rw [← hjq, this]
        rfl
      have : (s.queues.map List.length).sum = 0 := by
        apply List.sum_eq_zero
        intro n hn
        rcases List.mem_map.mp hn with ⟨q, hq, hql⟩
        rw [← hql]
        exact hzero q hq
      rw [hcount, this] at h0
      exact h0 rfl
    | some p1 =>
      rcases scanNonempty_some_char s.queues s.num_queues s.num_queues p0 p1
        hscan with ⟨t, ht, hp1iter, hne, hall⟩
      have hp1lt : p1 < s.num_queues := by
        rw [hp1iter, iterate_cyc_eq _ _ _ hp0lt]
        exact Nat.mod_lt _ hpos
      match hq : s.queues.getD p1 [] with
      | [] => exact absurd hq hne
      | qx :: qxs =>
        rcases popMinList_ne_nil le qxs qx with ⟨m, rest, hpm⟩
        refine ⟨m, { s with
          queues := s.queues.set p1 rest
          pop_idx := p1
          num_popped := (if p1 = p0 then
            (if s.num_popped = s.num_to_pop then 0 else s.num_popped)
            else 0) + 1
          num_items := s.num_items - 1 }, ?_, ?_, ?_, ?_, ?_, ?_, ?_, ?_,
          rfl, rfl⟩
        · show CBFS.pop s le = _
          simp only [CBFS.pop, if_neg h0]
          rw [← hp0, hscan]
          show (match popMinList le (s.queues.getD p1 []) with
            | none => Except.error _
            | some (x, rest) => Except.ok (x, _)) = _
          rw [hq, hpm]
        · have hperm := popMinList_perm le qxs qx m rest hpm
          have : m ∈ qx :: qxs := hperm.subset (List.mem_cons_self m rest)
          show m ∈ s.queues.getD p1 []
          rw [hq]; exact this
        · intro y hy
          rw [show (s.queues.getD p1 []) = qx :: qxs from hq] at hy
          exact popMinList_min le htot htrans qxs qx m rest hpm y hy
        · exact ⟨t, ht, hp1iter, hall⟩
        · have hperm := popMinList_perm le qxs qx m rest hpm
          show (m :: (s.queues.set p1 rest).getD p1 []).Perm
            (s.queues.getD p1 [])
          rw [getD_set_self _ _ _ _ (by omega), hq]
          exact hperm
        · intro idx hne2
          exact getD_set_ne _ _ _ _ _ (fun hh => hne2 hh.symm)
        · show (if p1 = p0 then
            (if s.num_popped = s.num_to_pop then 0 else s.num_popped)
            else 0) + 1 = _
          by_cases hQ : s.num_popped = s.num_to_pop
          · have hcond : ¬ (p1 = s.pop_idx ∧ ¬ s.num_popped = s.num_to_pop) :=
              fun hc => hc.2 hQ
            simp [hQ, hcond]
          · have hp0e : p0 = s.pop_idx := by rw [hp0, if_neg hQ]
            rw [hp0e]
            by_cases hpe : p1 = s.pop_idx
            · simp [hpe, hQ]
            · simp [hpe]
        · rfl

/-- Witness for C7: on a concrete two-queue CBFS over `Nat` holding
`[[3, 1, 2], [5]]`, `pop` succeeds and the full characterization of
`c7_cbfs_pop` holds at that instance. -/
theorem c7_cbfs_pop_witness :
    ∃ x s', cbfsDemo.pop natLeB = Except.ok (x, s') ∧
      x ∈ cbfsDemo.queues.getD s'.pop_idx [] ∧
      (∀ y ∈ cbfsDemo.queues.getD s'.pop_idx [], natLeB x y = true) ∧
      (∃ t, t < cbfsDemo.num_queues ∧
        s'.pop_idx =
          ((fun q => (q + 1) % cbfsDemo.num_queues)^[t]
            (if cbfsDemo.num_popped = cbfsDemo.num_to_pop
             then (cbfsDemo.pop_idx + 1) % cbfsDemo.num_queues
             else cbfsDemo.pop_idx)) ∧
        ∀ t' < t,
          cbfsDemo.queues.getD
            ((fun q => (q + 1) % cbfsDemo.num_queues)^[t']
              (if cbfsDemo.num_popped = cbfsDemo.num_to_pop
               then (cbfsDemo.pop_idx + 1) % cbfsDemo.num_queues
               else cbfsDemo.pop_idx)) [] =
            []) ∧
      (x :: s'.queues.getD s'.pop_idx []).Perm
        (cbfsDemo.queues.getD s'.pop_idx []) ∧
      (∀ idx, ¬ idx = s'.pop_idx →
        s'.queues.getD idx [] = cbfsDemo.queues.getD idx []) ∧
      s'.num_popped =
        (if s'.pop_idx = cbfsDemo.pop_idx ∧
            ¬ cbfsDemo.num_popped = cbfsDemo.num_to_pop
         then cbfsDemo.num_popped else 0) + 1 ∧
      s'.num_items = cbfsDemo.num_items - 1 ∧
      s'.num_queues = cbfsDemo.num_queues ∧
      s'.num_to_pop = cbfsDemo.num_to_pop :=
  (c7_cbfs_pop natLeB cbfsDemo rfl (by decide) (by decide) (by decide)
    (fun x y => by simpa [natLeB] using Nat.le_total x y)
    (fun x y z h1 h2 => by
      simp only [natLeB, decide_eq_true_eq] at h1 h2 ⊢
      exact Nat.le_trans h1 h2)).2 (by decide)

/-- A child of an allocated node spans a downward arc with allocated
endpoints. -/
theorem arcok_child (a : RegexpAst) (hwf : a.WellFormed) (v c : Nat)
    (hv : v ∈ a.Nodes) (hc : c ∈ a.children v) : ArcOK a (v, some c) := by
  obtain ⟨-, -, -, hchild, hcp, -, -, -, -, -⟩ := hwf
  have hcn : c ∈ a.Nodes := hchild v hv c hc
  exact ⟨hv, hcn, Or.inl ((hcp v hv c hcn).mp hc)⟩

/-- An operator-labelled allocated node has a first child, and that child
is among its children. -/
theorem first_child_mem (a : RegexpAst) (hwf : a.WellFormed) (v : Nat)
    (hv : v ∈ a.Nodes)
    (hlop : a.label v ∈ (["+", "*", "?", ".", "|"] : List String)) :
    ∃ c, a.first_child v = some c ∧ c ∈ a.children v := by
  obtain ⟨-, -, -, -, -, -, -, -, hop, -⟩ := hwf
  have hne := hop v hv hlop
  match hl : a.children v with
  | [] => exact absurd hl hne
  | c :: cs =>
    refine ⟨c, ?_, ?_⟩
    · show (a.children v).head? = some c
      rw [hl]
      rfl
    · exact List.mem_cons_self c cs

/-- An allocated node that is not the root sentinel has an allocated
parent, and the arc to it is upward. -/
theorem arcok_parent (a : RegexpAst) (hwf : a.WellFormed) (v : Nat)
    (hv : v ∈ a.Nodes) (hlab : ¬ a.label v = "root") :
    ∃ p, a.parent v = some p ∧ ArcOK a (v, some p) := by
  obtain ⟨hroot, hlabroot, -, -, -, -, hpar, hnr, -, -⟩ := hwf
  have hvr : ¬ v = a.root := fun h => hlab (by rw [h]; exact hlabroot)
  have hpn := hnr v hv hvr
  match hp : a.parent v with
  | none => exact absurd hp hpn
  | some p =>
    have hpN : p ∈ a.Nodes := hpar v hv p hp
    exact ⟨p, rfl, hv, hpN, Or.inr hp⟩

/-- The single-step table of the spec preserves traversable arcs on a
well-formed arena. -/
theorem specStep_arcok (a : RegexpAst) (hwf : a.WellFormed) (u v : Nat)
    (hok : ArcOK a (u, some v)) :
    ∀ y ∈ a.specStep (u, some v), ArcOK a y := by
  obtain ⟨hu, hv, -⟩ := hok
  intro y hy
  simp only [RegexpAst.specStep] at hy
  by_cases hd : a.is_downwards_arc u v
  · rw [if_pos hd] at hy
    by_cases h1 : a.label v = "+" ∨ a.label v = "."
    · rw [if_pos h1, List.mem_singleton] at hy
      obtain ⟨c, hc1, hc2⟩ := first_child_mem a hwf v hv
        (by rcases h1 with h | h <;> simp [h])
      rw [hy, hc1]
      exact arcok_child a hwf v c hv hc2
    · rw [if_neg h1] at hy
      by_cases h2 : a.label v = "*" ∨ a.label v = "?"
      · rw [if_pos h2] at hy
        rcases List.mem_cons.mp hy with hy1 | hy1
        · rw [hy1]
          exact ⟨hv, hu, Or.inr hd⟩
        · rw [List.mem_singleton] at hy1
          obtain ⟨c, hc1, hc2⟩ := first_child_mem a hwf v hv
            (by rcases h2 with h | h <;> simp [h])
          rw [hy1, hc1]
          exact arcok_child a hwf v c hv hc2
      · rw [if_neg h2] at hy
        by_cases h3 : a.label v = "|"
        · rw [if_pos h3] at hy
          rcases List.mem_map.mp hy with ⟨c, hc, hyc⟩
          rw [← hyc]
          exact arcok_child a hwf v c hv hc
        · rw [if_neg h3] at hy
          exact absurd hy (List.not_mem_nil y)
  · rw [if_neg hd] at hy
    by_cases hup : a.is_upwards_arc u v
    · rw [if_pos hup] at hy
      by_cases h1 : a.label v = "+" ∨ a.label v = "*"
      · rw [if_pos h1] at hy
        rcases List.mem_cons.mp hy with hy1 | hy1
        · rw [hy1]
          exact ⟨hv, hu, Or.inl hup⟩
        · rw [List.mem_singleton] at hy1
          obtain ⟨p, hp1, hp2⟩ := arcok_parent a hwf v hv
            (by rcases h1 with h | h <;> simp [h])
          rw [hy1, hp1]
          exact hp2
      · rw [if_neg h1] at hy
        by_cases h2 : a.label v = "?" ∨ a.label v = "|"
        · rw [if_pos h2, List.mem_singleton] at hy
          obtain ⟨p, hp1, hp2⟩ := arcok_parent a hwf v hv
            (by rcases h2 with h | h <;> simp [h])
          rw [hy, hp1]
          exact hp2
        · rw [if_neg h2] at hy
          by_cases h3 : a.label v = "."
          · rw [if_pos h3] at hy
            by_cases h4 : a.is_last_child u v
            · rw [if_pos h4, List.mem_singleton] at hy
              obtain ⟨p, hp1, hp2⟩ := arcok_parent a hwf v hv (by simp [h3])
              rw [hy, hp1]
              exact hp2
            · rw [if_neg h4, List.mem_singleton] at hy
              have hcp := hwf.2.2.2.2.1
              have humem : u ∈ a.children v := (hcp v hv u hu).mpr hup
              have hvu : ¬ a.is_upwards_arc v u := hd
              have hidx : a.get_arc_index v u = (a.children v).indexOf u := by
                show (if a.is_upwards_arc v u then (a.children u).indexOf v
                  else (a.children v).indexOf u) = _
                rw [if_neg hvu]
              have hlt : (a.children v).indexOf u < (a.children v).length :=
                List.indexOf_lt_length.mpr humem
              have hy2 : (a.children v).indexOf u + 1 <
                  (a.children v).length := by
                by_contra hcon
                have heq : (a.children v).indexOf u =
                    (a.children v).length - 1 := by omega
                refine h4 ?_
                show (a.children v).getLast? = some u
                rw [List.getLast?_eq_getElem?, ← heq,
                  List.getElem?_eq_getElem hlt, List.getElem_indexOf hlt]
              have hw : a.ith_child v ((a.children v).indexOf u + 1) ∈
                  a.children v := by
                show (a.children v).getD ((a.children v).indexOf u + 1) 0 ∈
                  a.children v
                rw [List.getD_eq_getElem _ _ hy2]
                exact List.getElem_mem hy2
              rw [hy, hidx]
              exact arcok_child a hwf v _ hv hw
          · rw [if_neg h3] at hy
            exact absurd hy (List.not_mem_nil y)
    · rw [if_neg hup] at hy
      exact absurd hy (List.not_mem_nil y)

/-- On a downward or upward arc the code's `epsilon_successors` is exactly
the arc itself together with the arcs of the spec's single-step table. -/
theorem eps_succ_iff (a : RegexpAst) (u v : Nat)
    (h : a.is_downwards_arc u v ∨ a.is_upwards_arc u v) (y : Arc) :
    y ∈ a.epsilon_successors (u, some v) ↔
      y = (u, some v) ∨ y ∈ a.specStep (u, some v) := by
  by_cases hd : a.is_downwards_arc u v
  · by_cases h1 : a.label v = "+" <;>
      by_cases h2 : a.label v = "*" <;>
      by_cases h3 : a.label v = "?" <;>
      by_cases h4 : a.label v = "." <;>
      by_cases h5 : a.label v = "|" <;>
      simp_all [RegexpAst.epsilon_successors, RegexpAst.specStep]
  · have hu : a.is_upwards_arc u v := h.resolve_left hd
    by_cases h6 : a.is_last_child u v <;>
      by_cases h1 : a.label v = "+" <;>
      by_cases h2 : a.label v = "*" <;>
      by_cases h3 : a.label v = "?" <;>
      by_cases h4 : a.label v = "." <;>
      by_cases h5 : a.label v = "|" <;>
      simp_all [RegexpAst.epsilon_successors, RegexpAst.specStep]

/-- A successor of a traversable arc is the arc itself or a spec step. -/
theorem eps_succ_sub (a : RegexpAst) (x y : Arc) (hx : ArcOK a x)
    (hy : y ∈ a.epsilon_successors x) : y = x ∨ y ∈ a.specStep x := by
  match x with
  | (s, none) => exact hx.elim
  | (s, some t) => exact (eps_succ_iff a s t hx.2.2 y).mp hy

/-- Conversely, every spec step of a traversable arc is among the code's
epsilon successors. -/
theorem spec_step_sub (a : RegexpAst) (x y : Arc) (hx : ArcOK a x)
    (hy : y ∈ a.specStep x) : y ∈ a.epsilon_successors x := by
  match x with
  | (s, none) => exact hx.elim
  | (s, some t) => exact (eps_succ_iff a s t hx.2.2 y).mpr (Or.inr hy)

/-- `epsilon_successors` preserves traversable arcs on a well-formed
arena. -/
theorem eps_succ_arcok (a : RegexpAst) (hwf : a.WellFormed) (x y : Arc)
    (hx : ArcOK a x) (hy : y ∈ a.epsilon_successors x) : ArcOK a y := by
  rcases eps_succ_sub a x y hx hy with he | hs
  · rw [he]
    exact hx
  · match x with
    | (s, none) => exact hx.elim
    | (s, some t) => exact specStep_arcok a hwf s t hx y hs

/-- `specStep` preserves traversable arcs, stated on an arbitrary arc
(the `none`-target case is vacuous since its step list is empty). -/
theorem specStep_arcok_any (a : RegexpAst) (hwf : a.WellFormed) (x y : Arc)
    (hx : ArcOK a x) (hy : y ∈ a.specStep x) : ArcOK a y := by
  match x with
  | (s, none) => exact hx.elim
  | (s, some t) => exact specStep_arcok a hwf s t hx y hy

/-- Every arc in the spec closure of a traversable arc is traversable. -/
theorem specClosure_arcok (a : RegexpAst) (hwf : a.WellFormed) (init x : Arc)
    (hok : ArcOK a init) (h : SpecClosure a init x) : ArcOK a x := by
  induction h with
  | base => exact hok
  | step h1 h2 ih => exact specStep_arcok_any a hwf _ _ ih h2

/-- The code's closure and the spec's closure agree from any traversable
initial arc of a well-formed arena. -/
theorem epsClosure_iff_specClosure (a : RegexpAst) (hwf : a.WellFormed)
    (init x : Arc) (hok : ArcOK a init) :
    EpsClosure a init x ↔ SpecClosure a init x := by
  constructor
  · intro h
    induction h with
    | base => exact SpecClosure.base
    | step h1 h2 ih =>
      rcases eps_succ_sub a _ _ (specClosure_arcok a hwf init _ hok ih) h2
        with he | hs
      · rw [he]
        exact ih
      · exact SpecClosure.step ih hs
  · intro h
    induction h with
    | base => exact EpsClosure.base
    | step h1 h2 ih =>
      exact EpsClosure.step ih
        (spec_step_sub a _ _ (specClosure_arcok a hwf init _ hok h1) h2)

/-- Every traversable arc lives in the finite arc universe. -/
theorem arcok_mem_univ (a : RegexpAst) (x : Arc) (hx : ArcOK a x) :
    x ∈ a.Univ := by
  match x with
  | (s, none) => exact hx.elim
  | (s, some t) =>
    obtain ⟨h1, h2, -⟩ := hx
    simp only [RegexpAst.Univ, Finset.mem_product, Finset.mem_insert,
      Finset.mem_image]
    exact ⟨h1, Or.inr ⟨t, h2, rfl⟩⟩

/-- A duplicate-free list of traversable arcs is no longer than the arc
universe. -/
theorem nodup_length_le (a : RegexpAst) (res : List Arc) (hnd : res.Nodup)
    (hsub : ∀ x ∈ res, ArcOK a x) : res.length ≤ (a.Univ).card := by
  have h1 : res.toFinset ⊆ a.Univ := by
    intro x hx
    exact arcok_mem_univ a x (hsub x (List.mem_toFinset.mp hx))
  have h2 := Finset.card_le_card h1
  rwa [List.card_toFinset, List.dedup_eq_self.mpr hnd] at h2

/-- Everything the worklist accumulates lies in the closure of the arcs it
started from. -/
theorem epsReach_sound (a : RegexpAst) (init : Arc) :
    ∀ fuel stack res,
      (∀ x ∈ stack, EpsClosure a init x) →
      (∀ x ∈ res, EpsClosure a init x) →
      ∀ y ∈ RegexpAst.epsReachAux a fuel stack res, EpsClosure a init y := by
  intro fuel
  induction fuel with
  | zero =>
    intro stack res hs hr y hy
    exact hr y hy
  | succ n ih =>
    intro stack res hs hr y hy
    match stack with
    | [] => exact hr y hy
    | x :: rest =>
      have hx := hs x (List.mem_cons_self x rest)
      refine ih _ _ ?_ ?_ y hy
      · intro z hz
        rcases List.mem_append.mp hz with hz1 | hz2
        · exact EpsClosure.step hx
            (List.mem_filter.mp (List.mem_dedup.mp hz1)).1
        · exact hs z (List.mem_cons_of_mem x hz2)
      · intro z hz
        rcases List.mem_append.mp hz with hz1 | hz2
        · exact hr z hz1
        · exact EpsClosure.step hx
            (List.mem_filter.mp (List.mem_dedup.mp hz2)).1

/-- Master worklist invariant: with the stated invariants and enough fuel,
the accumulated set contains its starting set and is closed under
`epsilon_successors`. -/
theorem epsReach_closed (a : RegexpAst) (hwf : a.WellFormed) :
    ∀ fuel stack res,
      (∀ x ∈ res, ArcOK a x) →
      res.Nodup →
      (∀ x ∈ stack, x ∈ res) →
      (∀ x ∈ res, ¬ x ∈ stack → ∀ y ∈ a.epsilon_successors x, y ∈ res) →
      (a.Univ).card + stack.length ≤ fuel + res.length →
      (∀ x ∈ res, x ∈ RegexpAst.epsReachAux a fuel stack res) ∧
      (∀ x ∈ RegexpAst.epsReachAux a fuel stack res,
        ∀ y ∈ a.epsilon_successors x, y ∈ RegexpAst.epsReachAux a fuel stack res) := by
  intro fuel
  induction fuel with
  | zero =>
    intro stack res hok hnd hsub hcl hcard
    have hlen : res.length ≤ (a.Univ).card := nodup_length_le a res hnd hok
    have hstack : stack = [] := by
      have h0 : stack.length = 0 := by omega
      exact List.length_eq_zero.mp h0
    subst hstack
    exact ⟨fun x hx => hx,
      fun x hx y hy => hcl x hx (List.not_mem_nil x) y hy⟩
  | succ n ih =>
    intro stack res hok hnd hsub hcl hcard
    match stack with
    | [] =>
      exact ⟨fun x hx => hx,
        fun x hx y hy => hcl x hx (List.not_mem_nil x) y hy⟩
    | x :: rest =>
      have hxres : x ∈ res := hsub x (List.mem_cons_self x rest)
      have hxok : ArcOK a x := hok x hxres
      set nws := ((a.epsilon_successors x).filter
        (fun y => ¬ y ∈ res)).dedup with hnws
      have hR : RegexpAst.epsReachAux a (n + 1) (x :: rest) res
          = RegexpAst.epsReachAux a n (nws ++ rest) (res ++ nws) := rfl
      have hnwsub : ∀ z ∈ nws, z ∈ a.epsilon_successors x ∧ ¬ z ∈ res := by
        intro z hz
        have hf := List.mem_filter.mp (List.mem_dedup.mp hz)
        exact ⟨hf.1, by simpa using hf.2⟩
      have hok' : ∀ z ∈ res ++ nws, ArcOK a z := by
        intro z hz
        rcases List.mem_append.mp hz with h | h
        · exact hok z h
        · exact eps_succ_arcok a hwf x z hxok (hnwsub z h).1
      have hnd' : (res ++ nws).Nodup := by
        refine List.Nodup.append hnd (List.nodup_dedup _) ?_
        intro z hz1 hz2
        exact (hnwsub z hz2).2 hz1
      have hsub' : ∀ z ∈ nws ++ rest, z ∈ res ++ nws := by
        intro z hz
        rcases List.mem_append.mp hz with h | h
        · exact List.mem_append.mpr (Or.inr h)
        · exact List.mem_append.mpr (Or.inl (hsub z (List.mem_cons_of_mem x h)))
      have hcl' : ∀ z ∈ res ++ nws, ¬ z ∈ nws ++ rest →
          ∀ y ∈ a.epsilon_successors z, y ∈ res ++ nws := by
        intro z hz hzn y hy
        rcases List.mem_append.mp hz with hzr | hznw
        · by_cases hzx : z = x
          · subst hzx
            by_cases hyres : y ∈ res
            · exact List.mem_append.mpr (Or.inl hyres)
            · refine List.mem_append.mpr (Or.inr ?_)
              rw [hnws, List.mem_dedup, List.mem_filter]
              exact ⟨hy, by simpa using hyres⟩
          · have hzs : ¬ z ∈ (x :: rest) := by
              intro hcon
              rcases List.mem_cons.mp hcon with h | h
              · exact hzx h
              · exact hzn (List.mem_append.mpr (Or.inr h))
            exact List.mem_append.mpr (Or.inl (hcl z hzr hzs y hy))
        · exact absurd (List.mem_append.mpr (Or.inl hznw)) hzn
      have hcard' : (a.Univ).card + (nws ++ rest).length
          ≤ n + (res ++ nws).length := by
        simp only [List.length_append]
        simp only [List.length_cons] at hcard
        omega
      have hmain := ih (nws ++ rest) (res ++ nws) hok' hnd' hsub' hcl' hcard'
      rw [hR]
      exact ⟨fun z hz => hmain.1 z (List.mem_append.mpr (Or.inl hz)),
        hmain.2⟩

/-- **C2.** On a well-formed arena, for every downward or upward arc
`(u, v)` with allocated endpoints, the arc set computed by
`epsilon_reachables(u, v)` has exactly the members of the least set of
arcs that contains the initial arc `(u, v)` and is closed under the
single-step table of the specification (down into `+`/`.` adds the first
child arc; down into `*`/`?` adds the bounce-back and first-child arcs;
down into `|` adds one arc per child; up through `+`/`*` adds the
bounce-back and parent arcs; up through `?`/`|` adds the parent arc; up
through `.` adds the parent arc from the last child and the next-sibling
arc otherwise; a leaf or the root contributes no further step). -/
theorem c2_epsilon_reachables (a : RegexpAst) (u : Nat) (v : Nat)
    (hwf : a.WellFormed) (hok : ArcOK a (u, some v)) (x : Arc) :
    x ∈ a.epsilon_reachables u (some v) ↔ SpecClosure a (u, some v) x := by
  have hinit : ∀ z ∈ ([((u : Nat), some v)] : List Arc), ArcOK a z := by
    intro z hz
    rw [List.mem_singleton] at hz
    rw [hz]
    exact hok
  have hmain := epsReach_closed a hwf ((a.Univ).card + 1)
    [(u, some v)] [(u, some v)] hinit (List.nodup_singleton _)
    (fun z hz => hz) (fun z hz hzn => absurd hz hzn)
    (by simp only [List.length_singleton]; omega)
  constructor
  · intro hx
    have heps : EpsClosure a (u, some v) x := by
      refine epsReach_sound a (u, some v) _ _ _ ?_ ?_ x hx
      · intro z hz
        rw [List.mem_singleton] at hz
        rw [hz]
        exact EpsClosure.base
      · intro z hz
        rw [List.mem_singleton] at hz
        rw [hz]
        exact EpsClosure.base
    exact (epsClosure_iff_specClosure a hwf (u, some v) x hok).mp heps
  · intro hs
    have heps : EpsClosure a (u, some v) x :=
      (epsClosure_iff_specClosure a hwf (u, some v) x hok).mpr hs
    clear hs
    induction heps with
    | base => exact hmain.1 (u, some v) (List.mem_singleton_self _)
    | step h1 h2 ih => exact hmain.2 _ ih _ h2

/-- **C3.** On a well-formed arena, for every upward arc `(u, v)` with
allocated endpoints and every symbol `c`, `UpDotMutator.mutate` returns
exactly one pair `(new_ast, new_leaf)`: the inserted arena has a fresh `.`
node in `u`'s former position among the children of `v`, with the original
`u`-subtree as its first child and a fresh `c`-labelled leaf as its second
child, every pre-existing node keeping its label, children (apart from
`v`) and parent (apart from `u`); the inserted arena itself is returned
exactly when it recognizes the current prefix ending at the new leaf and
every previously processed example, and otherwise the new leaf is wrapped
under a fresh `?` node interposed between the `.` node and the leaf. -/
theorem c3_up_dot_mutate (ast : RegexpAst) (c : String) (u v' : Nat)
    (pword : List String) (prev : List PExample) (eps : List Arc)
    (cpa : PExample) (hwf : ast.WellFormed) (hu : u ∈ ast.Nodes)
    (hv : v' ∈ ast.Nodes) (hup : ast.is_upwards_arc u v')
    (hnd : ¬ ast.is_downwards_arc u v') :
    ∃ a5,
      up_dot_insert ast c u v' =
        some (a5, ast.nodes_id, ast.nodes_id + 1) ∧
      a5.label ast.nodes_id = "." ∧
      a5.label (ast.nodes_id + 1) = c ∧
      a5.children ast.nodes_id = [u, ast.nodes_id + 1] ∧
      a5.parent u = some ast.nodes_id ∧
      a5.parent (ast.nodes_id + 1) = some ast.nodes_id ∧
      a5.parent ast.nodes_id = some v' ∧
      a5.children v' =
        (ast.children v').set ((ast.children v').indexOf u) ast.nodes_id ∧
      (∀ w ∈ ast.Nodes, a5.label w = ast.label w) ∧
      (∀ w ∈ ast.Nodes, ¬ w = v' → a5.children w = ast.children w) ∧
      (∀ w ∈ ast.Nodes, ¬ w = u → a5.parent w = ast.parent w) ∧
      (∃ r, up_dot_mutate ast c u (some v') pword prev eps cpa =
        some [(r, ast.nodes_id + 1)]) ∧
      (up_dot_hit a5 (ast.nodes_id + 1) pword prev cpa = true →
        up_dot_mutate ast c u (some v') pword prev eps cpa =
          some [(a5, ast.nodes_id + 1)]) ∧
      (up_dot_hit a5 (ast.nodes_id + 1) pword prev cpa = false →
        ∃ a8, up_dot_wrap a5 ast.nodes_id (ast.nodes_id + 1) = some a8 ∧
          up_dot_mutate ast c u (some v') pword prev eps cpa =
            some [(a8, ast.nodes_id + 1)] ∧
          a8.label (ast.nodes_id + 2) = "?" ∧
          a8.children ast.nodes_id = [u, ast.nodes_id + 2] ∧
          a8.children (ast.nodes_id + 2) = [ast.nodes_id + 1] ∧
          a8.parent (ast.nodes_id + 1) = some (ast.nodes_id + 2) ∧
          a8.label (ast.nodes_id + 1) = c) := by
  have hc10 := hwf.2.2.2.2.2.2.2.2.2
  have hcp := hwf.2.2.2.2.1
  have hult : u < ast.nodes_id := hc10 u hu
  have hvlt : v' < ast.nodes_id := hc10 v' hv
  have hun : ¬ u = ast.nodes_id := by omega
  have hun1 : ¬ u = ast.nodes_id + 1 := by omega
  have hnu : ¬ ast.nodes_id = u := by omega
  have hvn : ¬ v' = ast.nodes_id := by omega
  have hvn1 : ¬ v' = ast.nodes_id + 1 := by omega
  have hnv : ¬ ast.nodes_id = v' := by omega
  have hnn1 : ¬ ast.nodes_id = ast.nodes_id + 1 := by omega
  have hnn2 : ¬ ast.nodes_id = ast.nodes_id + 2 := by omega
  have hn12 : ¬ ast.nodes_id + 1 = ast.nodes_id + 2 := by omega
  have humem : u ∈ ast.children v' := (hcp v' hv u hu).mpr hup
  have h2p : (((ast.add_node (".")).1).add_node c).1.parent v'
      = ast.parent v' := by
    simp [RegexpAst.parent_add_node, RegexpAst.nodes_id_add_node, hvn, hvn1]
  have h2c : (((ast.add_node (".")).1).add_node c).1.children v'
      = ast.children v' := by
    simp [RegexpAst.children_add_node, RegexpAst.nodes_id_add_node, hvn, hvn1]
  have hupnone : ¬ (((ast.add_node (".")).1).add_node c).1.is_upwards_arc
      v' u := by
    show ¬ (((ast.add_node (".")).1).add_node c).1.parent v' = some u
    rw [h2p]
    exact hnd
  have hidx : (((ast.add_node (".")).1).add_node c).1.get_arc_index? v' u =
      some ((ast.children v').indexOf u) := by
    simp only [RegexpAst.get_arc_index?]
    rw [if_neg hupnone, h2c, if_pos humem]
  set A5 := (((((ast.add_node (".")).1).add_node c).1.set_ith_child v'
      ast.nodes_id ((ast.children v').indexOf u)).append_child
      ast.nodes_id u).append_child ast.nodes_id (ast.nodes_id + 1) with hA5
  have hins0 : up_dot_insert ast c u v' =
      Option.map (fun i =>
        ((((((ast.add_node (".")).1).add_node c).1.set_ith_child v'
          ast.nodes_id i).append_child ast.nodes_id u).append_child
          ast.nodes_id (ast.nodes_id + 1),
        ast.nodes_id, ast.nodes_id + 1))
        ((((ast.add_node (".")).1).add_node c).1.get_arc_index? v' u) := rfl
  have hins : up_dot_insert ast c u v' =
      some (A5, ast.nodes_id, ast.nodes_id + 1) := by
    rw [hA5, hins0, hidx]
    rfl
  have hlabd : A5.label ast.nodes_id = "." := by
    simp [hA5, RegexpAst.label_append_child, RegexpAst.label_set_ith_child,
      RegexpAst.label_add_node, RegexpAst.nodes_id_add_node, hnn1]
  have hlabl : A5.label (ast.nodes_id + 1) = c := by
    simp [hA5, RegexpAst.label_append_child, RegexpAst.label_set_ith_child,
      RegexpAst.label_add_node, RegexpAst.nodes_id_add_node]
  have hchd : A5.children ast.nodes_id = [u, ast.nodes_id + 1] := by
    simp [hA5, RegexpAst.children_append_child,
      RegexpAst.children_set_ith_child, RegexpAst.children_add_node,
      RegexpAst.nodes_id_add_node, hnn1, hnv]
  have hpu : A5.parent u = some ast.nodes_id := by
    simp [hA5, RegexpAst.parent_append_child, hun1]
  have hpl : A5.parent (ast.nodes_id + 1) = some ast.nodes_id := by
    simp [hA5, RegexpAst.parent_append_child]
  have hpd : A5.parent ast.nodes_id = some v' := by
    simp [hA5, RegexpAst.parent_append_child,
      RegexpAst.parent_set_ith_child, hnn1, hnu]
  have hchv : A5.children v' =
      (ast.children v').set ((ast.children v').indexOf u) ast.nodes_id := by
    simp [hA5, RegexpAst.children_append_child,
      RegexpAst.children_set_ith_child, hvn, h2c]
  have hlabpres : ∀ w ∈ ast.Nodes, A5.label w = ast.label w := by
    intro w hw
    have hwlt := hc10 w hw
    have hw1 : ¬ w = ast.nodes_id := by omega
    have hw2 : ¬ w = ast.nodes_id + 1 := by omega
    simp [hA5, RegexpAst.label_append_child, RegexpAst.label_set_ith_child,
      RegexpAst.label_add_node, RegexpAst.nodes_id_add_node, hw1, hw2]
  have hchpres : ∀ w ∈ ast.Nodes, ¬ w = v' →
      A5.children w = ast.children w := by
    intro w hw hne
    have hwlt := hc10 w hw
    have hw1 : ¬ w = ast.nodes_id := by omega
    have hw2 : ¬ w = ast.nodes_id + 1 := by omega
    simp [hA5, RegexpAst.children_append_child,
      RegexpAst.children_set_ith_child, RegexpAst.children_add_node,
      RegexpAst.nodes_id_add_node, hw1, hw2, hne]
  have hppres : ∀ w ∈ ast.Nodes, ¬ w = u →
      A5.parent w = ast.parent w := by
    intro w hw hne
    have hwlt := hc10 w hw
    have hw1 : ¬ w = ast.nodes_id := by omega
    have hw2 : ¬ w = ast.nodes_id + 1 := by omega
    simp [hA5, RegexpAst.parent_append_child,
      RegexpAst.parent_set_ith_child, RegexpAst.parent_add_node,
      RegexpAst.nodes_id_add_node, hw1, hw2, hne]
  have himp1 : up_dot_hit A5 (ast.nodes_id + 1) pword prev cpa = true →
      up_dot_mutate ast c u (some v') pword prev eps cpa =
        some [(A5, ast.nodes_id + 1)] := by
    intro hhit
    simp [up_dot_mutate, hnd, hins, hhit]
  have hA5id : A5.nodes_id = ast.nodes_id + 2 := by
    simp [hA5, RegexpAst.nodes_id_append_child,
      RegexpAst.nodes_id_set_ith_child, RegexpAst.nodes_id_add_node]
  have himp2 : up_dot_hit A5 (ast.nodes_id + 1) pword prev cpa = false →
      ∃ a8, up_dot_wrap A5 ast.nodes_id (ast.nodes_id + 1) = some a8 ∧
        up_dot_mutate ast c u (some v') pword prev eps cpa =
          some [(a8, ast.nodes_id + 1)] ∧
        a8.label (ast.nodes_id + 2) = "?" ∧
        a8.children ast.nodes_id = [u, ast.nodes_id + 2] ∧
        a8.children (ast.nodes_id + 2) = [ast.nodes_id + 1] ∧
        a8.parent (ast.nodes_id + 1) = some (ast.nodes_id + 2) ∧
        a8.label (ast.nodes_id + 1) = c := by
    intro hhit
    have h6p : ((A5.add_node ("?")).1).parent ast.nodes_id = some v' := by
      rw [RegexpAst.parent_add_node]
      rw [hA5id, if_neg hnn2]
      exact hpd
    have h6notup : ¬ ((A5.add_node ("?")).1).is_upwards_arc ast.nodes_id
        (ast.nodes_id + 1) := by
      show ¬ ((A5.add_node ("?")).1).parent ast.nodes_id =
        some (ast.nodes_id + 1)
      rw [h6p]
      simp [hvn1]
    have h6c : ((A5.add_node ("?")).1).children ast.nodes_id =
        [u, ast.nodes_id + 1] := by
      rw [RegexpAst.children_add_node, hA5id, if_neg hnn2]
      exact hchd
    have hjdx : ((A5.add_node ("?")).1).get_arc_index? ast.nodes_id
        (ast.nodes_id + 1) = some 1 := by
      simp only [RegexpAst.get_arc_index?]
      rw [if_neg h6notup, h6c]
      rw [if_pos (by simp : ast.nodes_id + 1 ∈ [u, ast.nodes_id + 1])]
      simp [List.indexOf_cons, hun1]
    have hw0 : up_dot_wrap A5 ast.nodes_id (ast.nodes_id + 1) =
        Option.map (fun j =>
          (((A5.add_node ("?")).1).set_ith_child ast.nodes_id
            A5.nodes_id j).set_child A5.nodes_id (ast.nodes_id + 1))
          (((A5.add_node ("?")).1).get_arc_index? ast.nodes_id
            (ast.nodes_id + 1)) := rfl
    have hwrapeq : up_dot_wrap A5 ast.nodes_id (ast.nodes_id + 1) =
        some ((((A5.add_node ("?")).1).set_ith_child ast.nodes_id
          (ast.nodes_id + 2) 1).set_child (ast.nodes_id + 2)
          (ast.nodes_id + 1)) := by
      rw [hw0, hjdx, hA5id]
      rfl
    refine ⟨_, hwrapeq, ?_, ?_, ?_, ?_, ?_, ?_⟩
    · simp [up_dot_mutate, hnd, hins, hhit, hwrapeq]
    · simp [RegexpAst.label_set_child, RegexpAst.label_set_ith_child,
        RegexpAst.label_add_node, hA5id]
    · simp [RegexpAst.children_set_child, RegexpAst.children_set_ith_child,
        hnn2, h6c, hun1]
    · simp [RegexpAst.children_set_child]
    · simp [RegexpAst.parent_set_child]
    · simp [RegexpAst.label_set_child, RegexpAst.label_set_ith_child,
        RegexpAst.label_add_node, hA5id, hn12, hlabl]
  have hone : ∃ r, up_dot_mutate ast c u (some v') pword prev eps cpa =
      some [(r, ast.nodes_id + 1)] := by
    match hb : up_dot_hit A5 (ast.nodes_id + 1) pword prev cpa with
    | true => exact ⟨A5, himp1 hb⟩
    | false =>
      obtain ⟨a8, -, hm, -⟩ := himp2 hb
      exact ⟨a8, hm⟩
  exact ⟨A5, hins, hlabd, hlabl, hchd, hpu, hpl, hpd, hchv, hlabpres,
    hchpres, hppres, hone, himp1, himp2⟩

/-- Witness for C3 on the arena `root → a` with the upward arc from the
leaf to the root and symbol `b`: the insertion succeeds with fresh ids 2
(the `.` node) and 3 (the `b` leaf), the `.` node has children `[leaf a,
new leaf]` and takes the old position under the root, and the mutator
returns exactly one pair ending at the new leaf. -/
theorem c3_up_dot_mutate_witness :
    ∃ a5, up_dot_insert astLeafA ("b") 1 0 = some (a5, 2, 3) ∧
      a5.label 2 = "." ∧ a5.label 3 = "b" ∧ a5.children 2 = [1, 3] ∧
      a5.children 0 = [2] ∧
      ∃ r, up_dot_mutate astLeafA ("b") 1 (some 0) ["a"] [] []
        (PExample.str ["a"]) = some [(r, 3)] := by
  obtain ⟨a5, h1, h2, h3, h4, h5, h6, h7, h8, h9, h10, h11, hone, himp1,
    himp2⟩ :=
    c3_up_dot_mutate astLeafA ("b") 1 0 ["a"] [] [] (PExample.str ["a"])
      (by decide) (by decide) (by decide) (by decide) (by decide)
  refine ⟨a5, h1, h2, h3, h4, ?_, hone⟩
  rw [h8]
  decide

/-- Witness for C2 on the concrete arena `root → ? → ? → a`: it is
well-formed, the arc from the root into the first `?` is traversable, and
the computed reachable set agrees with the spec closure at the arc
descending into the second `?`; that arc is indeed reached. -/
theorem c2_epsilon_reachables_witness :
    astChain.WellFormed ∧ ArcOK astChain (0, some 1) ∧
      ((((1 : Nat), (some 2 : Option Nat)) ∈
          astChain.epsilon_reachables 0 (some 1)) ↔
        SpecClosure astChain (0, some 1) (1, some 2)) ∧
      SpecClosure astChain (0, some 1) (1, some 2) :=
  ⟨by decide, ⟨by decide, by decide, Or.inl (by decide)⟩,
    c2_epsilon_reachables astChain 0 1 (by decide)
      ⟨by decide, by decide, Or.inl (by decide)⟩ (1, some 2),
    (c2_epsilon_reachables astChain 0 1 (by decide)
      ⟨by decide, by decide, Or.inl (by decide)⟩ (1, some 2)).mp (by decide)⟩

theorem unary_not_nary (s : String) (h : isUnaryLab s = true) :
    isNaryLab s = false := by
  simp [isUnaryLab] at h
  rcases h with ((h | h) | h) | h <;> subst h <;> decide

theorem wfTreeL_iff (cs : List RTree) :
    wfTreeL cs = true ↔ ∀ c ∈ cs, wfTreeB c = true := by
  induction cs with
  | nil => simp [wfTreeL]
  | cons c rest ih => simp [wfTreeL, ih]

theorem noUnaryChainL_iff (l : String) (cs : List RTree) :
    noUnaryChainL l cs = true ↔
      ∀ c ∈ cs, (isUnaryLab l = true → isUnaryLab (c.lab) = false) ∧
        noUnaryChainB c = true := by
  induction cs with
  | nil => simp [noUnaryChainL]
  | cons c rest ih =>
    simp only [noUnaryChainL, Bool.and_eq_true, Bool.not_eq_true',
      Bool.and_eq_false_iff, ih, List.forall_mem_cons]
    constructor
    · rintro ⟨⟨h1, h2⟩, h3⟩
      refine ⟨⟨?_, h2⟩, h3⟩
      intro hl
      rcases h1 with h | h
      · rw [hl] at h; cases h
      · exact h
    · rintro ⟨⟨h1, h2⟩, h3⟩
      refine ⟨⟨?_, h2⟩, h3⟩
      by_cases hl : isUnaryLab l = true
      · exact Or.inr (h1 hl)
      · exact Or.inl (by simpa using hl)

theorem noDupNaryL_iff (cs : List RTree) :
    noDupNaryL cs = true ↔ ∀ c ∈ cs, noDupNaryB c = true := by
  induction cs with
  | nil => simp [noDupNaryL]
  | cons c rest ih => simp [noDupNaryL, ih]

theorem naryGe2L_iff (cs : List RTree) :
    naryGe2L cs = true ↔ ∀ c ∈ cs, naryGe2B c = true := by
  induction cs with
  | nil => simp [naryGe2L]
  | cons c rest ih => simp [naryGe2L, ih]

theorem orSortedL_iff (cs : List RTree) :
    orSortedL cs = true ↔ ∀ c ∈ cs, orSortedB c = true := by
  induction cs with
  | nil => simp [orSortedL]
  | cons c rest ih => simp [orSortedL, ih]


set_option maxHeartbeats 2000000 in
/-- Branch equation: `suTree` on an n-ary node maps over the children. -/
theorem suTree_nary (l : String) (cs : List RTree) (h : isNaryLab l = true) :
    suTree (.node l cs) = .node l (cs.attach.map (fun cc => suTree cc.1)) := by
  cases cs with
  | nil => rw [suTree.eq_1, if_pos h]
  | cons t ts =>
    cases t with
    | node vl vkids => rw [suTree.eq_2, if_pos h]

/-- Branch equation: `suTree` on a childless unary node. -/
theorem suTree_unary_nil (l : String) (h1 : isNaryLab l = false)
    (h2 : isUnaryLab l = true) : suTree (.node l []) = .node l [] := by
  rw [suTree.eq_1, if_neg (by simp [h1]), if_pos h2]

/-- Branch equation: `suTree` collapsing a unary chain whose lower node has
a child. -/
theorem suTree_unary_chain (l vl : String) (vc : RTree) (vrest rest :
    List RTree) (h1 : isNaryLab l = false) (h2 : isUnaryLab l = true)
    (h3 : isUnaryLab vl = true) :
    suTree (.node l (.node vl (vc :: vrest) :: rest)) =
      suTree (.node (if ¬ l = vl then "*" else l) [vc]) := by
  rw [suTree.eq_2, if_neg (by simp [h1]), if_pos h2, if_pos h3]

/-- Branch equation: `suTree` on a unary node whose first child is not
unary descends into that child only. -/
theorem suTree_unary_nochain (l vl : String) (vkids rest : List RTree)
    (h1 : isNaryLab l = false) (h2 : isUnaryLab l = true)
    (h3 : isUnaryLab vl = false) :
    suTree (.node l (.node vl vkids :: rest)) =
      .node l (suTree (.node vl vkids) :: rest) := by
  rw [suTree.eq_2, if_neg (by simp [h1]), if_pos h2, if_neg (by simp [h3])]

/-- Branch equation: `suTree` on a leaf. -/
theorem suTree_leaf (l : String) (cs : List RTree) (h1 : isNaryLab l = false)
    (h2 : isUnaryLab l = false) : suTree (.node l cs) = .node l cs := by
  cases cs with
  | nil => rw [suTree.eq_1, if_neg (by simp [h1]), if_neg (by simp [h2])]
  | cons t ts =>
    cases t with
    | node vl vkids =>
      rw [suTree.eq_2, if_neg (by simp [h1]), if_neg (by simp [h2])]

set_option maxHeartbeats 2000000 in
/-- Branch equation: `snTree` on a unary node descends into the first
child. -/
theorem snTree_unary (l : String) (t : RTree) (ts : List RTree)
    (h : isUnaryLab l = true) :
    snTree (.node l (t :: ts)) = .node l (snTree t :: ts) := by
  rw [snTree.eq_2, if_pos h]

/-- Branch equation: `snTree` on a childless unary node. -/
theorem snTree_unary_nil (l : String) (h : isUnaryLab l = true) :
    snTree (.node l []) = .node l [] := by
  rw [snTree.eq_1, if_pos h]

/-- Branch equation: `snTree` merging the first same-labelled child. -/
theorem snTree_nary_splice (l : String) (cs cs' : List RTree)
    (h1 : isUnaryLab l = false) (h2 : isNaryLab l = true)
    (hs : spliceSame l cs = some cs') :
    snTree (.node l cs) = snTree (.node l cs') := by
  cases cs with
  | nil => simp [spliceSame] at hs
  | cons t ts =>
    rw [snTree.eq_2, if_neg (by simp [h1]), if_pos h2]
    split
    · next cs'' heq =>
      rw [hs] at heq
      injection heq with h
      rw [h]
    · next heq =>
      rw [hs] at heq
      cases heq

/-- Branch equation: `snTree` descending when no child shares the label. -/
theorem snTree_nary_nosplice (l : String) (cs : List RTree)
    (h1 : isUnaryLab l = false) (h2 : isNaryLab l = true)
    (hs : spliceSame l cs = none) :
    snTree (.node l cs) = .node l (cs.attach.map (fun cc => snTree cc.1)) := by
  cases cs with
  | nil =>
    rw [snTree.eq_1, if_neg (by simp [h1]), if_pos h2]
    split
    · next cs'' heq =>
      rw [hs] at heq
      cases heq
    · next heq => rfl
  | cons t ts =>
    rw [snTree.eq_2, if_neg (by simp [h1]), if_pos h2]
    split
    · next cs'' heq =>
      rw [hs] at heq
      cases heq
    · next heq => rfl

/-- Branch equation: `snTree` on a leaf. -/
theorem snTree_leaf (l : String) (cs : List RTree) (h1 : isUnaryLab l = false)
    (h2 : isNaryLab l = false) : snTree (.node l cs) = .node l cs := by
  cases cs with
  | nil => rw [snTree.eq_1, if_neg (by simp [h1]), if_neg (by simp [h2])]
  | cons t ts =>
    rw [snTree.eq_2, if_neg (by simp [h1]), if_neg (by simp [h2])]

set_option maxHeartbeats 2000000 in
/-- Branch equation: `roTree` on a unary node descends into the first
child. -/
theorem roTree_unary (l : String) (t : RTree) (ts : List RTree)
    (h : isUnaryLab l = true) :
    roTree (.node l (t :: ts)) = .node l (roTree t :: ts) := by
  rw [roTree.eq_2, if_pos h]

/-- Branch equation: `roTree` on a childless unary node. -/
theorem roTree_unary_nil (l : String) (h : isUnaryLab l = true) :
    roTree (.node l []) = .node l [] := by
  rw [roTree.eq_1, if_pos h]

/-- Branch equation: `roTree` sorts the reordered children of a `|` node. -/
theorem roTree_or (cs : List RTree) :
    roTree (.node ("|") cs) = .node ("|")
      (List.insertionSort (fun x y => treePrefixStr x ≤ treePrefixStr y)
        (cs.attach.map (fun cc => roTree cc.1))) := by
  cases cs with
  | nil =>
    rw [roTree.eq_1, if_neg (by decide), if_pos (by decide)]
    rfl
  | cons t ts =>
    rw [roTree.eq_2, if_neg (by decide), if_pos (by decide)]
    rfl

/-- Branch equation: `roTree` on a non-`|` n-ary node reorders below. -/
theorem roTree_nary_other (l : String) (cs : List RTree)
    (h1 : isUnaryLab l = false) (h2 : isNaryLab l = true) (h3 : ¬ l = "|") :
    roTree (.node l cs) = .node l (cs.attach.map (fun cc => roTree cc.1)) := by
  cases cs with
  | nil =>
    rw [roTree.eq_1, if_neg (by simp [h1]), if_pos h2, if_neg h3]
  | cons t ts =>
    rw [roTree.eq_2, if_neg (by simp [h1]), if_pos h2, if_neg h3]

/-- Branch equation: `roTree` on a leaf. -/
theorem roTree_leaf (l : String) (cs : List RTree) (h1 : isUnaryLab l = false)
    (h2 : isNaryLab l = false) : roTree (.node l cs) = .node l cs := by
  cases cs with
  | nil => rw [roTree.eq_1, if_neg (by simp [h1]), if_neg (by simp [h2])]
  | cons t ts =>
    rw [roTree.eq_2, if_neg (by simp [h1]), if_neg (by simp [h2])]


/-- An n-ary label is not a unary label. -/
theorem nary_not_unary (s : String) (h : isNaryLab s = true) :
    isUnaryLab s = false := by
  simp [isNaryLab] at h
  rcases h with h | h <;> subst h <;> decide

/-- A unary label is not the `|` label. -/
theorem unary_ne_or (s : String) (h : isUnaryLab s = true) :
    (s == "|") = false := by
  simp [isUnaryLab] at h
  rcases h with ((h | h) | h) | h <;> subst h <;> decide

/-- A non-n-ary label is not the `|` label. -/
theorem not_nary_ne_or (s : String) (h : isNaryLab s = false) :
    (s == "|") = false := by
  by_cases he : s = "|"
  · subst he
    cases h
  · simp [he]

/-- `spliceSame` fails exactly when no child carries the label. -/
theorem spliceSame_none_iff (l : String) (cs : List RTree) :
    spliceSame l cs = none ↔ ∀ c ∈ cs, (c.lab == l) = false := by
  induction cs with
  | nil => simp [spliceSame]
  | cons v rest ih =>
    by_cases hv : (v.lab == l) = true
    · simp only [spliceSame, hv, if_true]
      constructor
      · intro h
        cases h
      · intro h
        have hcon := h v (List.mem_cons_self v rest)
        rw [hv] at hcon
        cases hcon
    · have hv' : (v.lab == l) = false := by simpa using hv
      simp only [spliceSame, hv', Bool.false_eq_true, if_false,
        Option.map_eq_none', ih, List.forall_mem_cons]
      tauto

/-- Successful `spliceSame` splits the forest around the first
same-labelled child and splices its children in place. -/
theorem spliceSame_decomp (l : String) : ∀ (cs cs' : List RTree),
    spliceSame l cs = some cs' →
    ∃ pre v post, cs = pre ++ v :: post ∧ (RTree.lab v == l) = true ∧
      cs' = pre ++ (v.kids ++ post) := by
  intro cs
  induction cs with
  | nil => intro cs' h; simp [spliceSame] at h
  | cons v rest ih =>
    intro cs' h
    by_cases hv : (v.lab == l) = true
    · simp only [spliceSame, hv, if_true] at h
      injection h with h
      exact ⟨[], v, rest, by simp, hv, by simp [h.symm]⟩
    · have hv' : (v.lab == l) = false := by simpa using hv
      simp only [spliceSame, hv', Bool.false_eq_true, if_false,
        Option.map_eq_some'] at h
      rcases h with ⟨cs'', h1, h2⟩
      rcases ih cs'' h1 with ⟨pre, w, post, hc1, hc2, hc3⟩
      exact ⟨v :: pre, w, post, by simp [hc1], hc2,
        by simp [h2.symm, hc3]⟩

/-- Mapping a pointwise-identity function over `attach` is the identity. -/
theorem attach_map_eq_self (cs : List RTree) (f : RTree → RTree)
    (h : ∀ c ∈ cs, f c = c) :
    cs.attach.map (fun cc => f cc.1) = cs := by
  have h1 : cs.attach.map (fun cc => f cc.1) =
      cs.attach.map (fun cc => (cc.1 : RTree)) := by
    apply List.map_congr_left
    intro cc hcc
    exact h cc.1 cc.2
  rw [h1]
  simp

/-- Membership in a mapped `attach`. -/
theorem mem_attach_map {β : Type} (cs : List RTree) (f : RTree → β)
    (x : β) :
    x ∈ cs.attach.map (fun cc => f cc.1) ↔ ∃ c ∈ cs, f c = x := by
  constructor
  · intro hx
    rcases List.mem_map.mp hx with ⟨cc, hcc, rfl⟩
    exact ⟨cc.1, cc.2, rfl⟩
  · rintro ⟨c, hc, rfl⟩
    exact List.mem_map.mpr ⟨⟨c, hc⟩, List.mem_attach _ _, rfl⟩

/-- Adjacent sortedness of strings is the transitive chain. -/
theorem sortedStrB_iff_chain (xs : List String) :
    sortedStrB xs = true ↔ List.Chain' (fun a b => a ≤ b) xs := by
  induction xs with
  | nil => simp [sortedStrB]
  | cons x rest ih =>
    cases rest with
    | nil => simp [sortedStrB]
    | cons y ys =>
      rw [List.chain'_cons, ← ih]
      simp [sortedStrB]

/-- The label of `snTree t` is the label of `t`. -/
theorem lab_snTree : ∀ t : RTree, (snTree t).lab = t.lab := by
  intro t
  induction t using snTree.induct with
  | case1 l h => rw [snTree_unary_nil l h]
  | case2 l h t ts ih =>
    rw [snTree_unary l t ts h]
    rfl
  | case3 l cs h1 h2 cs' hs ih =>
    rw [snTree_nary_splice l cs cs' (by simpa using h1) h2 hs]
    exact ih
  | case4 l cs h1 h2 hs ih =>
    rw [snTree_nary_nosplice l cs (by simpa using h1) h2 hs]
    rfl
  | case5 l cs h1 h2 =>
    rw [snTree_leaf l cs (by simpa using h1) (by simpa using h2)]

/-- The label of `roTree t` is the label of `t`. -/
theorem lab_roTree : ∀ t : RTree, (roTree t).lab = t.lab := by
  intro t
  induction t using roTree.induct with
  | case1 l h => rw [roTree_unary_nil l h]
  | case2 l h t ts ih =>
    rw [roTree_unary l t ts h]
    rfl
  | case3 cs h1 h2 ih =>
    rw [roTree_or cs]
    rfl
  | case4 l cs h1 h2 h3 ih =>
    rw [roTree_nary_other l cs (by simpa using h1) h2 h3]
    rfl
  | case5 l cs h1 h2 =>
    rw [roTree_leaf l cs (by simpa using h1) (by simpa using h2)]

/-- `suTree` keeps the label except on a collapsed unary node, whose label
stays unary. -/
theorem lab_suTree : ∀ t : RTree, (suTree t).lab = t.lab ∨
    (isUnaryLab t.lab = true ∧ isUnaryLab (suTree t).lab = true) := by
  intro t
  induction t using suTree.induct with
  | case1 l cs h ih =>
    rw [suTree_nary l cs h]
    exact Or.inl rfl
  | case2 l h1 h2 =>
    rw [suTree_unary_nil l (by simpa using h1) h2]
    exact Or.inl rfl
  | case3 l h1 h2 vl rest h3 =>
    rw [suTree.eq_2, if_neg (by simpa using h1), if_pos h2, if_pos h3]
    right
    refine ⟨h2, ?_⟩
    show isUnaryLab (if ¬ l = vl then "*" else l) = true
    by_cases he : l = vl
    · rw [if_neg (not_not_intro he)]
      exact h2
    · rw [if_pos he]
      decide
  | case4 l h1 h2 vl rest h3 l' vc vrest ih =>
    rw [suTree_unary_chain l vl vc vrest rest (by simpa using h1) h2 h3]
    right
    refine ⟨h2, ?_⟩
    have hl' : isUnaryLab (if ¬ l = vl then "*" else l) = true := by
      by_cases he : l = vl
      · rw [if_neg (not_not_intro he)]
        exact h2
      · rw [if_pos he]
        decide
    rcases ih with h | h
    · have h' : (suTree (RTree.node (if ¬ l = vl then "*" else l)
          [vc])).lab = (if ¬ l = vl then "*" else l) := h
      rw [h']
      exact hl'
    · have h' : isUnaryLab (suTree (RTree.node (if ¬ l = vl then "*" else l)
          [vc])).lab = true := h.2
      exact h' 
  | case5 l h1 h2 vl vkids rest h3 ih =>
    rw [suTree_unary_nochain l vl vkids rest (by simpa using h1) h2
      (by simpa using h3)]
    exact Or.inl rfl
  | case6 l cs h1 h2 =>
    rw [suTree_leaf l cs (by simpa using h1) (by simpa using h2)]
    exact Or.inl rfl

/-- `suTree` keeps the unary label class. -/
theorem isUnary_lab_suTree (t : RTree) :
    isUnaryLab (suTree t).lab = isUnaryLab t.lab := by
  rcases lab_suTree t with h | ⟨h1, h2⟩
  · rw [h]
  · rw [h1, h2]

/-- `suTree` keeps the n-ary label class. -/
theorem isNary_lab_suTree (t : RTree) :
    isNaryLab (suTree t).lab = isNaryLab t.lab := by
  rcases lab_suTree t with h | ⟨h1, h2⟩
  · rw [h]
  · rw [unary_not_nary _ h2, unary_not_nary _ h1]


/-- `suTree` preserves conformance to the data model. -/
theorem suTree_wf : ∀ t : RTree, wfTreeB t = true →
    wfTreeB (suTree t) = true := by
  intro t
  induction t using suTree.induct with
  | case1 l cs h ih =>
    intro hwf
    rw [suTree_nary l cs h]
    simp only [wfTreeB, Bool.and_eq_true, wfTreeL_iff] at hwf ⊢
    obtain ⟨har, hkids⟩ := hwf
    constructor
    · simpa [List.length_map, List.length_attach] using har
    · intro c hc
      rcases (mem_attach_map cs suTree c).mp hc with ⟨c0, hc0, rfl⟩
      exact ih ⟨c0, hc0⟩ (hkids c0 hc0)
  | case2 l h1 h2 =>
    intro hwf
    rw [suTree_unary_nil l (by simpa using h1) h2]
    exact hwf
  | case3 l h1 h2 vl rest h3 =>
    intro hwf
    exfalso
    simp only [wfTreeB, Bool.and_eq_true, wfTreeL_iff] at hwf
    obtain ⟨-, hkids⟩ := hwf
    have hv := hkids (.node vl []) (by simp)
    simp [wfTreeB, h3] at hv
  | case4 l h1 h2 vl rest h3 l' vc vrest ih =>
    intro hwf
    rw [suTree_unary_chain l vl vc vrest rest (by simpa using h1) h2 h3]
    have hl' : isUnaryLab (if ¬ l = vl then "*" else l) = true := by
      by_cases he : l = vl
      · rw [if_neg (not_not_intro he)]
        exact h2
      · rw [if_pos he]
        decide
    have ih' : wfTreeB (RTree.node (if ¬ l = vl then "*" else l) [vc])
          = true →
        wfTreeB (suTree (RTree.node (if ¬ l = vl then "*" else l) [vc]))
          = true := ih
    apply ih'
    simp only [wfTreeB, Bool.and_eq_true, wfTreeL_iff] at hwf ⊢
    obtain ⟨-, hkids⟩ := hwf
    have hv := hkids (.node vl (vc :: vrest)) (by simp)
    simp only [wfTreeB, Bool.and_eq_true, wfTreeL_iff] at hv
    obtain ⟨-, hvkids⟩ := hv
    constructor
    · rw [hl']
      simp
    · intro c hc
      rw [List.mem_singleton] at hc
      rw [hc]
      exact hvkids vc (List.mem_cons_self vc vrest)
  | case5 l h1 h2 vl vkids rest h3 ih =>
    intro hwf
    rw [suTree_unary_nochain l vl vkids rest (by simpa using h1) h2
      (by simpa using h3)]
    simp only [wfTreeB, Bool.and_eq_true, wfTreeL_iff] at hwf ⊢
    obtain ⟨har, hkids⟩ := hwf
    refine ⟨by simpa using har, ?_⟩
    intro c hc
    rcases List.mem_cons.mp hc with hc1 | hc1
    · rw [hc1]
      exact ih (hkids (.node vl vkids) (by simp))
    · exact hkids c (List.mem_cons_of_mem _ hc1)
  | case6 l cs h1 h2 =>
    intro hwf
    rw [suTree_leaf l cs (by simpa using h1) (by simpa using h2)]
    exact hwf

/-- `suTree` establishes invariant 1: no unary chains remain. -/
theorem suTree_chain : ∀ t : RTree, wfTreeB t = true →
    noUnaryChainB (suTree t) = true := by
  intro t
  induction t using suTree.induct with
  | case1 l cs h ih =>
    intro hwf
    rw [suTree_nary l cs h]
    simp only [wfTreeB, Bool.and_eq_true, wfTreeL_iff] at hwf
    obtain ⟨-, hkids⟩ := hwf
    simp only [noUnaryChainB, noUnaryChainL_iff]
    intro c hc
    rcases (mem_attach_map cs suTree c).mp hc with ⟨c0, hc0, rfl⟩
    constructor
    · intro hu
      rw [nary_not_unary l h] at hu
      cases hu
    · exact ih ⟨c0, hc0⟩ (hkids c0 hc0)
  | case2 l h1 h2 =>
    intro hwf
    rw [suTree_unary_nil l (by simpa using h1) h2]
    simp [noUnaryChainB, noUnaryChainL]
  | case3 l h1 h2 vl rest h3 =>
    intro hwf
    exfalso
    simp only [wfTreeB, Bool.and_eq_true, wfTreeL_iff] at hwf
    obtain ⟨-, hkids⟩ := hwf
    have hv := hkids (.node vl []) (by simp)
    simp [wfTreeB, h3] at hv
  | case4 l h1 h2 vl rest h3 l' vc vrest ih =>
    intro hwf
    rw [suTree_unary_chain l vl vc vrest rest (by simpa using h1) h2 h3]
    have hl' : isUnaryLab (if ¬ l = vl then "*" else l) = true := by
      by_cases he : l = vl
      · rw [if_neg (not_not_intro he)]
        exact h2
      · rw [if_pos he]
        decide
    have ih' : wfTreeB (RTree.node (if ¬ l = vl then "*" else l) [vc])
          = true →
        noUnaryChainB (suTree (RTree.node (if ¬ l = vl then "*" else l)
          [vc])) = true := ih
    apply ih'
    simp only [wfTreeB, Bool.and_eq_true, wfTreeL_iff] at hwf ⊢
    obtain ⟨-, hkids⟩ := hwf
    have hv := hkids (.node vl (vc :: vrest)) (by simp)
    simp only [wfTreeB, Bool.and_eq_true, wfTreeL_iff] at hv
    obtain ⟨-, hvkids⟩ := hv
    constructor
    · rw [hl']
      simp
    · intro c hc
      rw [List.mem_singleton] at hc
      rw [hc]
      exact hvkids vc (List.mem_cons_self vc vrest)
  | case5 l h1 h2 vl vkids rest h3 ih =>
    intro hwf
    rw [suTree_unary_nochain l vl vkids rest (by simpa using h1) h2
      (by simpa using h3)]
    simp only [wfTreeB, Bool.and_eq_true, wfTreeL_iff] at hwf
    obtain ⟨har, hkids⟩ := hwf
    have hrest : rest = [] := by
      cases rest with
      | nil => rfl
      | cons a as =>
        rw [h2] at har
        simp at har
    subst hrest
    simp only [noUnaryChainB, noUnaryChainL_iff]
    intro c hc
    rw [List.mem_singleton] at hc
    rw [hc]
    constructor
    · intro hu
      rw [isUnary_lab_suTree]
      show isUnaryLab (RTree.node vl vkids).lab = false
      simpa using h3
    · exact ih (hkids (.node vl vkids) (by simp))
  | case6 l cs h1 h2 =>
    intro hwf
    rw [suTree_leaf l cs (by simpa using h1) (by simpa using h2)]
    simp only [wfTreeB, Bool.and_eq_true, wfTreeL_iff] at hwf
    obtain ⟨har, -⟩ := hwf
    have hcs : cs = [] := by
      rw [(by simpa using h2 : isUnaryLab l = false)] at har
      rw [(by simpa using h1 : isNaryLab l = false)] at har
      simpa using har
    subst hcs
    simp [noUnaryChainB, noUnaryChainL]


/-- Splicing a same-labelled child into an n-ary node keeps conformance. -/
theorem wf_splice (l : String) (cs cs' : List RTree)
    (hl : isNaryLab l = true) (hwf : wfTreeB (.node l cs) = true)
    (hs : spliceSame l cs = some cs') : wfTreeB (.node l cs') = true := by
  rcases spliceSame_decomp l cs cs' hs with ⟨pre, v, post, hc1, hc2, hc3⟩
  simp only [wfTreeB, Bool.and_eq_true, wfTreeL_iff] at hwf ⊢
  obtain ⟨har, hkids⟩ := hwf
  have hvwf : wfTreeB v = true := by
    apply hkids
    rw [hc1]
    simp
  cases v with
  | node lv kv =>
    have hlv : lv = l := by simpa [RTree.lab] using hc2
    subst hlv
    simp only [wfTreeB, Bool.and_eq_true, wfTreeL_iff] at hvwf
    obtain ⟨hvar, hvkids⟩ := hvwf
    rw [nary_not_unary lv hl] at hvar
    rw [hl] at hvar
    simp only [if_true, Bool.false_eq_true, if_false,
      decide_eq_true_eq] at hvar
    constructor
    · rw [nary_not_unary lv hl, hl]
      simp only [if_true, Bool.false_eq_true, if_false,
        decide_eq_true_eq]
      rw [hc3]
      simp only [List.length_append]
      have : (RTree.node lv kv).kids = kv := rfl
      rw [this]
      omega
    · intro c hc
      rw [hc3] at hc
      rcases List.mem_append.mp hc with h | h
      · apply hkids
        rw [hc1]
        exact List.mem_append.mpr (Or.inl h)
      · rcases List.mem_append.mp h with h' | h'
        · apply hvkids
          simpa using h'
        · apply hkids
          rw [hc1]
          exact List.mem_append.mpr (Or.inr (List.mem_cons_of_mem _ h'))

/-- `snTree` preserves conformance to the data model. -/
theorem snTree_wf : ∀ t : RTree, wfTreeB t = true →
    wfTreeB (snTree t) = true := by
  intro t
  induction t using snTree.induct with
  | case1 l h =>
    intro hwf
    rw [snTree_unary_nil l h]
    exact hwf
  | case2 l h t ts ih =>
    intro hwf
    rw [snTree_unary l t ts h]
    simp only [wfTreeB, Bool.and_eq_true, wfTreeL_iff] at hwf ⊢
    obtain ⟨har, hkids⟩ := hwf
    refine ⟨by simpa using har, ?_⟩
    intro c hc
    rcases List.mem_cons.mp hc with hc1 | hc1
    · rw [hc1]
      exact ih (hkids t (List.mem_cons_self t ts))
    · exact hkids c (List.mem_cons_of_mem _ hc1)
  | case3 l cs h1 h2 cs' hs ih =>
    intro hwf
    rw [snTree_nary_splice l cs cs' (by simpa using h1) h2 hs]
    exact ih (wf_splice l cs cs' h2 hwf hs)
  | case4 l cs h1 h2 hs ih =>
    intro hwf
    rw [snTree_nary_nosplice l cs (by simpa using h1) h2 hs]
    simp only [wfTreeB, Bool.and_eq_true, wfTreeL_iff] at hwf ⊢
    obtain ⟨har, hkids⟩ := hwf
    constructor
    · simpa [List.length_map, List.length_attach] using har
    · intro c hc
      rcases (mem_attach_map cs snTree c).mp hc with ⟨c0, hc0, rfl⟩
      exact ih ⟨c0, hc0⟩ (hkids c0 hc0)
  | case5 l cs h1 h2 =>
    intro hwf
    rw [snTree_leaf l cs (by simpa using h1) (by simpa using h2)]
    exact hwf

/-- `snTree` preserves invariant 1. -/
theorem snTree_chain : ∀ t : RTree, noUnaryChainB t = true →
    noUnaryChainB (snTree t) = true := by
  intro t
  induction t using snTree.induct with
  | case1 l h =>
    intro hch
    rw [snTree_unary_nil l h]
    exact hch
  | case2 l h t ts ih =>
    intro hch
    rw [snTree_unary l t ts h]
    simp only [noUnaryChainB, noUnaryChainL_iff] at hch ⊢
    intro c hc
    rcases List.mem_cons.mp hc with hc1 | hc1
    · have ht := hch t (List.mem_cons_self t ts)
      refine ⟨?_, by rw [hc1]; exact ih ht.2⟩
      intro hu
      rw [hc1, lab_snTree]
      exact (ht.1) hu
    · exact hch c (List.mem_cons_of_mem _ hc1)
  | case3 l cs h1 h2 cs' hs ih =>
    intro hch
    rw [snTree_nary_splice l cs cs' (by simpa using h1) h2 hs]
    apply ih
    rcases spliceSame_decomp l cs cs' hs with ⟨pre, v, post, hc1, hc2, hc3⟩
    simp only [noUnaryChainB, noUnaryChainL_iff] at hch ⊢
    have hvch := hch v (by rw [hc1]; simp)
    intro c hc
    refine ⟨?_, ?_⟩
    · intro hu
      rw [nary_not_unary l h2] at hu
      cases hu
    · rw [hc3] at hc
      rcases List.mem_append.mp hc with h | h
      · exact (hch c (by rw [hc1]; exact List.mem_append.mpr (Or.inl h))).2
      · rcases List.mem_append.mp h with h' | h'
        · cases v with
          | node lv kv =>
            have : noUnaryChainB (RTree.node lv kv) = true := hvch.2
            simp only [noUnaryChainB, noUnaryChainL_iff] at this
            exact (this c (by simpa using h')).2
        · exact (hch c (by
            rw [hc1]
            exact List.mem_append.mpr
              (Or.inr (List.mem_cons_of_mem _ h')))).2
  | case4 l cs h1 h2 hs ih =>
    intro hch
    rw [snTree_nary_nosplice l cs (by simpa using h1) h2 hs]
    simp only [noUnaryChainB, noUnaryChainL_iff] at hch ⊢
    intro c hc
    rcases (mem_attach_map cs snTree c).mp hc with ⟨c0, hc0, rfl⟩
    refine ⟨?_, ih ⟨c0, hc0⟩ (hch c0 hc0).2⟩
    intro hu
    rw [nary_not_unary l h2] at hu
    cases hu
  | case5 l cs h1 h2 =>
    intro hch
    rw [snTree_leaf l cs (by simpa using h1) (by simpa using h2)]
    exact hch

/-- `snTree` establishes invariant 2: no n-ary node keeps a same-labelled
child. -/
theorem snTree_dup : ∀ t : RTree, wfTreeB t = true →
    noDupNaryB (snTree t) = true := by
  intro t
  induction t using snTree.induct with
  | case1 l h =>
    intro hwf
    rw [snTree_unary_nil l h]
    simp [noDupNaryB, noDupNaryL, unary_not_nary l h]
  | case2 l h t ts ih =>
    intro hwf
    rw [snTree_unary l t ts h]
    simp only [wfTreeB, Bool.and_eq_true, wfTreeL_iff] at hwf
    obtain ⟨har, hkids⟩ := hwf
    have hts : ts = [] := by
      cases ts with
      | nil => rfl
      | cons a as =>
        rw [h] at har
        simp at har
    subst hts
    simp only [noDupNaryB, noDupNaryL, Bool.and_eq_true]
    refine ⟨?_, ?_, trivial⟩
    · rw [unary_not_nary l h]
      simp
    · exact ih (hkids t (List.mem_cons_self t []))
  | case3 l cs h1 h2 cs' hs ih =>
    intro hwf
    rw [snTree_nary_splice l cs cs' (by simpa using h1) h2 hs]
    exact ih (wf_splice l cs cs' h2 hwf hs)
  | case4 l cs h1 h2 hs ih =>
    intro hwf
    rw [snTree_nary_nosplice l cs (by simpa using h1) h2 hs]
    simp only [wfTreeB, Bool.and_eq_true, wfTreeL_iff] at hwf
    obtain ⟨har, hkids⟩ := hwf
    rw [spliceSame_none_iff] at hs
    simp only [noDupNaryB, Bool.and_eq_true]
    constructor
    · have hany : (cs.attach.map (fun cc => snTree cc.1)).any
          (fun c => c.lab == l) = false := by
        rw [List.any_eq_false]
        intro c hc
        rcases (mem_attach_map cs snTree c).mp hc with ⟨c0, hc0, rfl⟩
        rw [lab_snTree c0]
        simp only [Bool.not_eq_true]
        exact hs c0 hc0
      rw [hany]
      simp
    · rw [noDupNaryL_iff]
      intro c hc
      rcases (mem_attach_map cs snTree c).mp hc with ⟨c0, hc0, rfl⟩
      exact ih ⟨c0, hc0⟩ (hkids c0 hc0)
  | case5 l cs h1 h2 =>
    intro hwf
    rw [snTree_leaf l cs (by simpa using h1) (by simpa using h2)]
    simp only [wfTreeB, Bool.and_eq_true, wfTreeL_iff] at hwf
    obtain ⟨har, -⟩ := hwf
    have hcs : cs = [] := by
      rw [(by simpa using h1 : isUnaryLab l = false)] at har
      rw [(by simpa using h2 : isNaryLab l = false)] at har
      simpa using har
    subst hcs
    simp [noDupNaryB, noDupNaryL, (by simpa using h2 : isNaryLab l = false)]


/-- `roTree` preserves conformance to the data model. -/
theorem roTree_wf : ∀ t : RTree, wfTreeB t = true →
    wfTreeB (roTree t) = true := by
  intro t
  induction t using roTree.induct with
  | case1 l h =>
    intro hwf
    rw [roTree_unary_nil l h]
    exact hwf
  | case2 l h t ts ih =>
    intro hwf
    rw [roTree_unary l t ts h]
    simp only [wfTreeB, Bool.and_eq_true, wfTreeL_iff] at hwf ⊢
    obtain ⟨har, hkids⟩ := hwf
    refine ⟨by simpa using har, ?_⟩
    intro c hc
    rcases List.mem_cons.mp hc with hc1 | hc1
    · rw [hc1]
      exact ih (hkids t (List.mem_cons_self t ts))
    · exact hkids c (List.mem_cons_of_mem _ hc1)
  | case3 cs h1 h2 ih =>
    intro hwf
    rw [roTree_or cs]
    simp only [wfTreeB, Bool.and_eq_true, wfTreeL_iff] at hwf ⊢
    obtain ⟨har, hkids⟩ := hwf
    have hperm := List.perm_insertionSort
      (fun x y => treePrefixStr x ≤ treePrefixStr y)
      (cs.attach.map (fun cc => roTree cc.1))
    constructor
    · rw [hperm.length_eq]
      simpa [List.length_map, List.length_attach] using har
    · intro c hc
      have hc' := hperm.mem_iff.mp hc
      rcases (mem_attach_map cs roTree c).mp hc' with ⟨c0, hc0, rfl⟩
      exact ih ⟨c0, hc0⟩ (hkids c0 hc0)
  | case4 l cs h1 h2 h3 ih =>
    intro hwf
    rw [roTree_nary_other l cs (by simpa using h1) h2 h3]
    simp only [wfTreeB, Bool.and_eq_true, wfTreeL_iff] at hwf ⊢
    obtain ⟨har, hkids⟩ := hwf
    constructor
    · simpa [List.length_map, List.length_attach] using har
    · intro c hc
      rcases (mem_attach_map cs roTree c).mp hc with ⟨c0, hc0, rfl⟩
      exact ih ⟨c0, hc0⟩ (hkids c0 hc0)
  | case5 l cs h1 h2 =>
    intro hwf
    rw [roTree_leaf l cs (by simpa using h1) (by simpa using h2)]
    exact hwf

/-- `roTree` preserves invariant 1. -/
theorem roTree_chain : ∀ t : RTree, noUnaryChainB t = true →
    noUnaryChainB (roTree t) = true := by
  intro t
  induction t using roTree.induct with
  | case1 l h =>
    intro hch
    rw [roTree_unary_nil l h]
    exact hch
  | case2 l h t ts ih =>
    intro hch
    rw [roTree_unary l t ts h]
    simp only [noUnaryChainB, noUnaryChainL_iff] at hch ⊢
    intro c hc
    rcases List.mem_cons.mp hc with hc1 | hc1
    · have ht := hch t (List.mem_cons_self t ts)
      refine ⟨?_, by rw [hc1]; exact ih ht.2⟩
      intro hu
      rw [hc1, lab_roTree]
      exact ht.1 hu
    · exact hch c (List.mem_cons_of_mem _ hc1)
  | case3 cs h1 h2 ih =>
    intro hch
    rw [roTree_or cs]
    simp only [noUnaryChainB, noUnaryChainL_iff] at hch ⊢
    intro c hc
    have hperm := List.perm_insertionSort
      (fun x y => treePrefixStr x ≤ treePrefixStr y)
      (cs.attach.map (fun cc => roTree cc.1))
    have hc' := hperm.mem_iff.mp hc
    rcases (mem_attach_map cs roTree c).mp hc' with ⟨c0, hc0, rfl⟩
    refine ⟨?_, ih ⟨c0, hc0⟩ (hch c0 hc0).2⟩
    intro hu
    cases (by simpa using h1 : isUnaryLab ("|") = false).symm.trans hu
  | case4 l cs h1 h2 h3 ih =>
    intro hch
    rw [roTree_nary_other l cs (by simpa using h1) h2 h3]
    simp only [noUnaryChainB, noUnaryChainL_iff] at hch ⊢
    intro c hc
    rcases (mem_attach_map cs roTree c).mp hc with ⟨c0, hc0, rfl⟩
    refine ⟨?_, ih ⟨c0, hc0⟩ (hch c0 hc0).2⟩
    intro hu
    rw [(by simpa using h1 : isUnaryLab l = false)] at hu
    cases hu
  | case5 l cs h1 h2 =>
    intro hch
    rw [roTree_leaf l cs (by simpa using h1) (by simpa using h2)]
    exact hch

/-- `roTree` preserves invariant 2. -/
theorem roTree_dup : ∀ t : RTree, noDupNaryB t = true →
    noDupNaryB (roTree t) = true := by
  intro t
  induction t using roTree.induct with
  | case1 l h =>
    intro hd
    rw [roTree_unary_nil l h]
    exact hd
  | case2 l h t ts ih =>
    intro hd
    rw [roTree_unary l t ts h]
    simp only [noDupNaryB, Bool.and_eq_true, noDupNaryL_iff] at hd ⊢
    obtain ⟨hown, hkids⟩ := hd
    constructor
    · rw [unary_not_nary l h] at hown ⊢
      simpa using hown
    · intro c hc
      rcases List.mem_cons.mp hc with hc1 | hc1
      · rw [hc1]
        exact ih (hkids t (List.mem_cons_self t ts))
      · exact hkids c (List.mem_cons_of_mem _ hc1)
  | case3 cs h1 h2 ih =>
    intro hd
    rw [roTree_or cs]
    simp only [noDupNaryB, Bool.and_eq_true, noDupNaryL_iff] at hd ⊢
    obtain ⟨hown, hkids⟩ := hd
    have hperm := List.perm_insertionSort
      (fun x y => treePrefixStr x ≤ treePrefixStr y)
      (cs.attach.map (fun cc => roTree cc.1))
    constructor
    · simp only [Bool.not_eq_true', Bool.and_eq_false_iff] at hown ⊢
      rcases hown with h | h
      · exact Or.inl h
      · right
        rw [List.any_eq_false] at h ⊢
        intro c hc
        have hc' := hperm.mem_iff.mp hc
        rcases (mem_attach_map cs roTree c).mp hc' with ⟨c0, hc0, rfl⟩
        rw [lab_roTree c0]
        exact h c0 hc0
    · intro c hc
      have hc' := hperm.mem_iff.mp hc
      rcases (mem_attach_map cs roTree c).mp hc' with ⟨c0, hc0, rfl⟩
      exact ih ⟨c0, hc0⟩ (hkids c0 hc0)
  | case4 l cs h1 h2 h3 ih =>
    intro hd
    rw [roTree_nary_other l cs (by simpa using h1) h2 h3]
    simp only [noDupNaryB, Bool.and_eq_true, noDupNaryL_iff] at hd ⊢
    obtain ⟨hown, hkids⟩ := hd
    constructor
    · simp only [Bool.not_eq_true', Bool.and_eq_false_iff] at hown ⊢
      rcases hown with h | h
      · exact Or.inl h
      · right
        rw [List.any_eq_false] at h ⊢
        intro c hc
        rcases (mem_attach_map cs roTree c).mp hc with ⟨c0, hc0, rfl⟩
        rw [lab_roTree c0]
        exact h c0 hc0
    · intro c hc
      rcases (mem_attach_map cs roTree c).mp hc with ⟨c0, hc0, rfl⟩
      exact ih ⟨c0, hc0⟩ (hkids c0 hc0)
  | case5 l cs h1 h2 =>
    intro hd
    rw [roTree_leaf l cs (by simpa using h1) (by simpa using h2)]
    exact hd

/-- `roTree` establishes invariant 4: the children of `|` nodes end up
sorted by the prefix string of their subtrees. -/
theorem roTree_sorted : ∀ t : RTree, wfTreeB t = true →
    orSortedB (roTree t) = true := by
  intro t
  induction t using roTree.induct with
  | case1 l h =>
    intro hwf
    rw [roTree_unary_nil l h]
    simp [orSortedB, orSortedL, unary_ne_or l h]
  | case2 l h t ts ih =>
    intro hwf
    rw [roTree_unary l t ts h]
    simp only [wfTreeB, Bool.and_eq_true, wfTreeL_iff] at hwf
    obtain ⟨har, hkids⟩ := hwf
    have hts : ts = [] := by
      cases ts with
      | nil => rfl
      | cons a as =>
        rw [h] at har
        simp at har
    subst hts
    simp only [orSortedB, Bool.and_eq_true, orSortedL_iff]
    constructor
    · rw [unary_ne_or l h]
      simp
    · intro c hc
      rw [List.mem_singleton] at hc
      rw [hc]
      exact ih (hkids t (List.mem_cons_self t []))
  | case3 cs h1 h2 ih =>
    intro hwf
    rw [roTree_or cs]
    simp only [wfTreeB, Bool.and_eq_true, wfTreeL_iff] at hwf
    obtain ⟨-, hkids⟩ := hwf
    haveI hTot : IsTotal RTree
        (fun x y => treePrefixStr x ≤ treePrefixStr y) :=
      ⟨fun a b => le_total _ _⟩
    haveI hTrans : IsTrans RTree
        (fun x y => treePrefixStr x ≤ treePrefixStr y) :=
      ⟨fun a b c hab hbc => le_trans hab hbc⟩
    have hperm := List.perm_insertionSort
      (fun x y => treePrefixStr x ≤ treePrefixStr y)
      (cs.attach.map (fun cc => roTree cc.1))
    simp only [orSortedB, Bool.and_eq_true, orSortedL_iff]
    constructor
    · rw [if_pos (by rfl)]
      rw [sortedStrB_iff_chain, List.chain'_iff_pairwise, List.pairwise_map]
      exact List.sorted_insertionSort _ _
    · intro c hc
      have hc' := hperm.mem_iff.mp hc
      rcases (mem_attach_map cs roTree c).mp hc' with ⟨c0, hc0, rfl⟩
      exact ih ⟨c0, hc0⟩ (hkids c0 hc0)
  | case4 l cs h1 h2 h3 ih =>
    intro hwf
    rw [roTree_nary_other l cs (by simpa using h1) h2 h3]
    simp only [wfTreeB, Bool.and_eq_true, wfTreeL_iff] at hwf
    obtain ⟨-, hkids⟩ := hwf
    simp only [orSortedB, Bool.and_eq_true, orSortedL_iff]
    constructor
    · rw [if_neg (by simpa using h3)]
    · intro c hc
      rcases (mem_attach_map cs roTree c).mp hc with ⟨c0, hc0, rfl⟩
      exact ih ⟨c0, hc0⟩ (hkids c0 hc0)
  | case5 l cs h1 h2 =>
    intro hwf
    rw [roTree_leaf l cs (by simpa using h1) (by simpa using h2)]
    simp only [wfTreeB, Bool.and_eq_true, wfTreeL_iff] at hwf
    obtain ⟨har, -⟩ := hwf
    have hcs : cs = [] := by
      rw [(by simpa using h1 : isUnaryLab l = false)] at har
      rw [(by simpa using h2 : isNaryLab l = false)] at har
      simpa using har
    subst hcs
    simp [orSortedB, orSortedL, not_nary_ne_or l (by simpa using h2)]


/-- On a conformant tree there is no singleton n-ary node, so
`remove_unary_n_aries` is the identity. -/
theorem ruTree_id : ∀ t : RTree, wfTreeB t = true → ruTree t = t := by
  intro t
  induction t using ruTree.induct with
  | case1 l =>
    intro hwf
    rw [ruTree.eq_1]
  | case2 l c0 h ih =>
    intro hwf
    rw [ruTree.eq_2, if_pos h]
    simp only [wfTreeB, Bool.and_eq_true, wfTreeL_iff] at hwf
    rw [ih (hwf.2 c0 (List.mem_singleton_self c0))]
  | case3 l c0 h1 h2 ih =>
    intro hwf
    exfalso
    simp only [wfTreeB, Bool.and_eq_true, wfTreeL_iff] at hwf
    obtain ⟨har, -⟩ := hwf
    rw [(by simpa using h1 : isUnaryLab l = false), h2] at har
    simp at har
  | case4 l c0 h1 h2 =>
    intro hwf
    rw [ruTree.eq_2, if_neg (by simpa using h1), if_neg (by simpa using h2)]
  | case5 l c1 c2 rest h ih =>
    intro hwf
    rw [ruTree.eq_3, if_pos h]
    simp only [wfTreeB, Bool.and_eq_true, wfTreeL_iff] at hwf
    rw [ih (hwf.2 c1 (List.mem_cons_self c1 _))]
  | case6 l c1 c2 rest h1 h2 ih =>
    intro hwf
    rw [ruTree.eq_3, if_neg (by simpa using h1), if_pos h2]
    simp only [wfTreeB, Bool.and_eq_true, wfTreeL_iff] at hwf
    rw [attach_map_eq_self _ _ (fun c hc => ih ⟨c, hc⟩ (hwf.2 c hc))]
  | case7 l c1 c2 rest h1 h2 =>
    intro hwf
    rw [ruTree.eq_3, if_neg (by simpa using h1), if_neg (by simpa using h2)]

/-- Conformance bounded by size implies invariant 3. -/
theorem wf_naryGe2_aux : ∀ n : Nat, ∀ t : RTree, tsize t ≤ n →
    wfTreeB t = true → naryGe2B t = true := by
  intro n
  induction n with
  | zero =>
    intro t h
    cases t with
    | node l cs => simp [tsize] at h
  | succ n ih =>
    intro t hle hwf
    cases t with
    | node l cs =>
      simp only [wfTreeB, Bool.and_eq_true, wfTreeL_iff] at hwf
      obtain ⟨har, hkids⟩ := hwf
      simp only [naryGe2B, Bool.and_eq_true, naryGe2L_iff]
      constructor
      · by_cases hn : isNaryLab l = true
        · rw [hn] at har ⊢
          rw [nary_not_unary l hn] at har
          simp only [Bool.false_eq_true, if_false, if_true] at har
          simpa using har
        · rw [(by simpa using hn : isNaryLab l = false)]
          simp
      · intro c hc
        refine ih c ?_ (hkids c hc)
        have h1 := tsize_le_of_mem hc
        have h2 : tsize (RTree.node l cs) = 1 + tsizeL cs := rfl
        simp only [tsize] at hle
        omega

/-- Conformance implies invariant 3. -/
theorem wf_naryGe2 (t : RTree) (h : wfTreeB t = true) :
    naryGe2B t = true :=
  wf_naryGe2_aux (tsize t) t le_rfl h

/-- Invariant 1 makes `simplify_unary_nodes` the identity. -/
theorem suTree_id : ∀ t : RTree, noUnaryChainB t = true → suTree t = t := by
  intro t
  induction t using suTree.induct with
  | case1 l cs h ih =>
    intro hch
    rw [suTree_nary l cs h]
    simp only [noUnaryChainB, noUnaryChainL_iff] at hch
    rw [attach_map_eq_self _ _ (fun c hc => ih ⟨c, hc⟩ (hch c hc).2)]
  | case2 l h1 h2 =>
    intro hch
    rw [suTree_unary_nil l (by simpa using h1) h2]
  | case3 l h1 h2 vl rest h3 =>
    intro hch
    exfalso
    simp only [noUnaryChainB, noUnaryChainL_iff] at hch
    have := (hch (.node vl []) (by simp)).1 h2
    rw [show (RTree.node vl ([] : List RTree)).lab = vl from rfl, h3]
      at this
    cases this
  | case4 l h1 h2 vl rest h3 l' vc vrest ih =>
    intro hch
    exfalso
    simp only [noUnaryChainB, noUnaryChainL_iff] at hch
    have := (hch (.node vl (vc :: vrest)) (by simp)).1 h2
    rw [show (RTree.node vl (vc :: vrest)).lab = vl from rfl, h3] at this
    cases this
  | case5 l h1 h2 vl vkids rest h3 ih =>
    intro hch
    rw [suTree_unary_nochain l vl vkids rest (by simpa using h1) h2
      (by simpa using h3)]
    simp only [noUnaryChainB, noUnaryChainL_iff] at hch
    rw [ih (hch (.node vl vkids) (by simp)).2]
  | case6 l cs h1 h2 =>
    intro hch
    rw [suTree_leaf l cs (by simpa using h1) (by simpa using h2)]

/-- Invariant 2 makes `simplify_n_ary_nodes` the identity. -/
theorem snTree_id : ∀ t : RTree, noDupNaryB t = true → snTree t = t := by
  intro t
  induction t using snTree.induct with
  | case1 l h =>
    intro hd
    rw [snTree_unary_nil l h]
  | case2 l h t ts ih =>
    intro hd
    rw [snTree_unary l t ts h]
    simp only [noDupNaryB, Bool.and_eq_true, noDupNaryL_iff] at hd
    rw [ih (hd.2 t (List.mem_cons_self t ts))]
  | case3 l cs h1 h2 cs' hs ih =>
    intro hd
    exfalso
    simp only [noDupNaryB, Bool.and_eq_true, noDupNaryL_iff] at hd
    obtain ⟨hown, -⟩ := hd
    rw [h2] at hown
    simp only [Bool.not_eq_true', Bool.and_eq_false_iff] at hown
    rcases hown with h | h
    · cases h
    · rw [List.any_eq_false] at h
      rw [(spliceSame_none_iff l cs).mpr (fun c hc => by
        simpa using h c hc)] at hs
      cases hs
  | case4 l cs h1 h2 hs ih =>
    intro hd
    rw [snTree_nary_nosplice l cs (by simpa using h1) h2 hs]
    simp only [noDupNaryB, Bool.and_eq_true, noDupNaryL_iff] at hd
    rw [attach_map_eq_self _ _ (fun c hc => ih ⟨c, hc⟩ (hd.2 c hc))]
  | case5 l cs h1 h2 =>
    intro hd
    rw [snTree_leaf l cs (by simpa using h1) (by simpa using h2)]

/-- Invariant 4 makes `reorder_or_nodes` the identity. -/
theorem roTree_id : ∀ t : RTree, orSortedB t = true → roTree t = t := by
  intro t
  induction t using roTree.induct with
  | case1 l h =>
    intro hso
    rw [roTree_unary_nil l h]
  | case2 l h t ts ih =>
    intro hso
    rw [roTree_unary l t ts h]
    simp only [orSortedB, Bool.and_eq_true, orSortedL_iff] at hso
    rw [ih (hso.2 t (List.mem_cons_self t ts))]
  | case3 cs h1 h2 ih =>
    intro hso
    rw [roTree_or cs]
    simp only [orSortedB, Bool.and_eq_true, orSortedL_iff] at hso
    obtain ⟨hown, hkids⟩ := hso
    rw [attach_map_eq_self _ _ (fun c hc => ih ⟨c, hc⟩ (hkids c hc))]
    rw [if_pos (by rfl)] at hown
    have hchain : List.Chain' (fun a b : String => a ≤ b)
        (List.map treePrefixStr cs) := (sortedStrB_iff_chain _).mp hown
    have hpw : List.Pairwise (fun a b : String => a ≤ b)
        (List.map treePrefixStr cs) := List.chain'_iff_pairwise.mp hchain
    have hsorted : List.Sorted
        (fun x y => treePrefixStr x ≤ treePrefixStr y) cs :=
      List.pairwise_map.mp hpw
    rw [List.Sorted.insertionSort_eq hsorted]
  | case4 l cs h1 h2 h3 ih =>
    intro hso
    rw [roTree_nary_other l cs (by simpa using h1) h2 h3]
    simp only [orSortedB, Bool.and_eq_true, orSortedL_iff] at hso
    rw [attach_map_eq_self _ _ (fun c hc => ih ⟨c, hc⟩ (hso.2 c hc))]
  | case5 l cs h1 h2 =>
    intro hso
    rw [roTree_leaf l cs (by simpa using h1) (by simpa using h2)]

/-- The four invariants established by one pass of `simplify()` on a
conformant tree, plus preservation of conformance. -/
theorem treeSimplify_invariants (t : RTree) (hwf : wfTreeB t = true) :
    wfTreeB (treeSimplify t) = true ∧
    noUnaryChainB (treeSimplify t) = true ∧
    noDupNaryB (treeSimplify t) = true ∧
    orSortedB (treeSimplify t) = true := by
  have h1 := suTree_wf t hwf
  have hc1 := suTree_chain t hwf
  have h2 := snTree_wf _ h1
  have hc2 := snTree_chain _ hc1
  have hd2 := snTree_dup _ h1
  have h3 := roTree_wf _ h2
  have hc3 := roTree_chain _ hc2
  have hd3 := roTree_dup _ hd2
  have hs3 := roTree_sorted _ h2
  have hru : treeSimplify t = roTree (snTree (suTree t)) := by
    show ruTree (roTree (snTree (suTree t))) = _
    exact ruTree_id _ h3
  rw [hru]
  exact ⟨h3, hc3, hd3, hs3⟩

/-- **C4 (counterexample).** The well-formed arena `?(|(*a))` (a `|` node
with a single child) violates the claim: after `simplify()` the node `?`
(id 1) still has the unary node `*` (id 3) as its child, so invariant 1
(no unary node has a unary child) does not hold for every AST. -/
theorem c4_counterexample :
    astQOrStar.WellFormed ∧
    1 ∈ (astQOrStar.simplify).Nodes ∧
    (astQOrStar.simplify).label 1 = "?" ∧
    3 ∈ (astQOrStar.simplify).children 1 ∧
    (astQOrStar.simplify).label 3 = "*" := by decide

/-- **C4 (amended).** On trees conforming to the data model of §3 (unary
nodes with exactly one child, n-ary nodes with at least two), `simplify()`
establishes all the structural invariants: no unary chains, no n-ary node
with a same-labelled child, every n-ary node keeps at least two children,
the children of `|` nodes sorted by the prefix string of their subtrees,
and conformance itself is preserved (the root sentinel keeps at most one
child structurally, `simplifyT` mapping its optional child slot).  The
unary-chain invariant genuinely needs the conformance hypothesis: the
singleton-`|` arena of the counterexample leaves `?*` behind because
`remove_unary_n_aries` runs after `simplify_unary_nodes`. -/
theorem c4_amended (t : RTree) (h : wfTreeB t = true) :
    noUnaryChainB (treeSimplify t) = true ∧
    noDupNaryB (treeSimplify t) = true ∧
    naryGe2B (treeSimplify t) = true ∧
    orSortedB (treeSimplify t) = true ∧
    wfTreeB (treeSimplify t) = true := by
  obtain ⟨hw, hc, hd, hs⟩ := treeSimplify_invariants t h
  exact ⟨hc, hd, wf_naryGe2 _ hw, hs, hw⟩

/-- Witness for the amended C4 on the conformant tree `.(a, +(b))`. -/
theorem c4_amended_witness : wfTreeB treeDotAPlusB = true ∧
    (noUnaryChainB (treeSimplify treeDotAPlusB) = true ∧
     noDupNaryB (treeSimplify treeDotAPlusB) = true ∧
     naryGe2B (treeSimplify treeDotAPlusB) = true ∧
     orSortedB (treeSimplify treeDotAPlusB) = true ∧
     wfTreeB (treeSimplify treeDotAPlusB) = true) :=
  ⟨by decide, c4_amended treeDotAPlusB (by decide)⟩

/-- **C5 (counterexample).** `simplify` is not idempotent on every AST: on
the well-formed arena `?(|(*a))`, the first run prints `?*a` and the
second collapses the leftover unary chain to `*a`, so the second run
changes the tree produced by the first. -/
theorem c5_counterexample :
    astQOrStar.WellFormed ∧
    ¬ astQOrStar.simplify.simplify = astQOrStar.simplify ∧
    astQOrStar.simplify.toPrefixRegexpStr = "?*a" ∧
    astQOrStar.simplify.simplify.toPrefixRegexpStr = "*a" := by decide

/-- **C5 (amended).** On trees conforming to the data model of §3,
`simplify()` is idempotent: the first run establishes every invariant and
each pass is the identity on a tree satisfying its invariant. -/
theorem c5_amended (t : RTree) (h : wfTreeB t = true) :
    treeSimplify (treeSimplify t) = treeSimplify t := by
  obtain ⟨hw, hc, hd, hs⟩ := treeSimplify_invariants t h
  show ruTree (roTree (snTree (suTree (treeSimplify t)))) = treeSimplify t
  rw [suTree_id _ hc, snTree_id _ hd, roTree_id _ hs, ruTree_id _ hw]

/-- Witness for the amended C5 on the conformant tree `.(a, +(b))`. -/
theorem c5_amended_witness : wfTreeB treeDotAPlusB = true ∧
    treeSimplify (treeSimplify treeDotAPlusB) =
      treeSimplify treeDotAPlusB :=
  ⟨by decide, c5_amended treeDotAPlusB (by decide)⟩


/-- Invariant propagation through an option-valued left fold. -/
theorem foldlM_opt_inv {α β : Type} (P : β → Prop) (f : β → α → Option β)
    (hf : ∀ b a b', f b a = some b' → P b → P b') :
    ∀ (l : List α) (b b' : β), l.foldlM f b = some b' → P b → P b' := by
  intro l
  induction l with
  | nil =>
    intro b b' h hp
    rw [List.foldlM_nil] at h
    injection h with h
    exact h ▸ hp
  | cons x xs ih =>
    intro b b' h hp
    rw [List.foldlM_cons] at h
    match hfx : f b x with
    | none =>
      rw [hfx] at h
      exact Option.noConfusion h
    | some b1 =>
      rw [hfx] at h
      exact ih b1 b' h (hf b x b1 hfx hp)

/-- The fingerprint test does not touch the result list. -/
theorem was_already_pushed_fr {V : Type} (st : FState V) (a : RegexpAst)
    (l d : Nat) :
    ((was_already_pushed st a l d).2).final_results = st.final_results := by
  by_cases hmem : (d, String.intercalate ("$") a.toPrefixRegexpList, l) ∈
    st.pushed
  · simp [was_already_pushed, hmem]
  · simp [was_already_pushed, hmem]

/-- The memoised objective does not touch the result list. -/
theorem compute_objective_value_fr {V : Type} (st : FState V)
    (objective : RegexpAst → List PExample → V) (a : RegexpAst)
    (examples : List PExample) :
    ((compute_objective_value st objective a examples).2).final_results =
      st.final_results := by
  cases hfind : st.memo.find? (fun p =>
      p.1 = String.intercalate ("$") a.toPrefixRegexpList) with
  | none => simp [compute_objective_value, hfind]
  | some p => simp [compute_objective_value, hfind]

/-- The expansion block never touches the result list. -/
theorem pushChildren_fr {V : Type}
    (objective : RegexpAst → List PExample → V) (examples : List PExample)
    (mutators : List MutFn) (ex : PExample) (w : List String) (i j : Nat)
    (ast : RegexpAst) (al : Nat) (st st2 : FState V)
    (h : pushChildren objective examples mutators ex w i j ast al st =
      some st2) :
    st2.final_results = st.final_results := by
  unfold pushChildren at h
  refine foldlM_opt_inv (fun s => s.final_results = st.final_results)
    _ ?_ _ st st2 h rfl
  intro st1 arc st1' h1 hp1
  refine Eq.trans ?_ hp1
  refine foldlM_opt_inv (fun s => s.final_results = st1.final_results)
    _ ?_ _ st1 st1' h1 rfl
  intro stA m stA' h2 hp2
  refine Eq.trans ?_ hp2
  refine foldlM_opt_inv (fun s => s.final_results = stA.final_results)
    _ ?_ _ stA stA' h2 rfl
  intro stB sk stB' h3 hp3
  refine Eq.trans ?_ hp3
  obtain ⟨sigma, k⟩ := sk
  rcases Option.bind_eq_some.mp h3 with ⟨mutated, hm, h3'⟩
  refine foldlM_opt_inv (fun s => s.final_results = stB.final_results)
    _ ?_ _ stB stB' h3' rfl
  intro stC pair stC' h4 hp4
  refine Eq.trans ?_ hp4
  try simp only [] at h4
  rcases hw : was_already_pushed stC pair.1.simplify pair.2
      (indices_to_depth examples i k) with ⟨seen, stD⟩
  rw [hw] at h4
  try simp only [] at h4
  have hDfr : stD.final_results = stC.final_results := by
    have hfr := was_already_pushed_fr stC pair.1.simplify pair.2
      (indices_to_depth examples i k)
    rw [hw] at hfr
    exact hfr
  cases seen with
  | true =>
    simp only [if_true] at h4
    injection h4 with h4
    rw [← h4]
    exact hDfr
  | false =>
    simp only [Bool.false_eq_true, if_false] at h4
    rcases ho : compute_objective_value stD objective pair.1.simplify
        examples with ⟨v, stE⟩
    rw [ho] at h4
    try simp only [] at h4
    injection h4 with h4
    have hEfr : stE.final_results = stD.final_results := by
      have hfr := compute_objective_value_fr stD objective pair.1.simplify
        examples
      rw [ho] at hfr
      exact hfr
    rw [← h4]
    exact hEfr.trans hDfr


/-- Loop invariant: every recorded result recognizes every example. -/
theorem fastLoop_inv {V : Type} [LinearOrder V] (examples : List PExample)
    (objective : RegexpAst → List PExample → V)
    (stop : List (V × RegexpAst) → Bool) (mutators : List MutFn) :
    ∀ (fuel : Nat) (st : FState V) (res : List (V × RegexpAst)),
      (∀ p ∈ st.final_results, ∀ e ∈ examples, p.2.recognizes e = true) →
      fastLoop examples objective stop mutators fuel st = some res →
      ∀ p ∈ res, ∀ e ∈ examples, p.2.recognizes e = true := by
  intro fuel
  induction fuel with
  | zero =>
    intro st res hinv h
    have h' : some st.final_results = some res := h
    injection h' with h'
    exact h' ▸ hinv
  | succ n ih =>
    intro st res hinv h
    rw [fastLoop] at h
    by_cases hemp : st.cbfs.is_empty = true
    · rw [if_pos hemp] at h
      injection h with h
      exact h ▸ hinv
    · rw [if_neg hemp] at h
      by_cases hstop : stop st.final_results = true
      · rw [if_pos hstop] at h
        injection h with h
        exact h ▸ hinv
      · rw [if_neg hstop] at h
        match hpop : st.cbfs.pop itemLe with
        | .error msg =>
          rw [hpop] at h
          exact Option.noConfusion h
        | .ok iq =>
          obtain ⟨item, q'⟩ := iq
          obtain ⟨hv, cnt, ast, al0, i0, j0⟩ := item
          rw [hpop] at h
          try simp only [] at h
          match hget : examples.get? i0 with
          | none =>
            rw [hget] at h
            exact Option.noConfusion h
          | some ex0 =>
            rw [hget] at h
            try simp only [] at h
            by_cases hj : j0 = (exWordList ex0).length
            · rw [if_pos hj] at h
              try simp only [] at h
              by_cases hbad : ((examples.take (i0 + 1)).any
                  (fun e => ! ast.recognizes e)) = true
              · rw [if_pos hbad] at h
                refine ih _ res ?_ h
                exact hinv
              · rw [if_neg hbad] at h
                by_cases hrec : (i0 + 1 = examples.length ∨
                    (examples.all (fun e => ast.recognizes e)) = true)
                · rw [if_pos hrec] at h
                  refine ih _ res ?_ h
                  intro p hp e he
                  rcases List.mem_append.mp hp with hp1 | hp1
                  · exact hinv p hp1 e he
                  · rw [List.mem_singleton] at hp1
                    subst hp1
                    rcases hrec with hlen | hall
                    · have hb' : ((examples.take (i0 + 1)).any
                          (fun e => ! ast.recognizes e)) = false := by
                        simpa using hbad
                      rw [List.any_eq_false] at hb'
                      have htake : examples.take (i0 + 1) = examples := by
                        rw [hlen, List.take_length]
                      rw [htake] at hb'
                      have := hb' e he
                      simpa using this
                    · rw [List.all_eq_true] at hall
                      exact hall e he
                · rw [if_neg hrec] at h
                  try simp only [] at h
                  match hget2 : examples.get? (i0 + 1) with
                  | none =>
                    rw [hget2] at h
                    exact Option.noConfusion h
                  | some ex =>
                    rw [hget2] at h
                    rcases Option.bind_eq_some.mp h with ⟨st2, hpush, h'⟩
                    refine ih _ res ?_ h'
                    rw [pushChildren_fr _ _ _ _ _ _ _ _ _ _ _ hpush]
                    exact hinv
            · rw [if_neg hj] at h
              try simp only [] at h
              by_cases hrec : (i0 = examples.length ∨
                  (examples.all (fun e => ast.recognizes e)) = true)
              · rw [if_pos hrec] at h
                refine ih _ res ?_ h
                intro p hp e he
                rcases List.mem_append.mp hp with hp1 | hp1
                · exact hinv p hp1 e he
                · rw [List.mem_singleton] at hp1
                  subst hp1
                  rcases hrec with hlen | hall
                  · exfalso
                    have hlt : i0 < examples.length := by
                      by_contra hge
                      rw [List.get?_eq_none.mpr (by omega)] at hget
                      exact Option.noConfusion hget
                    omega
                  · rw [List.all_eq_true] at hall
                    exact hall e he
              · rw [if_neg hrec] at h
                try simp only [] at h
                rw [hget] at h
                try simp only [] at h
                rcases Option.bind_eq_some.mp h with ⟨st2, hpush, h'⟩
                refine ih _ res ?_ h'
                rw [pushChildren_fr _ _ _ _ _ _ _ _ _ _ _ hpush]
                exact hinv

/-- **C1.** Every pair recorded in the results list returned by
`fast_from_strings` carries an AST recognizing every input example
(string or pattern automaton): results are only appended when the
popped AST either recognizes every example outright or has just passed
the end-of-last-example check over `examples[:i]` with `i` equal to
the number of examples. -/
theorem c1_recognizes {V : Type} [LinearOrder V] (examples : List PExample)
    (objective : RegexpAst → List PExample → V)
    (stop : List (V × RegexpAst) → Bool) (mutators : List MutFn)
    (init_value : V) (fuel : Nat) (res : List (V × RegexpAst))
    (h : fast_from_strings examples objective stop mutators init_value fuel
      = some res) :
    ∀ p ∈ res, ∀ e ∈ examples, p.2.recognizes e = true := by
  refine fastLoop_inv examples objective stop mutators fuel _ res ?_ h
  intro p hp
  exact absurd hp (List.not_mem_nil p)

/-- Witness for C1: a concrete run over the single example `"a"` with the
bot mutator and a constant objective terminates with exactly one recorded
result, and that result recognizes the example. -/
theorem c1_recognizes_witness :
    fast_from_strings [PExample.str ["a"]] (fun _ _ => (0 : Nat))
        (fun rs => rs.length == 1) [bot_mutate] 0 3 =
      some ((fast_from_strings [PExample.str ["a"]] (fun _ _ => (0 : Nat))
        (fun rs => rs.length == 1) [bot_mutate] 0 3).getD []) ∧
    ((fast_from_strings [PExample.str ["a"]] (fun _ _ => (0 : Nat))
        (fun rs => rs.length == 1) [bot_mutate] 0 3).getD []).length = 1 ∧
    ∀ p ∈ (fast_from_strings [PExample.str ["a"]] (fun _ _ => (0 : Nat))
        (fun rs => rs.length == 1) [bot_mutate] 0 3).getD [],
      ∀ e ∈ ([PExample.str ["a"]] : List PExample),
        p.2.recognizes e = true :=
  ⟨by decide, by decide, c1_recognizes [PExample.str ["a"]]
    (fun _ _ => (0 : Nat)) (fun rs => rs.length == 1) [bot_mutate] 0 3 _
    (by decide)⟩

end FastV
